import Mathlib

/-!
Verification development for the cookie repository's drift/merge
reconciliation engine.

The TypeScript sources are shallowly embedded: JavaScript objects become
association lists that keep insertion order, `Map` becomes an association
list with the same get/set/delete behaviour, JSON numbers are modelled as
integers (the repository only ever merges integer-valued JSON), thrown
exceptions become `Except`, and file-system reads become explicit `disk`
parameters (path to content).  Functions keep their source names.
-/

namespace Cookie

/-- JSON values as merged by `merge.ts`.  Object fields keep insertion
order, as JavaScript objects do for string keys. -/
inductive JsonValue where
  | null
  | bool (b : Bool)
  | num (n : Int)
  | str (s : String)
  | arr (elems : List JsonValue)
  | obj (fields : List (String × JsonValue))
deriving Repr

mutual

def jsonBeq : JsonValue → JsonValue → Bool
  | .null, .null => true
  | .bool a, .bool b => a == b
  | .num a, .num b => a == b
  | .str a, .str b => a == b
  | .arr a, .arr b => jsonBeqList a b
  | .obj a, .obj b => jsonBeqFields a b
  | _, _ => false

def jsonBeqList : List JsonValue → List JsonValue → Bool
  | [], [] => true
  | x :: xs, y :: ys => jsonBeq x y && jsonBeqList xs ys
  | _, _ => false

def jsonBeqFields : List (String × JsonValue) → List (String × JsonValue) → Bool
  | [], [] => true
  | (k, v) :: xs, (l, w) :: ys => k == l && jsonBeq v w && jsonBeqFields xs ys
  | _, _ => false

end

mutual

theorem jsonBeq_iff_eq : ∀ a b : JsonValue, jsonBeq a b = true ↔ a = b
  | .null, .null => by simp [jsonBeq]
  | .bool _, .bool _ => by simp [jsonBeq]
  | .num _, .num _ => by simp [jsonBeq]
  | .str _, .str _ => by simp [jsonBeq]
  | .arr x, .arr y => by simp [jsonBeq, jsonBeqList_iff_eq x y]
  | .obj x, .obj y => by simp [jsonBeq, jsonBeqFields_iff_eq x y]
  | .null, .bool _ | .null, .num _ | .null, .str _ | .null, .arr _ | .null, .obj _
  | .bool _, .null | .bool _, .num _ | .bool _, .str _ | .bool _, .arr _ | .bool _, .obj _
  | .num _, .null | .num _, .bool _ | .num _, .str _ | .num _, .arr _ | .num _, .obj _
  | .str _, .null | .str _, .bool _ | .str _, .num _ | .str _, .arr _ | .str _, .obj _
  | .arr _, .null | .arr _, .bool _ | .arr _, .num _ | .arr _, .str _ | .arr _, .obj _
  | .obj _, .null | .obj _, .bool _ | .obj _, .num _ | .obj _, .str _ | .obj _, .arr _ => by
      simp [jsonBeq]

theorem jsonBeqList_iff_eq : ∀ xs ys : List JsonValue, jsonBeqList xs ys = true ↔ xs = ys
  | [], [] => by simp [jsonBeqList]
  | x :: xs, y :: ys => by simp [jsonBeqList, jsonBeq_iff_eq x y, jsonBeqList_iff_eq xs ys]
  | [], _ :: _ => by simp [jsonBeqList]
  | _ :: _, [] => by simp [jsonBeqList]

theorem jsonBeqFields_iff_eq :
    ∀ xs ys : List (String × JsonValue), jsonBeqFields xs ys = true ↔ xs = ys
  | [], [] => by simp [jsonBeqFields]
  | (k, v) :: xs, (l, w) :: ys => by
      simp [jsonBeqFields, jsonBeq_iff_eq v w, jsonBeqFields_iff_eq xs ys, and_assoc]
  | [], _ :: _ => by simp [jsonBeqFields]
  | _ :: _, [] => by simp [jsonBeqFields]

end

instance : DecidableEq JsonValue := fun a b =>
  decidable_of_iff (jsonBeq a b = true) (jsonBeq_iff_eq a b)

/-- `JsonObject` from `merge.ts`: a JSON object is its ordered field list. -/
abbrev JObj := List (String × JsonValue)

/-- JavaScript `typeof` restricted to JSON values (`typeof null` is
`"object"`). -/
def jsTypeof : JsonValue → String
  | .null => "object"
  | .bool _ => "boolean"
  | .num _ => "number"
  | .str _ => "string"
  | .arr _ => "object"
  | .obj _ => "object"

/-- JavaScript `===` on JSON values: value equality on primitives; two
object or array expressions are reference-distinct in general, so the
embedding conservatively answers `false` for them (callers below only use
this as a fast path before a structural comparison). -/
def jsStrictEq : JsonValue → JsonValue → Bool
  | .null, .null => true
  | .bool a, .bool b => a == b
  | .num a, .num b => a == b
  | .str a, .str b => a == b
  | _, _ => false

/-- `Object.entries`: own enumerable entries, index keys for arrays. -/
def jsEntries : JsonValue → List (String × JsonValue)
  | .obj fields => fields
  | .arr elems => (elems.enum.map fun (i, v) => (toString i, v))
  | _ => []

/-- JavaScript property read `b[key]` on a JSON value: object fields by
name, array elements by canonical index key, and the array `length`
property.  Absent properties are `none` (JavaScript `undefined`). -/
def jsGet : JsonValue → String → Option JsonValue
  | .obj fields, key => (fields.find? (fun f => f.1 = key)).map (·.2)
  | .arr elems, key =>
      if key = "length" then some (.num elems.length)
      else match key.toNat? with
        | some n => if toString n = key then elems[n]? else none
        | none => none
  | _, _ => none

mutual

/-- `deepEqual` from `merge.ts`, including its JavaScript quirks: the
object branch compares `a`'s entries against property reads of `b`, so an
object can be deep-equal to an array with matching index keys while the
array branch requires both sides to be arrays. -/
def deepEqual (a b : JsonValue) : Bool :=
  if jsStrictEq a b then true
  else if jsTypeof a ≠ jsTypeof b then false
  else match a, b with
    | .null, _ => false
    | _, .null => false
    | .arr as', .arr bs => as'.length == bs.length && deepEqualElems 0 as' (.arr bs)
    | .arr _, _ => false
    | .obj fields, b =>
        if jsTypeof b = "object" then
          fields.length == (jsEntries b).length && deepEqualFields fields b
        else false
    | _, _ => false

/-- The `a.every((item, index) => deepEqual(item, b[index]))` loop. -/
def deepEqualElems (i : Nat) (as' : List JsonValue) (b : JsonValue) : Bool :=
  match as' with
  | [] => true
  | x :: rest =>
      (match jsGet b (toString i) with
        | some y => deepEqual x y
        | none => false)
      && deepEqualElems (i + 1) rest b

/-- The `aEntries.every(([key, value]) => deepEqual(value, b[key]))` loop;
a missing property compares unequal (`deepEqual(value, undefined)`). -/
def deepEqualFields (fields : List (String × JsonValue)) (b : JsonValue) : Bool :=
  match fields with
  | [] => true
  | (key, value) :: rest =>
      (match jsGet b key with
        | some w => deepEqual value w
        | none => false)
      && deepEqualFields rest b

end

/-! ## The JSON fragment merger (`merge.ts`) -/

/-- `MergeConflict` from `merge.ts`. -/
structure MergeConflict where
  path : String
  previousSource : String
  nextSource : String
  previousValue : JsonValue
  nextValue : JsonValue
deriving Repr, DecidableEq

/-- The `sources: Map<string, string>` of `mergeJsonFragments`, embedded
as an insertion-ordered association list. -/
abbrev SourceMap := List (String × String)

def mapGet (m : SourceMap) (k : String) : Option String :=
  (m.find? (fun e => e.1 = k)).map (·.2)

/-- `Map.set`: update in place when the key exists, else append. -/
def mapSet (m : SourceMap) (k v : String) : SourceMap :=
  if m.any (fun e => e.1 = k) then m.map (fun e => if e.1 = k then (k, v) else e)
  else m ++ [(k, v)]

/-- JavaScript `Array.prototype.join(".")`. -/
def joinDots : List String → String
  | [] => ""
  | [p] => p
  | p :: rest => p ++ "." ++ joinDots rest

def formatPath (path : List String) : String :=
  if path.isEmpty then "<root>" else joinDots path

def isPlainObject : JsonValue → Bool
  | .obj _ => true
  | _ => false

/-- JavaScript `s.startsWith(p)`. -/
def jsStartsWith (s p : String) : Bool :=
  p.data.isPrefixOf s.data

/-- `clearNestedSources`: drop every tracked key equal to the formatted
path or lying under it (prefixed by it plus a dot). -/
def clearNestedSources (sources : SourceMap) (path : List String) : SourceMap :=
  let pathKey := formatPath path
  sources.filter (fun e => ¬ (e.1 = pathKey ∨ jsStartsWith e.1 (pathKey ++ ".") = true))

/-- `recordConflictIfNeeded` from `merge.ts`. -/
def recordConflictIfNeeded (existingValue : Option JsonValue) (nextValue : JsonValue)
    (source : String) (sources : SourceMap) (conflicts : List MergeConflict)
    (path : List String) : List MergeConflict :=
  match mapGet sources (formatPath path) with
  | none => conflicts
  | some previousSource =>
      if previousSource = source then conflicts
      else match existingValue with
        | none => conflicts
        | some ev =>
            if deepEqual ev nextValue then conflicts
            else conflicts ++ [{ path := formatPath path, previousSource, nextSource := source,
                                 previousValue := ev, nextValue }]

/-- Property read `target[key]` on an object. -/
def objGet (o : JObj) (k : String) : Option JsonValue :=
  (o.find? (fun f => f.1 = k)).map (·.2)

/-- Property write `target[key] = v`: overwrite in place when the key
exists (JavaScript keeps the key's insertion position), else append. -/
def objSet (o : JObj) (k : String) (v : JsonValue) : JObj :=
  if o.any (fun f => f.1 = k) then o.map (fun f => if f.1 = k then (k, v) else f)
  else o ++ [(k, v)]

mutual

/-- `mergeObject` from `merge.ts`.  The in-place mutation of `target`,
`sources` and `conflicts` becomes explicit state threading; the body of
the `for (const [key, fragmentValue] of Object.entries(fragment))` loop is
the sibling function `mergeEntry`. -/
def mergeObject (target : JObj) (fragment : JObj) (source : String)
    (sources : SourceMap) (conflicts : List MergeConflict) (path : List String) :
    JObj × SourceMap × List MergeConflict :=
  match fragment with
  | [] => (target, sources, conflicts)
  | (key, fragmentValue) :: rest =>
      let r := mergeEntry target key fragmentValue source sources conflicts path
      mergeObject r.1 rest source r.2.1 r.2.2 path

/-- One iteration of the `mergeObject` loop: merge `fragmentValue` into
`target` at `key`.  In the source, `structuredClone(fragmentValue)` copies
the fragment value before insertion; on trees the copy is the value
itself. -/
def mergeEntry (target : JObj) (key : String) (fragmentValue : JsonValue) (source : String)
    (sources : SourceMap) (conflicts : List MergeConflict) (path : List String) :
    JObj × SourceMap × List MergeConflict :=
  let nextPath := path ++ [key]
  let existingValue := objGet target key
  match fragmentValue with
  | .obj ff =>
    match existingValue with
    | some (.obj ef) =>
        let r := mergeObject ef ff source sources conflicts nextPath
        (objSet target key (.obj r.1), r.2.1, r.2.2)
    | _ =>
        let conflicts' :=
          match existingValue with
          | some _ => recordConflictIfNeeded existingValue (.obj ff) source sources conflicts
              nextPath
          | none => conflicts
        let sources' := clearNestedSources sources nextPath
        let r := mergeObject [] ff source sources' conflicts' nextPath
        (objSet target key (.obj r.1), r.2.1, r.2.2)
  | _ =>
    let conflicts' := recordConflictIfNeeded existingValue fragmentValue source sources
      conflicts nextPath
    let sources' := clearNestedSources sources nextPath
    let target' := objSet target key fragmentValue
    let sources'' := mapSet sources' (formatPath nextPath) source
    (target', sources'', conflicts')

end

/-- `JsonFragment` from `merge.ts`. -/
structure JsonFragment where
  source : String
  value : JObj
deriving Repr, DecidableEq

/-- `MergeResult` from `merge.ts`. -/
structure MergeResult where
  merged : JObj
  conflicts : List MergeConflict
deriving Repr, DecidableEq

/-- The fragment loop of `mergeJsonFragments`. -/
def mergeRun (target : JObj) (sources : SourceMap) (conflicts : List MergeConflict) :
    List JsonFragment → JObj × SourceMap × List MergeConflict
  | [] => (target, sources, conflicts)
  | fragment :: rest =>
      let r := mergeObject target fragment.value fragment.source sources conflicts []
      mergeRun r.1 r.2.1 r.2.2 rest

/-- `mergeJsonFragments` from `merge.ts`: start from a deep clone of the
base (on trees, the base itself), an empty source map and no conflicts,
then merge each fragment in list order. -/
def mergeJsonFragments (base : JObj) (fragments : List JsonFragment) : MergeResult :=
  let r := mergeRun base [] [] fragments
  { merged := r.1, conflicts := r.2.2 }

/-- Read a nested value of an object along a component path (used only to
state claims about who wrote where; not part of the source). -/
def objGetPath (o : JObj) : List String → Option JsonValue
  | [] => some (.obj o)
  | k :: rest =>
      match objGet o k with
      | some (.obj inner) => objGetPath inner rest
      | some v => if rest.isEmpty then some v else none
      | none => none

/-! ## Conflict soundness for the merger -/

/-- Every conflict the merger can append: distinct sources, values that
are not deep-equal, and at most one side a plain object (an object merged
into an object descends instead of conflicting). -/
def SoundConflict (c : MergeConflict) : Prop :=
  c.previousSource ≠ c.nextSource ∧ deepEqual c.previousValue c.nextValue = false ∧
    (isPlainObject c.previousValue = false ∨ isPlainObject c.nextValue = false)

theorem recordConflictIfNeeded_spec (existingValue : Option JsonValue) (nextValue : JsonValue)
    (source : String) (sources : SourceMap) (conflicts : List MergeConflict)
    (path : List String) :
    recordConflictIfNeeded existingValue nextValue source sources conflicts path = conflicts ∨
    ∃ ev previousSource,
      existingValue = some ev ∧
      mapGet sources (formatPath path) = some previousSource ∧
      previousSource ≠ source ∧ deepEqual ev nextValue = false ∧
      recordConflictIfNeeded existingValue nextValue source sources conflicts path =
        conflicts ++ [⟨formatPath path, previousSource, source, ev, nextValue⟩] := by
  unfold recordConflictIfNeeded
  cases h : mapGet sources (formatPath path) with
  | none => exact Or.inl rfl
  | some previousSource =>
      by_cases hs : previousSource = source
      · exact Or.inl (by simp [hs])
      · cases existingValue with
        | none => exact Or.inl (by simp [hs])
        | some ev =>
            by_cases hd : deepEqual ev nextValue = true
            · exact Or.inl (by simp [hs, hd])
            · exact Or.inr ⟨ev, previousSource, rfl, rfl, hs, by simpa using hd,
                by simp [hs, hd]⟩

theorem mergeEntry_scalar_sound (target : JObj) (key : String) (v : JsonValue)
    (source : String) (sources : SourceMap) (conflicts : List MergeConflict)
    (path : List String) (hv : isPlainObject v = false) :
    ∃ t, (mergeEntry target key v source sources conflicts path).2.2 = conflicts ++ t ∧
      ∀ c ∈ t, SoundConflict c := by
  have hrec := recordConflictIfNeeded_spec (objGet target key) v source sources conflicts
    (path ++ [key])
  have hbody : (mergeEntry target key v source sources conflicts path).2.2 =
      recordConflictIfNeeded (objGet target key) v source sources conflicts (path ++ [key]) := by
    cases v with
    | obj ff => simp [isPlainObject] at hv
    | null => rfl
    | bool b => rfl
    | num n => rfl
    | str s => rfl
    | arr elems => rfl
  rcases hrec with h | ⟨ev, ps, _, _, hne, hde, h⟩
  · exact ⟨[], by rw [hbody, h, List.append_nil], by simp⟩
  · refine ⟨[⟨formatPath (path ++ [key]), ps, source, ev, v⟩], by rw [hbody, h], ?_⟩
    intro c hc
    rcases List.mem_singleton.1 hc with rfl
    exact ⟨hne, hde, Or.inr hv⟩

theorem record_nonobj_prev_sound (ev nextValue : JsonValue) (source : String)
    (sources : SourceMap) (conflicts : List MergeConflict) (path : List String)
    (hev : isPlainObject ev = false) :
    ∃ t, recordConflictIfNeeded (some ev) nextValue source sources conflicts path =
        conflicts ++ t ∧ ∀ c ∈ t, SoundConflict c := by
  rcases recordConflictIfNeeded_spec (some ev) nextValue source sources conflicts path with
    h | ⟨ev', ps, hev', _, hne, hde, h⟩
  · exact ⟨[], by rw [h, List.append_nil], by simp⟩
  · injection hev' with h'
    subst h'
    refine ⟨[⟨formatPath path, ps, source, ev, nextValue⟩], h, ?_⟩
    intro c hc
    rcases List.mem_singleton.1 hc with rfl
    exact ⟨hne, hde, Or.inl hev⟩

mutual

theorem mergeObject_conflicts_sound :
    ∀ (target : JObj) (fragment : JObj) (source : String) (sources : SourceMap)
      (conflicts : List MergeConflict) (path : List String),
    ∃ t, (mergeObject target fragment source sources conflicts path).2.2 = conflicts ++ t ∧
      ∀ c ∈ t, SoundConflict c
  | target, [], source, sources, conflicts, path =>
      ⟨[], by simp [mergeObject], by simp⟩
  | target, (key, v) :: rest, source, sources, conflicts, path => by
      obtain ⟨t1, h1, hs1⟩ := mergeEntry_conflicts_sound target key v source sources conflicts
        path
      obtain ⟨t2, h2, hs2⟩ := mergeObject_conflicts_sound
        (mergeEntry target key v source sources conflicts path).1 rest source
        (mergeEntry target key v source sources conflicts path).2.1
        (mergeEntry target key v source sources conflicts path).2.2 path
      refine ⟨t1 ++ t2, ?_, ?_⟩
      · show (mergeObject target ((key, v) :: rest) source sources conflicts path).2.2 = _
        rw [mergeObject, h2, h1, List.append_assoc]
      · intro c hc
        rcases List.mem_append.1 hc with h | h
        exacts [hs1 c h, hs2 c h]

theorem mergeEntry_conflicts_sound :
    ∀ (target : JObj) (key : String) (v : JsonValue) (source : String) (sources : SourceMap)
      (conflicts : List MergeConflict) (path : List String),
    ∃ t, (mergeEntry target key v source sources conflicts path).2.2 = conflicts ++ t ∧
      ∀ c ∈ t, SoundConflict c
  | target, key, .null, source, sources, conflicts, path =>
      mergeEntry_scalar_sound target key .null source sources conflicts path rfl
  | target, key, .bool b, source, sources, conflicts, path =>
      mergeEntry_scalar_sound target key (.bool b) source sources conflicts path rfl
  | target, key, .num n, source, sources, conflicts, path =>
      mergeEntry_scalar_sound target key (.num n) source sources conflicts path rfl
  | target, key, .str s, source, sources, conflicts, path =>
      mergeEntry_scalar_sound target key (.str s) source sources conflicts path rfl
  | target, key, .arr elems, source, sources, conflicts, path =>
      mergeEntry_scalar_sound target key (.arr elems) source sources conflicts path rfl
  | target, key, .obj ff, source, sources, conflicts, path => by
      cases hx : objGet target key with
      | some ev =>
          cases ev with
          | obj ef =>
              obtain ⟨t1, h1, hs1⟩ := mergeObject_conflicts_sound ef ff source sources conflicts
                (path ++ [key])
              exact ⟨t1, by simp [mergeEntry, hx, h1], hs1⟩
          | null =>
              obtain ⟨t0, h0, hs0⟩ := record_nonobj_prev_sound .null (.obj ff) source sources
                conflicts (path ++ [key]) rfl
              obtain ⟨t1, h1, hs1⟩ := mergeObject_conflicts_sound []
                ff source
                (clearNestedSources sources (path ++ [key]))
                (recordConflictIfNeeded (some .null) (.obj ff) source sources conflicts
                  (path ++ [key]))
                (path ++ [key])
              refine ⟨t0 ++ t1, ?_, ?_⟩
              · simp only [mergeEntry, hx]
                rw [h1, h0, List.append_assoc]
              · intro c hc
                rcases List.mem_append.1 hc with h | h
                exacts [hs0 c h, hs1 c h]
          | bool b =>
              obtain ⟨t0, h0, hs0⟩ := record_nonobj_prev_sound (.bool b) (.obj ff) source sources
                conflicts (path ++ [key]) rfl
              obtain ⟨t1, h1, hs1⟩ := mergeObject_conflicts_sound []
                ff source
                (clearNestedSources sources (path ++ [key]))
                (recordConflictIfNeeded (some (.bool b)) (.obj ff) source sources conflicts
                  (path ++ [key]))
                (path ++ [key])
              refine ⟨t0 ++ t1, ?_, ?_⟩
              · simp only [mergeEntry, hx]
                rw [h1, h0, List.append_assoc]
              · intro c hc
                rcases List.mem_append.1 hc with h | h
                exacts [hs0 c h, hs1 c h]
          | num n =>
              obtain ⟨t0, h0, hs0⟩ := record_nonobj_prev_sound (.num n) (.obj ff) source sources
                conflicts (path ++ [key]) rfl
              obtain ⟨t1, h1, hs1⟩ := mergeObject_conflicts_sound []
                ff source
                (clearNestedSources sources (path ++ [key]))
                (recordConflictIfNeeded (some (.num n)) (.obj ff) source sources conflicts
                  (path ++ [key]))
                (path ++ [key])
              refine ⟨t0 ++ t1, ?_, ?_⟩
              · simp only [mergeEntry, hx]
                rw [h1, h0, List.append_assoc]
              · intro c hc
                rcases List.mem_append.1 hc with h | h
                exacts [hs0 c h, hs1 c h]
          | str s =>
              obtain ⟨t0, h0, hs0⟩ := record_nonobj_prev_sound (.str s) (.obj ff) source sources
                conflicts (path ++ [key]) rfl
              obtain ⟨t1, h1, hs1⟩ := mergeObject_conflicts_sound []
                ff source
                (clearNestedSources sources (path ++ [key]))
                (recordConflictIfNeeded (some (.str s)) (.obj ff) source sources conflicts
                  (path ++ [key]))
                (path ++ [key])
              refine ⟨t0 ++ t1, ?_, ?_⟩
              · simp only [mergeEntry, hx]
                rw [h1, h0, List.append_assoc]
              · intro c hc
                rcases List.mem_append.1 hc with h | h
                exacts [hs0 c h, hs1 c h]
          | arr elems =>
              obtain ⟨t0, h0, hs0⟩ := record_nonobj_prev_sound (.arr elems) (.obj ff) source
                sources conflicts (path ++ [key]) rfl
              obtain ⟨t1, h1, hs1⟩ := mergeObject_conflicts_sound []
                ff source
                (clearNestedSources sources (path ++ [key]))
                (recordConflictIfNeeded (some (.arr elems)) (.obj ff) source sources conflicts
                  (path ++ [key]))
                (path ++ [key])
              refine ⟨t0 ++ t1, ?_, ?_⟩
              · simp only [mergeEntry, hx]
                rw [h1, h0, List.append_assoc]
              · intro c hc
                rcases List.mem_append.1 hc with h | h
                exacts [hs0 c h, hs1 c h]
      | none =>
          obtain ⟨t1, h1, hs1⟩ := mergeObject_conflicts_sound []
            ff source (clearNestedSources sources (path ++ [key])) conflicts (path ++ [key])
          exact ⟨t1, by simp [mergeEntry, hx, h1], hs1⟩

end

theorem mergeRun_conflicts_sound :
    ∀ (fragments : List JsonFragment) (target : JObj) (sources : SourceMap)
      (conflicts : List MergeConflict),
    ∃ t, (mergeRun target sources conflicts fragments).2.2 = conflicts ++ t ∧
      ∀ c ∈ t, SoundConflict c := by
  intro fragments
  induction fragments with
  | nil => exact fun target sources conflicts => ⟨[], by simp [mergeRun], by simp⟩
  | cons f rest ih =>
      intro target sources conflicts
      obtain ⟨t1, h1, hs1⟩ :=
        mergeObject_conflicts_sound target f.value f.source sources conflicts []
      obtain ⟨t2, h2, hs2⟩ := ih (mergeObject target f.value f.source sources conflicts []).1
        (mergeObject target f.value f.source sources conflicts []).2.1
        (mergeObject target f.value f.source sources conflicts []).2.2
      refine ⟨t1 ++ t2, ?_, ?_⟩
      · show (mergeRun target sources conflicts (f :: rest)).2.2 = _
        rw [mergeRun, h2, h1, List.append_assoc]
      · intro c hc
        rcases List.mem_append.1 hc with h | h
        exacts [hs1 c h, hs2 c h]

/-- Every conflict `mergeJsonFragments` returns pairs two distinct
sources with values that are not deep-equal, at most one of them an
object. -/
theorem mergeJsonFragments_conflicts_sound (base : JObj) (fragments : List JsonFragment) :
    ∀ c ∈ (mergeJsonFragments base fragments).conflicts, SoundConflict c := by
  obtain ⟨t, h, hs⟩ := mergeRun_conflicts_sound fragments base [] []
  intro c hc
  have : (mergeJsonFragments base fragments).conflicts = t := by
    simp only [mergeJsonFragments]
    rw [h]
    simp
  exact hs c (this ▸ hc)

theorem mergeRun_append (fs gs : List JsonFragment) :
    ∀ (target : JObj) (sources : SourceMap) (conflicts : List MergeConflict),
    mergeRun target sources conflicts (fs ++ gs) =
      mergeRun (mergeRun target sources conflicts fs).1
        (mergeRun target sources conflicts fs).2.1
        (mergeRun target sources conflicts fs).2.2 gs := by
  induction fs with
  | nil => intro target sources conflicts; simp [mergeRun]
  | cons f rest ih => intro target sources conflicts; rw [List.cons_append, mergeRun, mergeRun, ih]

/-- Conflicts accumulate: merging further fragments never removes a
previously recorded conflict from the returned list. -/
theorem mergeJsonFragments_conflicts_monotone (base : JObj) (fs gs : List JsonFragment) :
    ∃ extra, (mergeJsonFragments base (fs ++ gs)).conflicts =
      (mergeJsonFragments base fs).conflicts ++ extra := by
  obtain ⟨t, h, _⟩ := mergeRun_conflicts_sound gs (mergeRun base [] [] fs).1
    (mergeRun base [] [] fs).2.1 (mergeRun base [] [] fs).2.2
  exact ⟨t, by simp only [mergeJsonFragments, mergeRun_append]; rw [h]⟩

/-! ## Disjoint fragments never conflict -/

/-- The string `k` names the path `t` itself or a path strictly below it
(dot-joined). -/
def underKey (t k : String) : Prop :=
  k = t ∨ (t.data ++ ['.']) <+: k.data

/-- A dot-free string (a single path component). -/
def NoDot (s : String) : Prop := '.' ∉ s.data

instance (s : String) : Decidable (NoDot s) :=
  inferInstanceAs (Decidable ('.' ∉ s.data))

theorem String.data_inj {a b : String} (h : a.data = b.data) : a = b :=
  congrArg String.mk h

theorem dotted_prefix_eq {a b : String} (_ha : NoDot a) (hb : NoDot b)
    (hp : (a.data ++ ['.']) <+: (b.data ++ ['.'])) : a = b := by
  rcases Nat.lt_or_ge a.data.length b.data.length with hlt | hge
  · exfalso
    have heq := List.prefix_iff_eq_take.1 hp
    have htake : (b.data ++ ['.']).take (a.data ++ ['.']).length =
        b.data.take (a.data ++ ['.']).length :=
      List.take_append_of_le_length
        (by simp only [List.length_append, List.length_singleton]; omega)
    have hmem : ('.' : Char) ∈ (a.data ++ ['.']) := by simp
    rw [heq, htake] at hmem
    exact hb ((List.take_subset _ _) hmem)
  · have hlen : (a.data ++ ['.']).length = (b.data ++ ['.']).length := by
      have := hp.length_le
      simp only [List.length_append, List.length_singleton] at this ⊢
      omega
    have heq := hp.eq_of_length hlen
    exact String.data_inj (by simpa using heq)

theorem underKey_unique {t h k : String} (ht : NoDot t) (hh : NoDot h)
    (hkt : underKey t k) (hkh : underKey h k) : t = h := by
  rcases hkt with rfl | hpt
  · rcases hkh with rfl | hph
    · rfl
    · exact absurd (hph.subset (by simp)) ht
  · rcases hkh with rfl | hph
    · exact absurd (hpt.subset (by simp)) hh
    · rcases List.prefix_or_prefix_of_prefix hpt hph with hp | hp
      · exact dotted_prefix_eq ht hh hp
      · exact (dotted_prefix_eq hh ht hp).symm

theorem underKey_joinDots (h : String) (rest : List String) :
    underKey h (joinDots (h :: rest)) := by
  cases rest with
  | nil => exact Or.inl rfl
  | cons p ps =>
      right
      show (h.data ++ ['.']) <+: (h ++ "." ++ joinDots (p :: ps)).data
      refine ⟨(joinDots (p :: ps)).data, ?_⟩
      simp [String.data_append]

/-- The anchor (first component) of a lookup path. -/
def anchorOf (path : List String) (key : String) : String :=
  match path with
  | [] => key
  | h :: _ => h

theorem anchorOf_append (path : List String) (key k : String) :
    anchorOf (path ++ [key]) k = anchorOf path key := by
  cases path <;> rfl

theorem underKey_formatPath (path : List String) (key : String) :
    underKey (anchorOf path key) (formatPath (path ++ [key])) := by
  cases path with
  | nil => simpa [formatPath, anchorOf] using underKey_joinDots key []
  | cons h rest =>
      simpa [formatPath, anchorOf] using underKey_joinDots h (rest ++ [key])

/-- Tracked-source invariant while one fragment merges: every tracked key
lies under an old fragment's top-level key, or was written by the current
source under one of its own top-level keys `K`. -/
def SrcInv (K oldKeys : List String) (source : String) (sources : SourceMap) : Prop :=
  ∀ e ∈ sources, (∃ t ∈ oldKeys, underKey t e.1) ∨ (e.2 = source ∧ ∃ t ∈ K, underKey t e.1)

theorem mapGet_mem {m : SourceMap} {k v : String} (h : mapGet m k = some v) : (k, v) ∈ m := by
  unfold mapGet at h
  cases hf : m.find? (fun e => e.1 = k) with
  | none => rw [hf] at h; simp at h
  | some e =>
      rw [hf] at h
      have hk : e.1 = k := by simpa using List.find?_some hf
      have hv : e.2 = v := by simpa using h
      have hmem := List.mem_of_find?_eq_some hf
      obtain ⟨e1, e2⟩ := e
      simp only at hk hv
      rw [← hk, ← hv]
      exact hmem

theorem recordConflictIfNeeded_noop {existingValue : Option JsonValue} {nextValue : JsonValue}
    {source : String} {sources : SourceMap} {conflicts : List MergeConflict}
    {path : List String}
    (h : ∀ ps, mapGet sources (formatPath path) = some ps → ps = source) :
    recordConflictIfNeeded existingValue nextValue source sources conflicts path = conflicts := by
  unfold recordConflictIfNeeded
  cases hm : mapGet sources (formatPath path) with
  | none => rfl
  | some ps => simp [h ps hm]

theorem srcInv_lookup {K oldKeys : List String} {source : String} {sources : SourceMap}
    (path : List String) (key : String)
    (HK : ∀ t ∈ K, NoDot t) (HO : ∀ t ∈ oldKeys, NoDot t)
    (HD : ∀ t ∈ K, t ∉ oldKeys) (Ha : anchorOf path key ∈ K)
    (Hs : SrcInv K oldKeys source sources) :
    ∀ ps, mapGet sources (formatPath (path ++ [key])) = some ps → ps = source := by
  intro ps hm
  have hmem := mapGet_mem hm
  rcases Hs _ hmem with ⟨t, ht, hu⟩ | ⟨hv, _⟩
  · have heq := underKey_unique (HO t ht) (HK _ Ha) hu (underKey_formatPath path key)
    exact absurd (heq ▸ ht) (HD _ Ha)
  · exact hv

theorem srcInv_clear {K oldKeys : List String} {source : String} {sources : SourceMap}
    (path : List String) (Hs : SrcInv K oldKeys source sources) :
    SrcInv K oldKeys source (clearNestedSources sources path) := by
  intro e he
  exact Hs e (List.mem_filter.1 he).1

theorem mapSet_mem {m : SourceMap} {k v : String} {e : String × String}
    (h : e ∈ mapSet m k v) : e ∈ m ∨ e = (k, v) := by
  unfold mapSet at h
  split at h
  · rcases List.mem_map.1 h with ⟨f, hf, he⟩
    by_cases hk : f.1 = k
    · right; rw [← he]; simp [hk]
    · left; rw [← he]; simp [hk]; exact hf
  · rcases List.mem_append.1 h with h | h
    · exact Or.inl h
    · exact Or.inr (by simpa using h)

theorem srcInv_set {K oldKeys : List String} {source : String} {sources : SourceMap}
    (path : List String) (key : String) (Ha : anchorOf path key ∈ K)
    (Hs : SrcInv K oldKeys source sources) :
    SrcInv K oldKeys source (mapSet sources (formatPath (path ++ [key])) source) := by
  intro e he
  rcases mapSet_mem he with h | rfl
  · exact Hs e h
  · exact Or.inr ⟨rfl, anchorOf path key, Ha, underKey_formatPath path key⟩

/-- Hypothesis shape for the disjointness induction: at the root every
fragment key must be an allowed anchor; below the root the path's first
component must be. -/
def AnchorHyp (K : List String) (path : List String) (fragment : JObj) : Prop :=
  match path with
  | [] => ∀ p ∈ fragment, p.1 ∈ K
  | h :: _ => h ∈ K

theorem anchorHyp_mem {K path} {key : String} {v : JsonValue} {rest : JObj}
    (h : AnchorHyp K path ((key, v) :: rest)) : anchorOf path key ∈ K := by
  cases path with
  | nil => exact h (key, v) (by simp)
  | cons a l => exact h

theorem anchorHyp_tail {K path} {key : String} {v : JsonValue} {rest : JObj}
    (h : AnchorHyp K path ((key, v) :: rest)) : AnchorHyp K path rest := by
  cases path with
  | nil => exact fun p hp => h p (List.mem_cons_of_mem _ hp)
  | cons a l => exact h

theorem anchorHyp_extend {K path} {key : String} (ff : JObj)
    (h : anchorOf path key ∈ K) : AnchorHyp K (path ++ [key]) ff := by
  cases path with
  | nil => exact h
  | cons a l => exact h

mutual

theorem mergeObject_disjoint :
    ∀ (target fragment : JObj) (source : String) (sources : SourceMap)
      (conflicts : List MergeConflict) (path : List String) (K oldKeys : List String),
    (∀ t ∈ K, NoDot t) → (∀ t ∈ oldKeys, NoDot t) → (∀ t ∈ K, t ∉ oldKeys) →
    AnchorHyp K path fragment →
    SrcInv K oldKeys source sources →
    (mergeObject target fragment source sources conflicts path).2.2 = conflicts ∧
      SrcInv K oldKeys source (mergeObject target fragment source sources conflicts path).2.1
  | target, [], source, sources, conflicts, path, K, oldKeys => by
      intro _ _ _ _ Hs
      exact ⟨by simp [mergeObject], by simpa [mergeObject] using Hs⟩
  | target, (key, v) :: rest, source, sources, conflicts, path, K, oldKeys => by
      intro HK HO HD Hanchor Hs
      have Ha : anchorOf path key ∈ K := anchorHyp_mem Hanchor
      obtain ⟨h1, hs1⟩ := mergeEntry_disjoint target key v source sources conflicts path K
        oldKeys HK HO HD Ha Hs
      have Hanchor' : AnchorHyp K path rest := anchorHyp_tail Hanchor
      obtain ⟨h2, hs2⟩ := mergeObject_disjoint
        (mergeEntry target key v source sources conflicts path).1 rest source
        (mergeEntry target key v source sources conflicts path).2.1
        (mergeEntry target key v source sources conflicts path).2.2 path K oldKeys
        HK HO HD Hanchor' hs1
      constructor
      · show (mergeObject target ((key, v) :: rest) source sources conflicts path).2.2 = _
        rw [mergeObject, h2, h1]
      · show SrcInv K oldKeys source
          (mergeObject target ((key, v) :: rest) source sources conflicts path).2.1
        rw [mergeObject]
        exact hs2

theorem mergeEntry_disjoint :
    ∀ (target : JObj) (key : String) (v : JsonValue) (source : String) (sources : SourceMap)
      (conflicts : List MergeConflict) (path : List String) (K oldKeys : List String),
    (∀ t ∈ K, NoDot t) → (∀ t ∈ oldKeys, NoDot t) → (∀ t ∈ K, t ∉ oldKeys) →
    anchorOf path key ∈ K →
    SrcInv K oldKeys source sources →
    (mergeEntry target key v source sources conflicts path).2.2 = conflicts ∧
      SrcInv K oldKeys source (mergeEntry target key v source sources conflicts path).2.1
  | target, key, .obj ff, source, sources, conflicts, path, K, oldKeys => by
      intro HK HO HD Ha Hs
      have Hanchor' : AnchorHyp K (path ++ [key]) ff := anchorHyp_extend ff Ha
      cases hx : objGet target key with
      | some ev =>
          cases ev with
          | obj ef =>
              obtain ⟨h1, hs1⟩ := mergeObject_disjoint ef ff source sources conflicts
                (path ++ [key]) K oldKeys HK HO HD Hanchor' Hs
              exact ⟨by simp [mergeEntry, hx, h1], by simpa [mergeEntry, hx] using hs1⟩
          | null =>
              have hrec := @recordConflictIfNeeded_noop (some .null) (.obj ff) source sources conflicts
                (path ++ [key]) (srcInv_lookup path key HK HO HD Ha Hs)
              obtain ⟨h1, hs1⟩ := mergeObject_disjoint [] ff source
                (clearNestedSources sources (path ++ [key]))
                (recordConflictIfNeeded (some .null) (.obj ff) source sources conflicts
                  (path ++ [key]))
                (path ++ [key]) K oldKeys HK HO HD Hanchor' (srcInv_clear _ Hs)
              refine ⟨?_, ?_⟩
              · simp only [mergeEntry, hx]
                rw [h1, hrec]
              · simp only [mergeEntry, hx]
                exact hs1
          | bool b =>
              have hrec := @recordConflictIfNeeded_noop (some (.bool b)) (.obj ff) source sources conflicts
                (path ++ [key]) (srcInv_lookup path key HK HO HD Ha Hs)
              obtain ⟨h1, hs1⟩ := mergeObject_disjoint [] ff source
                (clearNestedSources sources (path ++ [key]))
                (recordConflictIfNeeded (some (.bool b)) (.obj ff) source sources conflicts
                  (path ++ [key]))
                (path ++ [key]) K oldKeys HK HO HD Hanchor' (srcInv_clear _ Hs)
              refine ⟨?_, ?_⟩
              · simp only [mergeEntry, hx]
                rw [h1, hrec]
              · simp only [mergeEntry, hx]
                exact hs1
          | num n =>
              have hrec := @recordConflictIfNeeded_noop (some (.num n)) (.obj ff) source sources conflicts
                (path ++ [key]) (srcInv_lookup path key HK HO HD Ha Hs)
              obtain ⟨h1, hs1⟩ := mergeObject_disjoint [] ff source
                (clearNestedSources sources (path ++ [key]))
                (recordConflictIfNeeded (some (.num n)) (.obj ff) source sources conflicts
                  (path ++ [key]))
                (path ++ [key]) K oldKeys HK HO HD Hanchor' (srcInv_clear _ Hs)
              refine ⟨?_, ?_⟩
              · simp only [mergeEntry, hx]
                rw [h1, hrec]
              · simp only [mergeEntry, hx]
                exact hs1
          | str st =>
              have hrec := @recordConflictIfNeeded_noop (some (.str st)) (.obj ff) source sources conflicts
                (path ++ [key]) (srcInv_lookup path key HK HO HD Ha Hs)
              obtain ⟨h1, hs1⟩ := mergeObject_disjoint [] ff source
                (clearNestedSources sources (path ++ [key]))
                (recordConflictIfNeeded (some (.str st)) (.obj ff) source sources conflicts
                  (path ++ [key]))
                (path ++ [key]) K oldKeys HK HO HD Hanchor' (srcInv_clear _ Hs)
              refine ⟨?_, ?_⟩
              · simp only [mergeEntry, hx]
                rw [h1, hrec]
              · simp only [mergeEntry, hx]
                exact hs1
          | arr elems =>
              have hrec := @recordConflictIfNeeded_noop (some (.arr elems)) (.obj ff) source sources conflicts
                (path ++ [key]) (srcInv_lookup path key HK HO HD Ha Hs)
              obtain ⟨h1, hs1⟩ := mergeObject_disjoint [] ff source
                (clearNestedSources sources (path ++ [key]))
                (recordConflictIfNeeded (some (.arr elems)) (.obj ff) source sources conflicts
                  (path ++ [key]))
                (path ++ [key]) K oldKeys HK HO HD Hanchor' (srcInv_clear _ Hs)
              refine ⟨?_, ?_⟩
              · simp only [mergeEntry, hx]
                rw [h1, hrec]
              · simp only [mergeEntry, hx]
                exact hs1
      | none =>
          obtain ⟨h1, hs1⟩ := mergeObject_disjoint [] ff source
            (clearNestedSources sources (path ++ [key])) conflicts
            (path ++ [key]) K oldKeys HK HO HD Hanchor' (srcInv_clear _ Hs)
          exact ⟨by simp [mergeEntry, hx, h1], by simpa [mergeEntry, hx] using hs1⟩
  | target, key, .null, source, sources, conflicts, path, K, oldKeys => by
      intro HK HO HD Ha Hs
      have hrec := @recordConflictIfNeeded_noop (objGet target key) (.null) source sources
        conflicts (path ++ [key]) (srcInv_lookup path key HK HO HD Ha Hs)
      exact ⟨by simp [mergeEntry, hrec], srcInv_set path key Ha (srcInv_clear _ Hs)⟩
  | target, key, .bool b, source, sources, conflicts, path, K, oldKeys => by
      intro HK HO HD Ha Hs
      have hrec := @recordConflictIfNeeded_noop (objGet target key) (.bool b) source sources
        conflicts (path ++ [key]) (srcInv_lookup path key HK HO HD Ha Hs)
      exact ⟨by simp [mergeEntry, hrec], srcInv_set path key Ha (srcInv_clear _ Hs)⟩
  | target, key, .num n, source, sources, conflicts, path, K, oldKeys => by
      intro HK HO HD Ha Hs
      have hrec := @recordConflictIfNeeded_noop (objGet target key) (.num n) source sources
        conflicts (path ++ [key]) (srcInv_lookup path key HK HO HD Ha Hs)
      exact ⟨by simp [mergeEntry, hrec], srcInv_set path key Ha (srcInv_clear _ Hs)⟩
  | target, key, .str st, source, sources, conflicts, path, K, oldKeys => by
      intro HK HO HD Ha Hs
      have hrec := @recordConflictIfNeeded_noop (objGet target key) (.str st) source sources
        conflicts (path ++ [key]) (srcInv_lookup path key HK HO HD Ha Hs)
      exact ⟨by simp [mergeEntry, hrec], srcInv_set path key Ha (srcInv_clear _ Hs)⟩
  | target, key, .arr elems, source, sources, conflicts, path, K, oldKeys => by
      intro HK HO HD Ha Hs
      have hrec := @recordConflictIfNeeded_noop (objGet target key) (.arr elems) source sources
        conflicts (path ++ [key]) (srcInv_lookup path key HK HO HD Ha Hs)
      exact ⟨by simp [mergeEntry, hrec], srcInv_set path key Ha (srcInv_clear _ Hs)⟩

end

/-- Between fragments: every tracked key lies under some already-processed
fragment's top-level key. -/
def OuterInv (allKeys : List String) (sources : SourceMap) : Prop :=
  ∀ e ∈ sources, ∃ t ∈ allKeys, underKey t e.1

def topKeys (f : JsonFragment) : List String := f.value.map (·.1)

theorem mergeRun_disjoint :
    ∀ (fragments : List JsonFragment) (target : JObj) (sources : SourceMap)
      (conflicts : List MergeConflict) (oldKeys : List String),
    (∀ t ∈ oldKeys, NoDot t) →
    (∀ f ∈ fragments, ∀ t ∈ topKeys f, NoDot t) →
    (∀ f ∈ fragments, ∀ t ∈ topKeys f, t ∉ oldKeys) →
    List.Pairwise (fun f g => ∀ t ∈ topKeys f, t ∉ topKeys g) fragments →
    OuterInv oldKeys sources →
    (mergeRun target sources conflicts fragments).2.2 = conflicts := by
  intro fragments
  induction fragments with
  | nil => intro target sources conflicts oldKeys _ _ _ _ _; simp [mergeRun]
  | cons f rest ih =>
      intro target sources conflicts oldKeys HO HN HD HP HI
      have HKn : ∀ t ∈ topKeys f, NoDot t := HN f (by simp)
      have HKd : ∀ t ∈ topKeys f, t ∉ oldKeys := HD f (by simp)
      have Hsrc : SrcInv (topKeys f) oldKeys f.source sources := by
        intro e he
        obtain ⟨t, ht, hu⟩ := HI e he
        exact Or.inl ⟨t, ht, hu⟩
      have Hanchor : AnchorHyp (topKeys f) [] f.value := by
        intro p hp
        exact List.mem_map.2 ⟨p, hp, rfl⟩
      obtain ⟨h1, hs1⟩ := mergeObject_disjoint target f.value f.source sources conflicts []
        (topKeys f) oldKeys HKn HO HKd Hanchor Hsrc
      have HI' : OuterInv (oldKeys ++ topKeys f)
          (mergeObject target f.value f.source sources conflicts []).2.1 := by
        intro e he
        rcases hs1 e he with ⟨t, ht, hu⟩ | ⟨_, t, ht, hu⟩
        · exact ⟨t, List.mem_append_left _ ht, hu⟩
        · exact ⟨t, List.mem_append_right _ ht, hu⟩
      have HO' : ∀ t ∈ oldKeys ++ topKeys f, NoDot t := by
        intro t ht
        rcases List.mem_append.1 ht with h | h
        exacts [HO t h, HKn t h]
      have HD' : ∀ g ∈ rest, ∀ t ∈ topKeys g, t ∉ oldKeys ++ topKeys f := by
        intro g hg t ht hmem
        rcases List.mem_append.1 hmem with h | h
        · exact HD g (by simp [hg]) t ht h
        · exact (List.pairwise_cons.1 HP).1 g hg t h ht
      have hrun : (mergeRun target sources conflicts (f :: rest)).2.2 =
          (mergeRun (mergeObject target f.value f.source sources conflicts []).1
            (mergeObject target f.value f.source sources conflicts []).2.1
            (mergeObject target f.value f.source sources conflicts []).2.2 rest).2.2 := by
        rw [mergeRun]
      rw [hrun, ih _ _ _ (oldKeys ++ topKeys f) HO'
        (fun g hg => HN g (by simp [hg])) HD' (List.pairwise_cons.1 HP).2 HI', h1]

/-- Fragments whose top-level keys are dot-free and pairwise disjoint
merge without a single conflict, whatever the base. -/
theorem mergeJsonFragments_disjoint (base : JObj) (fragments : List JsonFragment)
    (HN : ∀ f ∈ fragments, ∀ t ∈ topKeys f, NoDot t)
    (HP : List.Pairwise (fun f g => ∀ t ∈ topKeys f, t ∉ topKeys g) fragments) :
    (mergeJsonFragments base fragments).conflicts = [] := by
  have := mergeRun_disjoint fragments base [] [] [] (by simp) HN
    (by intro f _ t _ h; simp at h) HP (by intro e he; simp at he)
  simpa [mergeJsonFragments] using this

/-! ## Claims C1 and C2 -/

/-- C1 (counterexample).  The claim says a conflict is recorded at a leaf
path exactly when two different sources write structurally unequal values
there.  Here source "s" writes 1 and source "u" writes 3 at leaf path
`a.b` (distinct sources, unequal non-object values), but because "t"'s
intervening scalar overwrite of `a` cleared the tracking for the subtree,
the returned conflict list contains only a conflict at `a` and none at
`a.b`: the condition holds at `a.b` with no conflict recorded there. -/
theorem c1_nonadjacent_disagreement_unreported :
    ("s" : String) ≠ "u" ∧
    objGetPath [("a", JsonValue.obj [("b", .num 1)])] ["a", "b"] = some (.num 1) ∧
    objGetPath [("a", JsonValue.obj [("b", .num 3)])] ["a", "b"] = some (.num 3) ∧
    deepEqual (.num 1) (.num 3) = false ∧
    isPlainObject (.num 1) = false ∧ isPlainObject (.num 3) = false ∧
    (mergeJsonFragments []
      [⟨"s", [("a", .obj [("b", .num 1)])]⟩,
       ⟨"t", [("a", .num 2)]⟩,
       ⟨"u", [("a", .obj [("b", .num 3)])]⟩]).conflicts =
      [⟨"a", "t", "u", .num 2, .obj [("b", .num 3)]⟩] := by
  refine ⟨by decide, rfl, rfl, by decide, rfl, rfl, by decide⟩

/-- C1 (amended).  Conflict recording is pairwise against the tracked
last writer: (1) every conflict the merger returns pairs two different
sources whose values are structurally unequal by deep equality with at
most one side a plain object — so writing a deep-equal value twice never
produces a conflict; (2) fragments whose top-level keys are dot-free and
pairwise disjoint (disjoint subtrees) never produce a conflict; and
(3) on a direct collision the later fragment's value wins (Scenario F:
merging `{scripts:{lint:"a"}}` then `{scripts:{lint:"b"}}` into `{}`
yields merged `{scripts:{lint:"b"}}` and exactly one conflict recorded at
path `"scripts.lint"`). -/
theorem c1_merge_conflict_recording :
    (∀ (base : JObj) (fragments : List JsonFragment),
      ∀ c ∈ (mergeJsonFragments base fragments).conflicts, SoundConflict c) ∧
    (∀ (base : JObj) (fragments : List JsonFragment),
      (∀ f ∈ fragments, ∀ t ∈ topKeys f, NoDot t) →
      List.Pairwise (fun f g => ∀ t ∈ topKeys f, t ∉ topKeys g) fragments →
      (mergeJsonFragments base fragments).conflicts = []) ∧
    mergeJsonFragments []
      [⟨"source1", [("scripts", .obj [("lint", .str "a")])]⟩,
       ⟨"source2", [("scripts", .obj [("lint", .str "b")])]⟩] =
      { merged := [("scripts", .obj [("lint", .str "b")])],
        conflicts := [⟨"scripts.lint", "source1", "source2", .str "a", .str "b"⟩] } :=
  ⟨mergeJsonFragments_conflicts_sound, mergeJsonFragments_disjoint, by decide⟩

/-- C1 (witness): the amended theorem applied at Scenario F's input and at
a concrete pair of disjoint fragments. -/
theorem c1_merge_conflict_recording_witness :
    SoundConflict ⟨"scripts.lint", "source1", "source2", .str "a", .str "b"⟩ ∧
    (mergeJsonFragments [("base", .num 0)]
      [⟨"s1", [("a", .num 1)]⟩, ⟨"s2", [("b", .num 2)]⟩]).conflicts = [] :=
  ⟨c1_merge_conflict_recording.1 []
      [⟨"source1", [("scripts", .obj [("lint", .str "a")])]⟩,
       ⟨"source2", [("scripts", .obj [("lint", .str "b")])]⟩]
      ⟨"scripts.lint", "source1", "source2", .str "a", .str "b"⟩ (by decide),
   c1_merge_conflict_recording.2.1 [("base", .num 0)]
      [⟨"s1", [("a", .num 1)]⟩, ⟨"s2", [("b", .num 2)]⟩]
      (by decide) (by decide)⟩

/-- C2 (counterexample).  The claim says that when a later source changes
a path's type (here "C" overwrites the object at `a` with the scalar 3),
the conflict previously recorded inside that subtree is removed and a
fresh conflict at the overwriting path is recorded.  In fact the earlier
`a.b` conflict stays in the returned list and no conflict at `a` is
added: only the internal source tracking is cleared. -/
theorem c2_supersede_counterexample :
    (mergeJsonFragments []
      [⟨"A", [("a", .obj [("b", .num 1)])]⟩,
       ⟨"B", [("a", .obj [("b", .num 2)])]⟩,
       ⟨"C", [("a", .num 3)]⟩]).conflicts =
      [⟨"a.b", "A", "B", .num 1, .num 2⟩] := by decide

/-- C2 (amended).  (1) Recorded conflicts are never removed: merging
further fragments only appends to the returned conflicts list.  (2) When
a type change overwrites a previously tracked leaf (scalar replaced by an
object), a fresh conflict at the overwriting path is recorded.  (3) When
an object subtree is overwritten by a scalar, no source is tracked at the
object's own path, so no fresh conflict is recorded there and the
conflicts recorded inside the subtree remain in the returned list. -/
theorem c2_supersede_amended :
    (∀ (base : JObj) (fs gs : List JsonFragment),
      ∃ extra, (mergeJsonFragments base (fs ++ gs)).conflicts =
        (mergeJsonFragments base fs).conflicts ++ extra) ∧
    (mergeJsonFragments []
      [⟨"A", [("a", .num 1)]⟩, ⟨"B", [("a", .obj [("b", .num 2)])]⟩]).conflicts =
      [⟨"a", "A", "B", .num 1, .obj [("b", .num 2)]⟩] ∧
    (mergeJsonFragments []
      [⟨"A", [("x", .obj [("y", .num 1)])]⟩,
       ⟨"B", [("x", .obj [("y", .num 2)])]⟩,
       ⟨"C", [("x", .bool true)]⟩]).conflicts =
      [⟨"x.y", "A", "B", .num 1, .num 2⟩] :=
  ⟨mergeJsonFragments_conflicts_monotone, by decide, by decide⟩

/-! ## Semantic version comparison (`compareSemver`) -/

/-- JavaScript `"...".split(".")` on the character list. -/
def splitCharsOnDot : List Char → List (List Char)
  | [] => [[]]
  | c :: rest =>
      match splitCharsOnDot rest with
      | [] => if c = '.' then [[], []] else [[c]]
      | h :: t => if c = '.' then [] :: h :: t else (c :: h) :: t

/-- JavaScript `version.split(".")`. -/
def splitOnDot (s : String) : List String :=
  (splitCharsOnDot s.data).map String.mk

/-- The whitespace characters `Number()` trims (ASCII whitespace plus
no-break space and BOM; other exotic Unicode spaces are not modelled —
they cannot occur in version strings). -/
def jsWhitespace (c : Char) : Bool :=
  c = ' ' ∨ c = '\t' ∨ c = '\n' ∨ c = '\r' ∨ c = '\x0b' ∨ c = '\x0c' ∨
    c = '\u00A0' ∨ c = '\uFEFF'

def trimJs (l : List Char) : List Char :=
  ((l.dropWhile jsWhitespace).reverse.dropWhile jsWhitespace).reverse

def digitsToNat (l : List Char) : Nat :=
  l.foldl (fun acc c => acc * 10 + (c.toNat - '0'.toNat)) 0

/-- Digit value in a radix, for `0x` / `0o` / `0b` literals. -/
def radixDigit (radix : Nat) (c : Char) : Option Nat :=
  let v :=
    if '0' ≤ c ∧ c ≤ '9' then some (c.toNat - '0'.toNat)
    else if 'a' ≤ c ∧ c ≤ 'f' then some (c.toNat - 'a'.toNat + 10)
    else if 'A' ≤ c ∧ c ≤ 'F' then some (c.toNat - 'A'.toNat + 10)
    else none
  match v with
  | some d => if d < radix then some d else none
  | none => none

def parseRadixDigits (radix : Nat) : List Char → Option Nat
  | [] => none
  | l => l.foldl (fun acc c =>
      match acc, radixDigit radix c with
      | some n, some d => some (n * radix + d)
      | _, _ => none) (some 0)

/-- The exponent part after `e`/`E`: optional sign, then digits. -/
def parseExpPart (l : List Char) : Option Int :=
  match l with
  | '+' :: rest =>
      if rest ≠ [] ∧ rest.all Char.isDigit then some (digitsToNat rest : Int) else none
  | '-' :: rest =>
      if rest ≠ [] ∧ rest.all Char.isDigit then some (-(digitsToNat rest : Int)) else none
  | rest =>
      if rest ≠ [] ∧ rest.all Char.isDigit then some (digitsToNat rest : Int) else none

/-- Unsigned decimal literal without a decimal point (the input is one
dot-free version segment): digits, optionally followed by an exponent.
Unparsable text yields `none`. -/
def parseUnsignedDecimal (l : List Char) : Option Rat :=
  let m := l.takeWhile Char.isDigit
  let rest := l.dropWhile Char.isDigit
  if m = [] then none
  else match rest with
    | [] => some (digitsToNat m : Rat)
    | c :: expPart =>
        if c = 'e' ∨ c = 'E' then
          match parseExpPart expPart with
          | some e => some ((digitsToNat m : Rat) * (10 : Rat) ^ e)
          | none => none
        else none

def parseSignedDecimal (l : List Char) : Option Rat :=
  match l with
  | '+' :: rest => parseUnsignedDecimal rest
  | '-' :: rest => (parseUnsignedDecimal rest).map (fun q => -q)
  | _ => parseUnsignedDecimal l

/-- `Number(segment)` restricted to finite results: `none` models both
`NaN` and `±Infinity`, the values rejected by the source's
`Number.isFinite` check.  Mirrors the `StringNumericLiteral` grammar for
dot-free inputs: trimmed, empty means zero, `0x`/`0o`/`0b` radix literals
take no sign, otherwise signed decimal digits with an optional exponent.
Values are exact rationals; IEEE rounding of enormous literals is not
modelled. -/
def jsNumberSeg (s : String) : Option Rat :=
  match trimJs s.data with
  | [] => some 0
  | '0' :: x :: rest =>
      if x = 'x' ∨ x = 'X' then (parseRadixDigits 16 rest).map (fun n => (n : Rat))
      else if x = 'o' ∨ x = 'O' then (parseRadixDigits 8 rest).map (fun n => (n : Rat))
      else if x = 'b' ∨ x = 'B' then (parseRadixDigits 2 rest).map (fun n => (n : Rat))
      else parseSignedDecimal ('0' :: x :: rest)
  | t => parseSignedDecimal t

/-- JavaScript `<` on strings (code-unit lexicographic; code points and
UTF-16 units agree on the characters version strings contain). -/
def charListLt : List Char → List Char → Bool
  | [], [] => false
  | [], _ :: _ => true
  | _ :: _, [] => false
  | x :: xs, y :: ys => if x < y then true else if y < x then false else charListLt xs ys

def strLtJs (a b : String) : Bool := charListLt a.data b.data

/-- One segment comparison from the loop body of `compareSemver`: numeric
when both sides are finite numbers, else string comparison. -/
def cmpSeg (a b : String) : Int :=
  match jsNumberSeg a, jsNumberSeg b with
  | some x, some y => if x ≠ y then (if x < y then -1 else 1) else 0
  | _, _ => if a ≠ b then (if strLtJs a b then -1 else 1) else 0

/-- The `index` loop of `compareSemver` once the left list is exhausted:
missing segments read as `"0"`. -/
def cmpPartsNil : List String → Int
  | [] => 0
  | b :: rs =>
      let c := cmpSeg "0" b
      if c ≠ 0 then c else cmpPartsNil rs

/-- The `index` loop of `compareSemver` over both part lists, missing
trailing segments reading as `"0"`. -/
def cmpParts : List String → List String → Int
  | [], r => cmpPartsNil r
  | a :: ls, r =>
      let c := cmpSeg a (r.headD "0")
      if c ≠ 0 then c else cmpParts ls r.tail

/-- `compareSemver` (identical in `sync.ts` and `templates.ts`). -/
def compareSemver (left right : String) : Int :=
  if left = right then 0
  else cmpParts (splitOnDot left) (splitOnDot right)

/-! ## Order properties of `compareSemver` -/

theorem charListLt_asymm_iff :
    ∀ xs ys : List Char, xs ≠ ys → (charListLt xs ys = true ↔ charListLt ys xs = false)
  | [], [] => fun h => absurd rfl h
  | [], _ :: _ => fun _ => by simp [charListLt]
  | _ :: _, [] => fun _ => by simp [charListLt]
  | x :: xs, y :: ys => fun hne => by
      rcases lt_trichotomy x y with hxy | hxy | hxy
      · simp [charListLt, hxy, asymm hxy, ne_of_gt hxy]
      · subst hxy
        have hne' : xs ≠ ys := fun h => hne (by rw [h])
        simpa [charListLt] using charListLt_asymm_iff xs ys hne'
      · simp [charListLt, hxy, asymm hxy, ne_of_gt hxy]

theorem strLtJs_asymm_iff {a b : String} (h : a ≠ b) :
    (strLtJs a b = true ↔ strLtJs b a = false) :=
  charListLt_asymm_iff a.data b.data (fun hd => h (String.data_inj hd))

theorem cmpSeg_antisymm (a b : String) : cmpSeg b a = -(cmpSeg a b) := by
  unfold cmpSeg
  cases ha : jsNumberSeg a <;> cases hb : jsNumberSeg b
  · by_cases hab : a = b
    · subst hab; simp
    · have hiff := strLtJs_asymm_iff hab
      by_cases hlt : strLtJs a b = true
      · simp [hab, Ne.symm hab, hlt, hiff.1 hlt]
      · have : strLtJs b a = true := by
          by_contra hq
          have := hiff.2 (by simpa using hq)
          simp_all
        simp [hab, Ne.symm hab, hlt, this]
  · by_cases hab : a = b
    · subst hab; simp
    · have hiff := strLtJs_asymm_iff hab
      by_cases hlt : strLtJs a b = true
      · simp [hab, Ne.symm hab, hlt, hiff.1 hlt]
      · have : strLtJs b a = true := by
          by_contra hq
          have := hiff.2 (by simpa using hq)
          simp_all
        simp [hab, Ne.symm hab, hlt, this]
  · by_cases hab : a = b
    · subst hab; simp
    · have hiff := strLtJs_asymm_iff hab
      by_cases hlt : strLtJs a b = true
      · simp [hab, Ne.symm hab, hlt, hiff.1 hlt]
      · have : strLtJs b a = true := by
          by_contra hq
          have := hiff.2 (by simpa using hq)
          simp_all
        simp [hab, Ne.symm hab, hlt, this]
  · rename_i x y
    rcases lt_trichotomy x y with hxy | hxy | hxy
    · simp [hxy.ne, hxy.ne', hxy, asymm hxy]
    · subst hxy; simp
    · simp [hxy.ne, hxy.ne', hxy, asymm hxy]

theorem cmpPartsNil_antisymm : ∀ r : List String, cmpPartsNil r = -(cmpParts r [])
  | [] => by simp [cmpPartsNil, cmpParts]
  | b :: rs => by
      have hseg := cmpSeg_antisymm b "0"
      simp only [cmpPartsNil, cmpParts, List.headD_nil, List.tail_nil]
      rw [hseg]
      by_cases hc : cmpSeg b "0" = 0
      · simp [hc, cmpPartsNil_antisymm rs]
      · simp [hc, neg_eq_zero]

theorem cmpParts_antisymm : ∀ l r : List String, cmpParts r l = -(cmpParts l r)
  | [], r => by
      show cmpParts r [] = -(cmpPartsNil r)
      have := cmpPartsNil_antisymm r
      omega
  | a :: ls, [] => by
      show cmpPartsNil (a :: ls) = -(cmpParts (a :: ls) [])
      exact cmpPartsNil_antisymm (a :: ls)
  | a :: ls, b :: rs => by
      have hseg := cmpSeg_antisymm a b
      simp only [cmpParts, List.headD_cons, List.tail_cons]
      rw [hseg]
      by_cases hc : cmpSeg a b = 0
      · simp [hc, cmpParts_antisymm ls rs]
      · simp [hc, neg_eq_zero]

theorem compareSemver_refl (x : String) : compareSemver x x = 0 := by
  simp [compareSemver]

theorem compareSemver_antisymm (x y : String) : compareSemver y x = -(compareSemver x y) := by
  by_cases hxy : x = y
  · subst hxy; simp [compareSemver]
  · unfold compareSemver
    rw [if_neg (Ne.symm hxy), if_neg hxy]
    exact cmpParts_antisymm (splitOnDot x) (splitOnDot y)

/-- Rational lexicographic comparison with zero-padding, the value-level
picture of `cmpParts` when every segment parses as a finite number. -/
def ratListCmp : List Rat → List Rat → Int
  | [], [] => 0
  | [], b :: rs => if 0 < b then -1 else if b < 0 then 1 else ratListCmp [] rs
  | a :: ls, [] => if a < 0 then -1 else if 0 < a then 1 else ratListCmp ls []
  | a :: ls, b :: rs => if a < b then -1 else if b < a then 1 else ratListCmp ls rs
termination_by l r => l.length + r.length

theorem ratListCmp_le_iff :
    ∀ a b : List Rat, ratListCmp a b ≤ 0 ↔
      (a.headD 0 < b.headD 0 ∨ (a.headD 0 = b.headD 0 ∧ ratListCmp a.tail b.tail ≤ 0))
  | [], [] => by simp [ratListCmp]
  | [], b :: rs => by
      rcases lt_trichotomy (0 : Rat) b with h | h | h
      · simp [ratListCmp, h, h.ne, h.ne', asymm h]
      · simp [ratListCmp, ← h]
      · simp [ratListCmp, h, h.ne, h.ne', asymm h]
  | a :: ls, [] => by
      rcases lt_trichotomy a (0 : Rat) with h | h | h
      · simp [ratListCmp, h, h.ne, h.ne', asymm h]
      · simp [ratListCmp, h]
      · simp [ratListCmp, h, h.ne, h.ne', asymm h]
  | a :: ls, b :: rs => by
      rcases lt_trichotomy a b with h | h | h
      · simp [ratListCmp, h, h.ne, h.ne', asymm h]
      · simp [ratListCmp, h]
      · simp [ratListCmp, h, h.ne, h.ne', asymm h]

theorem ratListCmp_trans_le_aux :
    ∀ (n : Nat) (a b c : List Rat), a.length + b.length + c.length ≤ n →
      ratListCmp a b ≤ 0 → ratListCmp b c ≤ 0 → ratListCmp a c ≤ 0 := by
  intro n
  induction n with
  | zero =>
      intro a b c hlen hab hbc
      have ha : a = [] := by cases a <;> simp_all
      have hc : c = [] := by cases c <;> simp_all
      subst ha; subst hc
      simp [ratListCmp]
  | succ n ih =>
      intro a b c hlen hab hbc
      by_cases hnil : a = [] ∧ b = [] ∧ c = []
      · obtain ⟨rfl, rfl, rfl⟩ := hnil
        simp [ratListCmp]
      · rw [ratListCmp_le_iff] at hab hbc ⊢
        rcases hab with hab | ⟨hab, hab'⟩
        · rcases hbc with hbc | ⟨hbc, hbc'⟩
          · exact Or.inl (hab.trans hbc)
          · exact Or.inl (hbc ▸ hab)
        · rcases hbc with hbc | ⟨hbc, hbc'⟩
          · exact Or.inl (hab ▸ hbc)
          · refine Or.inr ⟨hab.trans hbc, ?_⟩
            have hlen' : a.tail.length + b.tail.length + c.tail.length ≤ n := by
              rcases not_and_or.1 hnil with h | h'
              · have : a ≠ [] := h
                have : a.tail.length < a.length := by
                  cases a with
                  | nil => simp_all
                  | cons x xs => simp
                have hb : b.tail.length ≤ b.length := by cases b <;> simp
                have hc : c.tail.length ≤ c.length := by cases c <;> simp
                omega
              · rcases not_and_or.1 h' with h | h
                · have : b.tail.length < b.length := by
                    cases b with
                    | nil => simp_all
                    | cons x xs => simp
                  have ha : a.tail.length ≤ a.length := by cases a <;> simp
                  have hc : c.tail.length ≤ c.length := by cases c <;> simp
                  omega
                · have : c.tail.length < c.length := by
                    cases c with
                    | nil => simp_all
                    | cons x xs => simp
                  have ha : a.tail.length ≤ a.length := by cases a <;> simp
                  have hb : b.tail.length ≤ b.length := by cases b <;> simp
                  omega
            exact ih a.tail b.tail c.tail hlen' hab' hbc'

theorem ratListCmp_trans_le (a b c : List Rat) :
    ratListCmp a b ≤ 0 → ratListCmp b c ≤ 0 → ratListCmp a c ≤ 0 :=
  ratListCmp_trans_le_aux (a.length + b.length + c.length) a b c le_rfl

theorem ratListCmp_refl : ∀ a : List Rat, ratListCmp a a = 0
  | [] => by simp [ratListCmp]
  | a :: ls => by simp [ratListCmp, ratListCmp_refl ls]

/-- A version string every segment of which `Number()` parses to a finite
value. -/
def AllNumericSegs (v : String) : Prop :=
  ∀ seg ∈ splitOnDot v, (jsNumberSeg seg).isSome = true

instance (v : String) : Decidable (AllNumericSegs v) :=
  inferInstanceAs (Decidable (∀ seg ∈ splitOnDot v, (jsNumberSeg seg).isSome = true))

/-- The numeric value of a segment (callers ensure the parse succeeded). -/
def segVal (s : String) : Rat := (jsNumberSeg s).getD 0

theorem cmpSeg_numeric {a b : String} (ha : (jsNumberSeg a).isSome = true)
    (hb : (jsNumberSeg b).isSome = true) :
    cmpSeg a b = if segVal a < segVal b then -1 else if segVal b < segVal a then 1 else 0 := by
  obtain ⟨x, hx⟩ := Option.isSome_iff_exists.1 ha
  obtain ⟨y, hy⟩ := Option.isSome_iff_exists.1 hb
  unfold cmpSeg segVal
  rw [hx, hy]
  simp only [Option.getD_some]
  rcases lt_trichotomy x y with h | h | h
  · simp [h, h.ne, asymm h]
  · simp [h]
  · simp [h, h.ne', asymm h]

theorem jsNumberSeg_zero : jsNumberSeg "0" = some 0 := by decide

theorem cmpPartsNil_numeric :
    ∀ r : List String, (∀ s ∈ r, (jsNumberSeg s).isSome = true) →
      cmpPartsNil r = ratListCmp [] (r.map segVal)
  | [], _ => by simp [cmpPartsNil, ratListCmp]
  | b :: rs, h => by
      have hb : (jsNumberSeg b).isSome = true := h b (by simp)
      have h0 : (jsNumberSeg "0").isSome = true := by rw [jsNumberSeg_zero]; rfl
      have hseg := cmpSeg_numeric h0 hb
      have hz : segVal "0" = 0 := by rw [segVal, jsNumberSeg_zero]; rfl
      rw [hz] at hseg
      simp only [cmpPartsNil, List.map_cons]
      rw [hseg]
      rcases lt_trichotomy (0 : Rat) (segVal b) with hv | hv | hv
      · simp [ratListCmp, hv, asymm hv]
      · rw [← hv]
        simpa [ratListCmp] using cmpPartsNil_numeric rs (fun s hs => h s (by simp [hs]))
      · simp [ratListCmp, hv, asymm hv]

theorem cmpParts_numeric :
    ∀ (l r : List String), (∀ s ∈ l, (jsNumberSeg s).isSome = true) →
      (∀ s ∈ r, (jsNumberSeg s).isSome = true) →
      cmpParts l r = ratListCmp (l.map segVal) (r.map segVal)
  | [], r, _, hr => by
      simpa [cmpParts] using cmpPartsNil_numeric r hr
  | a :: ls, [], hl, _ => by
      have ha : (jsNumberSeg a).isSome = true := hl a (by simp)
      have h0 : (jsNumberSeg "0").isSome = true := by rw [jsNumberSeg_zero]; rfl
      have hseg := cmpSeg_numeric ha h0
      have hz : segVal "0" = 0 := by rw [segVal, jsNumberSeg_zero]; rfl
      rw [hz] at hseg
      simp only [cmpParts, List.headD_nil, List.tail_nil, List.map_cons, List.map_nil]
      rw [hseg]
      rcases lt_trichotomy (segVal a) (0 : Rat) with hv | hv | hv
      · simp [ratListCmp, hv, asymm hv]
      · rw [hv]
        simpa [ratListCmp] using
          cmpParts_numeric ls [] (fun s hs => hl s (by simp [hs])) (by simp)
      · simp [ratListCmp, hv, asymm hv]
  | a :: ls, b :: rs, hl, hr => by
      have ha : (jsNumberSeg a).isSome = true := hl a (by simp)
      have hb : (jsNumberSeg b).isSome = true := hr b (by simp)
      have hseg := cmpSeg_numeric ha hb
      simp only [cmpParts, List.headD_cons, List.tail_cons, List.map_cons]
      rw [hseg]
      rcases lt_trichotomy (segVal a) (segVal b) with hv | hv | hv
      · simp [ratListCmp, hv, asymm hv]
      · rw [hv]
        simpa [ratListCmp] using cmpParts_numeric ls rs
          (fun s hs => hl s (by simp [hs])) (fun s hs => hr s (by simp [hs]))
      · simp [ratListCmp, hv, asymm hv]

theorem compareSemver_numeric {x y : String} (hx : AllNumericSegs x) (hy : AllNumericSegs y) :
    compareSemver x y = ratListCmp ((splitOnDot x).map segVal) ((splitOnDot y).map segVal) := by
  by_cases hxy : x = y
  · subst hxy
    rw [compareSemver_refl, ratListCmp_refl]
  · unfold compareSemver
    rw [if_neg hxy]
    exact cmpParts_numeric _ _ hx hy

theorem compareSemver_trans_le {x y z : String}
    (hx : AllNumericSegs x) (hy : AllNumericSegs y) (hz : AllNumericSegs z)
    (hxy : compareSemver x y ≤ 0) (hyz : compareSemver y z ≤ 0) :
    compareSemver x z ≤ 0 := by
  rw [compareSemver_numeric hx hy] at hxy
  rw [compareSemver_numeric hy hz] at hyz
  rw [compareSemver_numeric hx hz]
  exact ratListCmp_trans_le _ _ _ hxy hyz

theorem compareSemver_trans_eq {x y z : String}
    (hx : AllNumericSegs x) (hy : AllNumericSegs y) (hz : AllNumericSegs z)
    (hxy : compareSemver x y = 0) (hyz : compareSemver y z = 0) :
    compareSemver x z = 0 := by
  have h1 : compareSemver x z ≤ 0 :=
    compareSemver_trans_le hx hy hz (by omega) (by omega)
  have h2 : compareSemver z x ≤ 0 :=
    compareSemver_trans_le hz hy hx
      (by rw [compareSemver_antisymm]; omega) (by rw [compareSemver_antisymm]; omega)
  have h3 := compareSemver_antisymm x z
  omega

/-- C9 (counterexample).  `compareSemver` is not transitive on dotted
version strings: `"1.0.01" < "1.0.0x"` (string comparison, since `"0x"`
is not a finite number) and `"1.0.0x" < "1.0.1"`, yet
`"1.0.01" == "1.0.1"` (numeric comparison, `01 = 1`), where transitivity
would require `"1.0.01" < "1.0.1"`. -/
theorem c9_transitivity_counterexample :
    compareSemver "1.0.01" "1.0.0x" = -1 ∧
    compareSemver "1.0.0x" "1.0.1" = -1 ∧
    compareSemver "1.0.01" "1.0.1" = 0 :=
  ⟨by decide, by decide, by decide⟩

/-- C9 (amended).  `compareSemver` is reflexive (`compareSemver x x = 0`)
and antisymmetric (`compareSemver y x = -(compareSemver x y)`) on all
strings, treats missing trailing segments as zero
(`compareSemver "1.2" "1.2.0" = 0`), compares numeric segments
numerically (`"2" < "10"`) and non-numeric segments lexicographically
(`"alpha" < "beta"`), and is transitive when restricted to versions all
of whose segments parse as finite numbers — but not on arbitrary
strings. -/
theorem c9_compareSemver_order :
    (∀ x, compareSemver x x = 0) ∧
    (∀ x y, compareSemver y x = -(compareSemver x y)) ∧
    compareSemver "1.2" "1.2.0" = 0 ∧
    (∀ x y z, AllNumericSegs x → AllNumericSegs y → AllNumericSegs z →
      compareSemver x y ≤ 0 → compareSemver y z ≤ 0 → compareSemver x z ≤ 0) ∧
    (∀ x y z, AllNumericSegs x → AllNumericSegs y → AllNumericSegs z →
      compareSemver x y = 0 → compareSemver y z = 0 → compareSemver x z = 0) ∧
    compareSemver "2" "10" = -1 ∧ compareSemver "1.0.alpha" "1.0.beta" = -1 :=
  ⟨compareSemver_refl, compareSemver_antisymm, by decide,
   fun _ _ _ hx hy hz => compareSemver_trans_le hx hy hz,
   fun _ _ _ hx hy hz => compareSemver_trans_eq hx hy hz,
   by decide, by decide⟩

/-- C9 (witness): the amended theorem's transitivity applied at concrete
all-numeric versions. -/
theorem c9_compareSemver_order_witness :
    compareSemver "1.2.3" "1.10.0" ≤ 0 ∧ compareSemver "1.2" "1.2.0.0" = 0 :=
  ⟨c9_compareSemver_order.2.2.2.1 "1.2.3" "1.3" "1.10.0"
      (by decide) (by decide) (by decide) (by decide) (by decide),
   c9_compareSemver_order.2.2.2.2.1 "1.2" "1.2.0" "1.2.0.0"
      (by decide) (by decide) (by decide) (by decide) (by decide)⟩

/-! ## Template rendering (`applyTemplateVars`) -/

/-- A character the placeholder regex `[A-Za-z0-9_-]+` accepts. -/
def isNameChar (c : Char) : Bool :=
  ('A' ≤ c ∧ c ≤ 'Z') ∨ ('a' ≤ c ∧ c ≤ 'z') ∨ ('0' ≤ c ∧ c ≤ '9') ∨ c = '_' ∨ c = '-'

/-- One scan of the content for `\x7b\x7bname\x7d\x7d` placeholders, as the
regex engine performs it: at each position try to match `\x7b\x7b`, a maximal
nonempty run of name characters, then `\x7d\x7d` (the character class cannot
match a brace, so the greedy run never backtracks); on success continue
after the match, otherwise advance one character.  The fuel argument is
the input length; each step consumes at least one character. -/
def scanTplF : Nat → List Char → List (Sum Char String)
  | 0, _ => []
  | _ + 1, [] => []
  | fuel + 1, c :: rest =>
      if c = '\x7b' then
        match rest with
        | c2 :: rest2 =>
            if c2 = '\x7b' then
              let name := rest2.takeWhile isNameChar
              match name, rest2.dropWhile isNameChar with
              | _ :: _, '\x7d' :: '\x7d' :: rest3 =>
                  Sum.inr (String.mk name) :: scanTplF fuel rest3
              | _, _ => Sum.inl c :: scanTplF fuel rest
            else Sum.inl c :: scanTplF fuel rest
        | [] => Sum.inl c :: scanTplF fuel rest
      else Sum.inl c :: scanTplF fuel rest

def scanTpl (l : List Char) : List (Sum Char String) := scanTplF l.length l

/-- The names of the matched placeholders, in scan order: the keys of
`content.matchAll`. -/
def tplNames (toks : List (Sum Char String)) : List String :=
  toks.filterMap (fun t => match t with | Sum.inl _ => none | Sum.inr n => some n)

/-- Own-property lookup in a table.  The JavaScript `key in replacements`
test and `replacements[key]` read traverse the prototype chain; they are
modelled by applying this lookup to the table extended with the
`Object.prototype` members (`jsEnv` below). -/
def lookupVar (vars : List (String × String)) (k : String) : Option String :=
  (vars.find? (fun e => e.1 = k)).map (·.2)

/-- The `content.replace(regex, cb)` pass over the scanned tokens: a
placeholder whose name is a key of the record becomes its value, any
other placeholder is emitted verbatim (`return full`). -/
def renderToksChars (vars : List (String × String)) : List (Sum Char String) → List Char
  | [] => []
  | Sum.inl c :: rest => c :: renderToksChars vars rest
  | Sum.inr name :: rest =>
      match lookupVar vars name with
      | some v => v.data ++ renderToksChars vars rest
      | none => '\x7b' :: '\x7b' :: (name.data ++ '\x7d' :: '\x7d' :: renderToksChars vars rest)

/-- The scan-then-replace algorithm of the check-only app's
`applyTemplateVars` over an explicit lookup table: error on the first
scanned name neither in the table nor ignored, else substitute every
name found in the table.  `applyTemplateVars` below instantiates the
table with the property semantics of `templateVars ?? \x7b\x7d` (own
keys, then the `Object.prototype` members the `in` operator sees). -/
def applyTemplateVarsCore (content : String) (templateVars : Option (List (String × String)))
    (ignoredVariables : List String) : Except String String :=
  if tplNames (scanTpl content.data) = [] then .ok content
  else
    match (tplNames (scanTpl content.data)).find?
        (fun key => (lookupVar (templateVars.getD []) key) = none ∧
          key ∉ ignoredVariables) with
    | some key => .error ("Missing template var: " ++ key)
    | none => .ok (String.mk (renderToksChars (templateVars.getD []) (scanTpl content.data)))

/-- `applyTemplateVars` from the versioned engine's `templates.ts` (no
ignored-variable support): every placeholder name must be a key of the
record. -/
def applyTemplateVarsSimple (content : String)
    (templateVars : Option (List (String × String))) : Except String String :=
  if tplNames (scanTpl content.data) = [] then .ok content
  else
    match (tplNames (scanTpl content.data)).find?
        (fun key => (lookupVar (templateVars.getD []) key) = none) with
    | some key => .error ("Missing template var: " ++ key)
    | none => .ok (String.mk (renderToksChars (templateVars.getD []) (scanTpl content.data)))

theorem find?_eq_some_split {α : Type} (p : α → Bool) :
    ∀ (l : List α) (k : α), l.find? p = some k ↔
      ∃ pre post, l = pre ++ k :: post ∧ p k = true ∧ ∀ x ∈ pre, p x = false := by
  intro l
  induction l with
  | nil => intro k; simp
  | cons a l ih =>
      intro k
      by_cases hp : p a = true
      · rw [List.find?_cons_of_pos _ hp]
        constructor
        · intro h
          obtain rfl : a = k := by simpa using h
          exact ⟨[], l, rfl, hp, by simp⟩
        · rintro ⟨pre, post, heq, hk, hpre⟩
          cases pre with
          | nil =>
              obtain ⟨rfl, rfl⟩ : a = k ∧ l = post := by simpa using heq
              rfl
          | cons b pre' =>
              obtain ⟨rfl, htail⟩ : a = b ∧ l = pre' ++ k :: post := by simpa using heq
              exact absurd hp (by simp [hpre a (by simp)])
      · have hpf : p a = false := by simpa using hp
        rw [List.find?_cons_of_neg _ (by simp [hpf]), ih k]
        constructor
        · rintro ⟨pre, post, rfl, hk, hpre⟩
          refine ⟨a :: pre, post, rfl, hk, ?_⟩
          intro x hx
          rcases List.mem_cons.1 hx with rfl | hx
          · exact hpf
          · exact hpre x hx
        · rintro ⟨pre, post, heq, hk, hpre⟩
          cases pre with
          | nil =>
              obtain ⟨rfl, rfl⟩ : a = k ∧ l = post := by simpa using heq
              simp_all
          | cons b pre' =>
              obtain ⟨rfl, htail⟩ : a = b ∧ l = pre' ++ k :: post := by simpa using heq
              exact ⟨pre', post, htail, hk, fun x hx => hpre x (by simp [hx])⟩

theorem renderToks_empty_scan : ∀ (n : Nat) (l : List Char), l.length ≤ n →
    renderToksChars [] (scanTplF n l) = l := by
  intro n
  induction n with
  | zero =>
      intro l hl
      have : l = [] := by cases l <;> simp_all
      subst this
      rfl
  | succ n ih =>
      intro l hl
      match l with
      | [] => rfl
      | c :: rest =>
          simp only [scanTplF]
          split
          · rename_i hc
            subst hc
            match rest with
            | [] =>
                simp only [renderToksChars]
                rw [ih [] (by simp)]
            | c2 :: rest2 =>
                simp only
                split
                · rename_i hc2
                  subst hc2
                  split
                  · rename_i name name' rest3 hname hafter
                    have hsplit : rest2 = (name :: name') ++ '\x7d' :: '\x7d' :: rest3 := by
                      conv_lhs => rw [← List.takeWhile_append_dropWhile (p := isNameChar)
                        (l := rest2)]
                      rw [hname, hafter]
                    have hlen : rest3.length ≤ n := by
                      have := congrArg List.length hsplit
                      simp at this hl
                      omega
                    simp only [renderToksChars, lookupVar, List.find?_nil, Option.map_none']
                    rw [ih rest3 hlen, hname]
                    conv_rhs => rw [hsplit]
                  · rename_i hno
                    simp only [renderToksChars]
                    rw [ih ('\x7b' :: rest2) (by simp at hl ⊢; omega)]
                · simp only [renderToksChars]
                  rw [ih (c2 :: rest2) (by simp at hl ⊢; omega)]
          · simp only [renderToksChars]
            rw [ih rest (by simp at hl ⊢; omega)]

/-- With nothing to substitute, the scan re-assembles to the exact input:
placeholders are emitted verbatim, neither substituted nor erased. -/
theorem renderToks_id (l : List Char) : renderToksChars [] (scanTpl l) = l :=
  renderToks_empty_scan l.length l le_rfl

theorem renderToks_no_ph (vars : List (String × String)) :
    ∀ toks, tplNames toks = [] → renderToksChars vars toks = renderToksChars [] toks
  | [], _ => rfl
  | Sum.inl c :: rest, h => by
      simp only [renderToksChars]
      rw [renderToks_no_ph vars rest (by simpa [tplNames] using h)]
  | Sum.inr name :: rest, h => by
      exfalso
      simp [tplNames] at h

/-- A placeholder name the renderer cannot resolve: in neither the
variable record nor the ignored set. -/
def MissingName (replacements : List (String × String)) (ignoredVariables : List String)
    (k : String) : Prop :=
  lookupVar replacements k = none ∧ k ∉ ignoredVariables

instance (r : List (String × String)) (i : List String) (k : String) :
    Decidable (MissingName r i k) :=
  inferInstanceAs (Decidable (_ ∧ _))

theorem applyTemplateVarsCore_error_iff (content : String)
    (templateVars : Option (List (String × String))) (ignoredVariables : List String)
    (e : String) :
    applyTemplateVarsCore content templateVars ignoredVariables = .error e ↔
      ∃ k pre post, e = "Missing template var: " ++ k ∧
        tplNames (scanTpl content.data) = pre ++ k :: post ∧
        MissingName (templateVars.getD []) ignoredVariables k ∧
        ∀ n ∈ pre, ¬ MissingName (templateVars.getD []) ignoredVariables n := by
  unfold applyTemplateVarsCore
  by_cases hnil : tplNames (scanTpl content.data) = []
  · simp only [hnil, if_pos rfl]
    constructor
    · intro h; cases h
    · rintro ⟨k, pre, post, _, habs, _⟩
      exact absurd habs (by simp)
  · rw [if_neg hnil]
    have hsplit := find?_eq_some_split
      (fun key => decide (MissingName (templateVars.getD []) ignoredVariables key))
      (tplNames (scanTpl content.data))
    cases hf : (tplNames (scanTpl content.data)).find?
        (fun key => (lookupVar (templateVars.getD []) key) = none ∧
          key ∉ ignoredVariables) with
    | some k =>
        have hf' : (tplNames (scanTpl content.data)).find?
            (fun key => decide (MissingName (templateVars.getD []) ignoredVariables key)) =
            some k := by
          rw [← hf]; rfl
        obtain ⟨pre, post, heq, hk, hpre⟩ := (hsplit k).1 hf'
        constructor
        · intro h
          obtain rfl : "Missing template var: " ++ k = e := by
            simpa using h
          exact ⟨k, pre, post, rfl, heq, of_decide_eq_true hk,
            fun n hn => of_decide_eq_false (hpre n hn)⟩
        · rintro ⟨k', pre', post', rfl, heq', hk', hpre'⟩
          have hf2 : (tplNames (scanTpl content.data)).find?
              (fun key => decide (MissingName (templateVars.getD []) ignoredVariables key)) =
              some k' := (hsplit k').2 ⟨pre', post', heq', decide_eq_true hk',
                fun x hx => decide_eq_false (hpre' x hx)⟩
          have hkk : k = k' := by
            have := hf'.symm.trans hf2
            simpa using this
          subst hkk
          rfl
    | none =>
        have hf' : ∀ n ∈ tplNames (scanTpl content.data),
            ¬ MissingName (templateVars.getD []) ignoredVariables n := by
          intro n hn hm
          have hdec := List.find?_eq_none.1 hf n hn
          exact hdec (by simp [hm.1, hm.2])
        constructor
        · intro h; cases h
        · rintro ⟨k, pre, post, _, heq, hk, _⟩
          exact absurd hk (hf' k (heq ▸ (by simp)))

theorem applyTemplateVarsCore_ok (content : String)
    (templateVars : Option (List (String × String))) (ignoredVariables : List String)
    (out : String)
    (h : applyTemplateVarsCore content templateVars ignoredVariables = .ok out) :
    (∀ n ∈ tplNames (scanTpl content.data),
      ¬ MissingName (templateVars.getD []) ignoredVariables n) ∧
    out.data = renderToksChars (templateVars.getD []) (scanTpl content.data) := by
  unfold applyTemplateVarsCore at h
  by_cases hnil : tplNames (scanTpl content.data) = []
  · rw [if_pos hnil] at h
    obtain rfl : content = out := by simpa using h
    refine ⟨by simp [hnil], ?_⟩
    rw [renderToks_no_ph _ _ hnil, renderToks_id]
  · rw [if_neg hnil] at h
    cases hf : (tplNames (scanTpl content.data)).find?
        (fun key => (lookupVar (templateVars.getD []) key) = none ∧
          key ∉ ignoredVariables) with
    | some k => rw [hf] at h; cases h
    | none =>
        rw [hf] at h
        obtain rfl : String.mk (renderToksChars (templateVars.getD [])
            (scanTpl content.data)) = out := by simpa using h
        refine ⟨?_, rfl⟩
        intro n hn hm
        have hdec := List.find?_eq_none.1 hf n hn
        exact hdec (by simp [hm.1, hm.2])

/-- The property names every plain object inherits from
`Object.prototype`; all of them match the placeholder character class
`[A-Za-z0-9_-]+`, and the JavaScript `in` operator sees them on
`templateVars ?? \x7b\x7d`. -/
def objectPrototypeKeys : List String :=
  ["constructor", "hasOwnProperty", "isPrototypeOf", "propertyIsEnumerable",
   "toLocaleString", "toString", "valueOf", "__defineGetter__", "__defineSetter__",
   "__lookupGetter__", "__lookupSetter__", "__proto__"]

/-- The lookup table the JavaScript property operations consult on
`replacements = templateVars ?? \x7b\x7d`: the own keys first, then the
`Object.prototype` members.  `key in replacements` is presence in this
table, and `String(replacements[key])` is its value, where `protoStr`
injects the string rendering of an inherited member (e.g.
`String(Object.prototype.toString)`). -/
def jsEnv (protoStr : String → String) (vars : List (String × String)) :
    List (String × String) :=
  vars ++ objectPrototypeKeys.map (fun k => (k, protoStr k))

/-- `applyTemplateVars` from the check-only app's `templates.ts` (the
variant with `options.ignoredVariables`); a thrown error becomes
`Except.error`.  Both the `key in replacements` scan test and the
`String(replacements[key])` read of the replacement callback traverse
the prototype chain, embedded as lookup in `jsEnv protoStr`. -/
def applyTemplateVars (protoStr : String → String) (content : String)
    (templateVars : Option (List (String × String)))
    (ignoredVariables : List String) : Except String String :=
  if tplNames (scanTpl content.data) = [] then .ok content
  else
    match (tplNames (scanTpl content.data)).find?
        (fun key => (lookupVar (jsEnv protoStr (templateVars.getD [])) key) = none ∧
          key ∉ ignoredVariables) with
    | some key => .error ("Missing template var: " ++ key)
    | none => .ok (String.mk (renderToksChars (jsEnv protoStr (templateVars.getD []))
        (scanTpl content.data)))

theorem applyTemplateVars_eq_core (protoStr : String → String) (content : String)
    (templateVars : Option (List (String × String))) (ignoredVariables : List String) :
    applyTemplateVars protoStr content templateVars ignoredVariables =
      applyTemplateVarsCore content (some (jsEnv protoStr (templateVars.getD [])))
        ignoredVariables := rfl

theorem lookupVar_append (v w : List (String × String)) (k : String) :
    lookupVar (v ++ w) k = (lookupVar v k).or (lookupVar w k) := by
  rw [lookupVar, lookupVar, lookupVar, List.find?_append]
  cases List.find? (fun e => e.1 = k) v <;> rfl

theorem lookupVar_map_self (f : String → String) :
    ∀ (ws : List String) (k : String),
      lookupVar (ws.map (fun w => (w, f w))) k = if k ∈ ws then some (f k) else none
  | [], k => by simp [lookupVar]
  | w :: ws, k => by
      by_cases hw : w = k
      · subst hw
        rw [List.map_cons, lookupVar, List.find?_cons_of_pos _ (by simp)]
        simp
      · rw [List.map_cons, lookupVar, List.find?_cons_of_neg _ (by simp [hw])]
        have ih := lookupVar_map_self f ws k
        rw [lookupVar] at ih
        rw [ih]
        have hkw : ¬ k = w := fun h => hw h.symm
        simp [List.mem_cons, hkw]

theorem lookupVar_jsEnv (protoStr : String → String) (vars : List (String × String))
    (k : String) :
    lookupVar (jsEnv protoStr vars) k =
      (lookupVar vars k).or
        (if k ∈ objectPrototypeKeys then some (protoStr k) else none) := by
  rw [jsEnv, lookupVar_append, lookupVar_map_self]

theorem lookupVar_jsEnv_eq_none (protoStr : String → String)
    (vars : List (String × String)) (k : String) :
    lookupVar (jsEnv protoStr vars) k = none ↔
      lookupVar vars k = none ∧ k ∉ objectPrototypeKeys := by
  rw [lookupVar_jsEnv]
  cases h : lookupVar vars k with
  | none =>
      by_cases hk : k ∈ objectPrototypeKeys <;> simp [hk, Option.or]
  | some v => simp [Option.or]

theorem missingName_jsEnv (protoStr : String → String) (vars : List (String × String))
    (ignoredVariables : List String) (k : String) :
    MissingName (jsEnv protoStr vars) ignoredVariables k ↔
      lookupVar vars k = none ∧ k ∉ objectPrototypeKeys ∧ k ∉ ignoredVariables := by
  simp only [MissingName, lookupVar_jsEnv_eq_none]
  tauto

theorem lookupVar_jsEnv_of_not_proto (protoStr : String → String)
    (vars : List (String × String)) (k : String) (hk : k ∉ objectPrototypeKeys) :
    lookupVar (jsEnv protoStr vars) k = lookupVar vars k := by
  rw [lookupVar_jsEnv, if_neg hk]
  cases lookupVar vars k <;> rfl

/-- A concrete rendering of the inherited `Object.prototype` members, as
`String(...)` produces it for the built-in methods. -/
def protoStrExample : String → String :=
  fun k => "function " ++ k ++ "() \x7b [native code] \x7d"

/-- C8 (counterexample).  The JavaScript `in` operator sees the
`Object.prototype` members, so a placeholder named after one of them
does not throw even with no variables at all: `\x7b\x7btoString\x7d\x7d`
renders to the string form of the inherited method — and it is
substituted even when `toString` is in the ignored set, instead of being
left verbatim. -/
theorem c8_prototype_key_counterexample :
    applyTemplateVars protoStrExample "\x7b\x7btoString\x7d\x7d" none [] =
      .ok "function toString() \x7b [native code] \x7d" ∧
    applyTemplateVars protoStrExample "\x7b\x7btoString\x7d\x7d" none ["toString"] =
      .ok "function toString() \x7b [native code] \x7d" :=
  ⟨by rfl, by rfl⟩

/-- C8 (amended).  Rendering scans all placeholders first and fails with
an error naming the first placeholder (in scan order) whose name is
neither an own key of the variable record, nor an `Object.prototype`
member, nor in the ignored set, producing no output in that case (the
result is `Except.error`, carrying no partially substituted text); on
success the replacement pass substitutes every placeholder whose name is
in the table — an own key becomes its value, and a prototype-named
placeholder becomes the string form of the inherited member even when it
is ignored — while any remaining placeholder (necessarily ignored,
neither own nor prototype-named) is left verbatim; with nothing in the
table the token stream re-assembles to the exact input.  E.g. rendering
`"Hello \x7b\x7bname\x7d\x7d, \x7b\x7bx\x7d\x7d"` with `name := Cookie`
and `x` ignored yields `"Hello Cookie, \x7b\x7bx\x7d\x7d"`, while an
unmapped, unignored `a` before `b` reports `a`. -/
theorem c8_applyTemplateVars_js_rendering :
    (∀ protoStr content templateVars ignoredVariables e,
      applyTemplateVars protoStr content templateVars ignoredVariables = .error e ↔
        ∃ k pre post, e = "Missing template var: " ++ k ∧
          tplNames (scanTpl content.data) = pre ++ k :: post ∧
          MissingName (jsEnv protoStr (templateVars.getD [])) ignoredVariables k ∧
          ∀ n ∈ pre,
            ¬ MissingName (jsEnv protoStr (templateVars.getD [])) ignoredVariables n) ∧
    (∀ protoStr content templateVars ignoredVariables out,
      applyTemplateVars protoStr content templateVars ignoredVariables = .ok out →
        (∀ n ∈ tplNames (scanTpl content.data),
          ¬ MissingName (jsEnv protoStr (templateVars.getD [])) ignoredVariables n) ∧
        out.data = renderToksChars (jsEnv protoStr (templateVars.getD []))
          (scanTpl content.data)) ∧
    (∀ protoStr vars ignoredVariables k,
      MissingName (jsEnv protoStr vars) ignoredVariables k ↔
        lookupVar vars k = none ∧ k ∉ objectPrototypeKeys ∧ k ∉ ignoredVariables) ∧
    (∀ protoStr vars k, k ∉ objectPrototypeKeys →
      lookupVar (jsEnv protoStr vars) k = lookupVar vars k) ∧
    (∀ l, renderToksChars [] (scanTpl l) = l) ∧
    applyTemplateVars protoStrExample "Hello \x7b\x7bname\x7d\x7d, \x7b\x7bx\x7d\x7d!"
      (some [("name", "Cookie")]) ["x"] = .ok "Hello Cookie, \x7b\x7bx\x7d\x7d!" ∧
    applyTemplateVars protoStrExample "\x7b\x7ba\x7d\x7d \x7b\x7bb\x7d\x7d" (some []) [] =
      .error "Missing template var: a" := by
  refine ⟨?_, ?_, missingName_jsEnv, lookupVar_jsEnv_of_not_proto, renderToks_id,
    by rfl, by rfl⟩
  · intro protoStr content templateVars ignoredVariables e
    rw [applyTemplateVars_eq_core]
    exact applyTemplateVarsCore_error_iff content
      (some (jsEnv protoStr (templateVars.getD []))) ignoredVariables e
  · intro protoStr content templateVars ignoredVariables out h
    rw [applyTemplateVars_eq_core] at h
    exact applyTemplateVarsCore_ok content
      (some (jsEnv protoStr (templateVars.getD []))) ignoredVariables out h

/-- C8 (witness): the success characterization applied at a concrete
rendering with an own key. -/
theorem c8_applyTemplateVars_js_rendering_witness :
    (∀ n ∈ tplNames (scanTpl ("A \x7b\x7bv\x7d\x7d B" : String).data),
      ¬ MissingName (jsEnv protoStrExample [("v", "1")]) [] n) ∧
    ("A 1 B" : String).data =
      renderToksChars (jsEnv protoStrExample [("v", "1")])
        (scanTpl ("A \x7b\x7bv\x7d\x7d B" : String).data) :=
  c8_applyTemplateVars_js_rendering.2.1 protoStrExample "A \x7b\x7bv\x7d\x7d B"
    (some [("v", "1")]) [] "A 1 B" (by rfl)


/-! ## Feature definitions and rename/delete resolution -/

/-- One value of the `changes` map of a feature definition. -/
structure ChangeEntry where
  renames : List (String × String)
  deletes : List String
deriving Repr, DecidableEq

/-- `FeatureDefinition` of the versioned engine's `config.ts` (whose
loader is not in the sources; the shape is taken from its uses and the
spec).  `templates` models the feature's on-disk template directory
(path to raw file content) and `jsonFragments` its parsed JSON merge
fragment files, so that the file reads of `templates.ts` and `merge.ts`
become lookups. -/
structure FeatureDefinition where
  domain : String
  version : String
  templateRoot : String
  files : List String
  templateFiles : List String
  fileRules : List (String × String)
  fileMergeJson : List String
  changes : List (String × ChangeEntry)
  templates : List (String × String)
  jsonFragments : List (String × JObj)
deriving Repr, DecidableEq

/-- Insert keeping earlier-arriving equal elements first (JavaScript
`Array.prototype.sort` is stable). -/
def insertSorted {α : Type} (cmp : α → α → Int) (x : α) : List α → List α
  | [] => [x]
  | y :: ys => if cmp x y ≤ 0 then x :: y :: ys else y :: insertSorted cmp x ys

/-- Stable sort by a comparator, modelling `Array.prototype.sort`. -/
def sortByCmp {α : Type} (cmp : α → α → Int) : List α → List α
  | [] => []
  | x :: xs => insertSorted cmp x (sortByCmp cmp xs)

/-- `applyRename` from `templates.ts`: redirect every pending rename
whose target is `src` to `dst`, then record `src → dst` itself. -/
def applyRename (renames : List (String × String)) (src dst : String) :
    List (String × String) :=
  if (renames.map (fun e => if e.2 = src then (e.1, dst) else e)).any
      (fun e => e.1 = src) then
    (renames.map (fun e => if e.2 = src then (e.1, dst) else e)).map
      (fun e => if e.1 = src then (src, dst) else e)
  else (renames.map (fun e => if e.2 = src then (e.1, dst) else e)) ++ [(src, dst)]

/-- JavaScript `Set.add`: append if absent (insertion order preserved). -/
def setAdd (s : List String) (x : String) : List String :=
  if x ∈ s then s else s ++ [x]

/-- JavaScript `Set.delete`. -/
def setDelete (s : List String) (x : String) : List String :=
  s.filter (fun d => d ≠ x)

/-- The accumulating state of `resolveFeatureChanges`. -/
structure FeatureChanges where
  renames : List (String × String)
  deletes : List String
deriving Repr, DecidableEq

/-- One `applicable` entry of the `resolveFeatureChanges` loop. -/
def applyChangeEntry (st : FeatureChanges) (change : ChangeEntry) : FeatureChanges :=
  let st1 := change.renames.foldl
    (fun (acc : FeatureChanges) (r : String × String) =>
      { renames := applyRename acc.renames r.1 r.2, deletes := setDelete acc.deletes r.1 })
    st
  { st1 with deletes := change.deletes.foldl setAdd st1.deletes }

/-- `resolveFeatureChanges` from `templates.ts`: keep the `changes`
entries at versions at most the feature's declared version, process them
in ascending (stable-sorted) version order, composing renames and
accumulating deletes, a rename removing its source from the delete set. -/
def resolveFeatureChanges (feature : FeatureDefinition) : FeatureChanges :=
  if feature.changes = [] then { renames := [], deletes := [] }
  else
    let applicable := sortByCmp (fun a b => compareSemver a.1 b.1)
      (feature.changes.filter (fun e => compareSemver e.1 feature.version ≤ 0))
    applicable.foldl (fun st e => applyChangeEntry st e.2) { renames := [], deletes := [] }

theorem resolveFeatureChanges_filter (feature : FeatureDefinition) :
    resolveFeatureChanges
      { feature with changes :=
          (feature.changes.filter (fun e => compareSemver e.1 feature.version ≤ 0)) } =
    resolveFeatureChanges feature := by
  unfold resolveFeatureChanges
  by_cases h : feature.changes = []
  · simp [h]
  · by_cases h2 : feature.changes.filter
        (fun e => compareSemver e.1 feature.version ≤ 0) = []
    · simp [h, h2, sortByCmp]
    · simp [h, h2, List.filter_filter]

theorem applyRename_no_stale (renames : List (String × String)) (src dst : String)
    (h : dst ≠ src) : ∀ e ∈ applyRename renames src dst, e.2 ≠ src := by
  intro e he
  unfold applyRename at he
  split at he
  · rcases List.mem_map.1 he with ⟨f, hf, rfl⟩
    rcases List.mem_map.1 hf with ⟨x, _, rfl⟩
    by_cases h2 : x.2 = src <;>
      by_cases h1 : (if x.2 = src then (x.1, dst) else x).1 = src <;>
        simp_all
  · rcases List.mem_append.1 he with hm | hm
    · rcases List.mem_map.1 hm with ⟨x, _, rfl⟩
      by_cases h2 : x.2 = src <;> simp_all
    · obtain rfl : e = (src, dst) := by simpa using hm
      simpa using h

/-- A feature carrying only what `resolveFeatureChanges` reads. -/
def featureWithChanges (domain version : String)
    (changes : List (String × ChangeEntry)) : FeatureDefinition :=
  ⟨domain, version, "", [], [], [], [], changes, [], []⟩

/-- C4.  The resolved rename/delete chain uses exactly the `changes`
entries at versions at most the declared one (filtering the rest away
first gives the same result), processed in ascending version order
(listing the entries out of order changes nothing); renames compose
transitively (`a→b` at 1.1 then `b→c` at 1.2 yields `a→c` and `b→c`, and
in general no pending rename keeps pointing at a redirected source);
deletes accumulate as a set; and a path that is subsequently the source
of a rename is removed from the delete set, while a delete recorded
after the rename stands. -/
theorem c4_resolveFeatureChanges :
    (∀ feature, resolveFeatureChanges
        { feature with changes :=
            (feature.changes.filter (fun e => compareSemver e.1 feature.version ≤ 0)) } =
      resolveFeatureChanges feature) ∧
    (∀ renames src dst, dst ≠ src → ∀ e ∈ applyRename renames src dst, e.2 ≠ src) ∧
    resolveFeatureChanges (featureWithChanges "lint" "1.2"
      [("1.1", ⟨[("a", "b")], []⟩), ("1.2", ⟨[("b", "c")], []⟩)]) =
      ⟨[("a", "c"), ("b", "c")], []⟩ ∧
    resolveFeatureChanges (featureWithChanges "lint" "1.2"
      [("1.2", ⟨[("b", "c")], []⟩), ("1.1", ⟨[("a", "b")], []⟩)]) =
      ⟨[("a", "c"), ("b", "c")], []⟩ ∧
    resolveFeatureChanges (featureWithChanges "lint" "1.2"
      [("1.1", ⟨[("a", "b")], []⟩), ("2.0", ⟨[("b", "c")], []⟩)]) =
      ⟨[("a", "b")], []⟩ ∧
    resolveFeatureChanges (featureWithChanges "ci" "1.1"
      [("1.0", ⟨[], ["old.txt"]⟩), ("1.1", ⟨[("old.txt", "new.txt")], []⟩)]) =
      ⟨[("old.txt", "new.txt")], []⟩ ∧
    resolveFeatureChanges (featureWithChanges "ci" "1.1"
      [("1.0", ⟨[("old.txt", "new.txt")], []⟩), ("1.1", ⟨[], ["old.txt"]⟩)]) =
      ⟨[("old.txt", "new.txt")], ["old.txt"]⟩ :=
  ⟨resolveFeatureChanges_filter, applyRename_no_stale,
   by decide, by decide, by decide, by decide, by decide⟩

/-- C4 (witness): the general conjuncts applied at concrete inputs. -/
theorem c4_resolveFeatureChanges_witness :
    resolveFeatureChanges
      { featureWithChanges "w" "1.0" [("1.0", ⟨[("p", "q")], []⟩), ("9.9", ⟨[], ["p"]⟩)] with
        changes := ((featureWithChanges "w" "1.0"
          [("1.0", ⟨[("p", "q")], []⟩), ("9.9", ⟨[], ["p"]⟩)]).changes.filter
            (fun e => compareSemver e.1 "1.0" ≤ 0)) } =
      resolveFeatureChanges
        (featureWithChanges "w" "1.0" [("1.0", ⟨[("p", "q")], []⟩), ("9.9", ⟨[], ["p"]⟩)]) ∧
    ∀ e ∈ applyRename [("x", "y")] "y" "z", e.2 ≠ "y" :=
  ⟨c4_resolveFeatureChanges.1 _,
   c4_resolveFeatureChanges.2.1 [("x", "y")] "y" "z" (by decide)⟩

/-! ## The status engine (`check.ts` of the versioned design) -/

def featureKey (feature : FeatureDefinition) : String :=
  feature.domain ++ "@" ++ feature.version

/-- `ProjectConfig`: `features` is the ordered `{domain: version}` map. -/
structure ProjectConfig where
  name : String
  path : String
  templateVars : Option (List (String × String))
  features : List (String × String)
deriving Repr, DecidableEq

/-- The project's file tree, relative path to content; `existsSync` is
key presence and `readFileSync` the lookup. -/
abbrev Disk := List (String × String)

def diskGet (disk : Disk) (path : String) : Option String :=
  (disk.find? (fun e => e.1 = path)).map (·.2)

/-- `loadTemplateFile` / one file of `loadTemplateFiles`: the template
directory read becomes a lookup in the feature's modelled `templates`,
then placeholder substitution. -/
def loadTemplateFile (feature : FeatureDefinition) (filePath : String)
    (templateVars : Option (List (String × String))) : Except String String :=
  match (feature.templates.find? (fun e => e.1 = filePath)).map (·.2) with
  | none => .error ("Missing template for " ++ featureKey feature ++ ": " ++ filePath)
  | some raw => applyTemplateVarsSimple raw templateVars

structure ResolvedTemplateFile where
  path : String
  content : String
deriving Repr, DecidableEq

def loadTemplateFiles (feature : FeatureDefinition) (paths : List String)
    (templateVars : Option (List (String × String))) :
    Except String (List ResolvedTemplateFile) :=
  paths.mapM (fun filePath =>
    (loadTemplateFile feature filePath templateVars).map
      (fun content => (⟨filePath, content⟩ : ResolvedTemplateFile)))

structure FeatureTemplateResolution where
  files : List ResolvedTemplateFile
  renames : List (String × String)
  deletes : List String
deriving Repr, DecidableEq

/-- `resolveFeatureTemplates` from `templates.ts`. -/
def resolveFeatureTemplates (feature : FeatureDefinition)
    (templateVars : Option (List (String × String))) :
    Except String FeatureTemplateResolution :=
  (loadTemplateFiles feature feature.files templateVars).map
    (fun files =>
      { files, renames := (resolveFeatureChanges feature).renames,
        deletes := (resolveFeatureChanges feature).deletes })

/-- `resolveProjectFeatures`: look each declared `(domain, version)` pair
up in the feature map (`new Map` keeps the last definition for a key). -/
def resolveProjectFeatures (project : ProjectConfig)
    (featuresAll : List FeatureDefinition) : Except String (List FeatureDefinition) :=
  project.features.mapM (fun e =>
    match featuresAll.reverse.find? (fun f => featureKey f = e.1 ++ "@" ++ e.2) with
    | some feature => .ok feature
    | none => .error ("Feature not found: " ++ e.1 ++ "@" ++ e.2 ++
        " (project " ++ project.name ++ ")."))

/-- One status drift entry; `matchesVersion` embeds the source field
`matches` (a Lean keyword). -/
structure StatusDrift where
  path : String
  feature : String
  kind : String
  detail : Option String
  matchesVersion : Option String
deriving Repr, DecidableEq

structure StatusConflict where
  path : String
  type : String
  owners : List String
  detail : Option String
deriving Repr, DecidableEq

/-- `addOwner`: push onto the existing owner list, else start one. -/
def addOwner (owners : List (String × List String)) (path owner : String) :
    List (String × List String) :=
  if owners.any (fun e => e.1 = path) then
    owners.map (fun e => if e.1 = path then (e.1, e.2 ++ [owner]) else e)
  else owners ++ [(path, [owner])]

/-- The owner map of `detectOwnershipConflicts` in the status engine:
each feature claims its `files` and its `fileRules` keys, in feature
order. -/
def statusOwnerMap (features : List FeatureDefinition) : List (String × List String) :=
  features.foldl (fun acc feature =>
    let acc1 := feature.files.foldl (fun a p => addOwner a p (featureKey feature)) acc
    feature.fileRules.foldl (fun a e => addOwner a e.1 (featureKey feature)) acc1) []

/-- `detectOwnershipConflicts` (status engine variant). -/
def detectOwnershipConflicts (features : List FeatureDefinition) : List StatusConflict :=
  ((statusOwnerMap features).filter (fun e => e.2.length > 1)).map
    (fun e => ⟨e.1, "ownership", e.2, none⟩)

/-- The candidate loop shared by both `findMatchingVersion` variants:
the first candidate that declares the path and whose rendered template
equals the on-disk content. -/
def findMatchingVersionGoF (filePath content : String)
    (templateVars : Option (List (String × String))) :
    List FeatureDefinition → Except String (Option FeatureDefinition)
  | [] => .ok none
  | c :: rest =>
      if filePath ∈ c.files then
        match loadTemplateFile c filePath templateVars with
        | .error e => .error e
        | .ok t =>
            if t = content then .ok (some c)
            else findMatchingVersionGoF filePath content templateVars rest
      else findMatchingVersionGoF filePath content templateVars rest

/-- The ordered candidate list of `findMatchingVersion`: the other
versions of the feature's domain, ascending (stable-sorted). -/
def matchCandidates (featuresAll : List FeatureDefinition)
    (feature : FeatureDefinition) : List FeatureDefinition :=
  sortByCmp (fun a b => compareSemver a.version b.version)
    ((featuresAll.filter (fun f => f.domain = feature.domain)).filter
      (fun f => f.version ≠ feature.version))

/-- `findMatchingVersion` from the status engine: the first exact match
reported as `domain@version`. -/
def findMatchingVersion (featuresAll : List FeatureDefinition)
    (feature : FeatureDefinition) (filePath content : String)
    (templateVars : Option (List (String × String))) : Except String (Option String) :=
  Except.map (fun r => Option.map featureKey r)
    (findMatchingVersionGoF filePath content templateVars
      (matchCandidates featuresAll feature))

/-- The `resolved.files` loop of `buildProjectStatus`: missing and
mismatch entries for one feature's template files. -/
def statusTemplateDrift (featuresAll : List FeatureDefinition)
    (feature : FeatureDefinition) (templateVars : Option (List (String × String)))
    (conflictPaths : List String) (disk : Disk) (files : List ResolvedTemplateFile) :
    Except String (List StatusDrift × List StatusDrift) :=
  files.foldlM (fun (acc : List StatusDrift × List StatusDrift)
      (template : ResolvedTemplateFile) =>
    if template.path ∈ conflictPaths then .ok acc
    else match diskGet disk template.path with
      | none => .ok (acc.1 ++
          [(⟨template.path, featureKey feature, "missing", none, none⟩ : StatusDrift)],
          acc.2)
      | some content =>
          if content = template.content then .ok acc
          else
            (findMatchingVersion featuresAll feature template.path content templateVars).map
              (fun m => (acc.1, acc.2 ++
                [(⟨template.path, featureKey feature, "mismatch", none, m⟩ : StatusDrift)])))
    ([], [])

/-- The `fileRules` loop of `buildProjectStatus`: required-exists rules
only check presence. -/
def statusRuleDrift (feature : FeatureDefinition) (conflictPaths : List String)
    (disk : Disk) : List StatusDrift :=
  feature.fileRules.foldl (fun (acc : List StatusDrift) e =>
    if e.2 ≠ "exists" then acc
    else if e.1 ∈ conflictPaths then acc
    else match diskGet disk e.1 with
      | some _ => acc
      | none => acc ++
          [(⟨e.1, featureKey feature, "missing", some "required", none⟩ : StatusDrift)]) []

structure JsonMergeFile where
  path : String
  fragments : List JsonFragment
deriving Repr, DecidableEq

def addFragment (files : List (String × List JsonFragment)) (path : String)
    (fragment : JsonFragment) : List (String × List JsonFragment) :=
  if files.any (fun e => e.1 = path) then
    files.map (fun e => if e.1 = path then (e.1, e.2 ++ [fragment]) else e)
  else files ++ [(path, [fragment])]

/-- `loadJsonMergeFragments`: group each feature's declared JSON merge
paths (fragment files modelled as parsed objects on the feature). -/
def loadJsonMergeFragments (features : List FeatureDefinition) :
    Except String (List JsonMergeFile) :=
  Except.map
    (fun (files : List (String × List JsonFragment)) =>
      files.map (fun e => (⟨e.1, e.2⟩ : JsonMergeFile)))
    (features.foldlM (fun (acc : List (String × List JsonFragment))
        (feature : FeatureDefinition) =>
      feature.fileMergeJson.foldlM (fun (acc2 : List (String × List JsonFragment))
          (filePath : String) =>
        match (feature.jsonFragments.find? (fun e => e.1 = filePath)).map (·.2) with
        | none => (.error ("Missing JSON merge fragment for " ++ featureKey feature ++ ": " ++
            filePath) : Except String (List (String × List JsonFragment)))
        | some fragment => .ok (addFragment acc2 filePath ⟨featureKey feature, fragment⟩))
        acc) ([] : List (String × List JsonFragment)))

def mapJsonMergeConflicts (path : String) (conflicts : List MergeConflict) :
    List StatusConflict :=
  conflicts.map (fun c => ⟨path, "json-merge", [c.previousSource, c.nextSource], some c.path⟩)

/-- `detectJsonMergeDrift` from the status engine; `parseJson` injects
the `JSON.parse` collaborator (`none` models a parse exception). -/
def detectJsonMergeDrift (features : List FeatureDefinition) (conflictPaths : List String)
    (disk : Disk) (parseJson : String → Option JsonValue) :
    Except String (List StatusDrift × List StatusDrift × List StatusConflict) :=
  (loadJsonMergeFragments features).map (fun mergeFiles =>
    mergeFiles.foldl (fun (acc : List StatusDrift × List StatusDrift × List StatusConflict)
        (mergeFile : JsonMergeFile) =>
      if mergeFile.path ∈ conflictPaths then acc
      else
        let owner := String.intercalate ", " (mergeFile.fragments.map (·.source))
        match diskGet disk mergeFile.path with
        | none => (acc.1 ++
            [(⟨mergeFile.path, owner, "missing", some "json-merge", none⟩ : StatusDrift)],
            acc.2.1, acc.2.2)
        | some content =>
            match parseJson content with
            | none => (acc.1, acc.2.1 ++
                [(⟨mergeFile.path, owner, "mismatch", some "Invalid JSON", none⟩ :
                  StatusDrift)],
                acc.2.2)
            | some parsed =>
                match parsed with
                | .obj fields =>
                    let result := mergeJsonFragments fields mergeFile.fragments
                    let acc' := if deepEqual (.obj fields) (.obj result.merged) then acc
                      else (acc.1, acc.2.1 ++
                        [(⟨mergeFile.path, owner, "mismatch", some "json-merge", none⟩ :
                          StatusDrift)],
                        acc.2.2)
                    (acc'.1, acc'.2.1,
                      acc'.2.2 ++ mapJsonMergeConflicts mergeFile.path result.conflicts)
                | _ => (acc.1, acc.2.1 ++
                    [(⟨mergeFile.path, owner, "mismatch", some "Expected JSON object",
                      none⟩ : StatusDrift)],
                    acc.2.2))
      ([], [], []))

structure ProjectStatus where
  name : String
  path : String
  features : List String
  conflicts : List StatusConflict
  missing : List StatusDrift
  mismatches : List StatusDrift
  ok : Bool
deriving Repr, DecidableEq

/-- The per-feature body of `buildProjectStatus`'s drift loop. -/
def statusFeatureStep (featuresAll : List FeatureDefinition)
    (tv : Option (List (String × String))) (conflictPaths : List String) (disk : Disk)
    (acc : List StatusDrift × List StatusDrift) (feature : FeatureDefinition) :
    Except String (List StatusDrift × List StatusDrift) := do
  let resolved ← resolveFeatureTemplates feature tv
  let tpl ← statusTemplateDrift featuresAll feature tv conflictPaths disk resolved.files
  let rules := statusRuleDrift feature conflictPaths disk
  pure (acc.1 ++ tpl.1 ++ rules, acc.2 ++ tpl.2)

/-- `buildProjectStatus` from the status engine (`assertProjectPath`,
a file-system validity check, is modelled as given: the `disk` is the
project tree). -/
def buildProjectStatus (project : ProjectConfig) (featuresAll : List FeatureDefinition)
    (disk : Disk) (parseJson : String → Option JsonValue) : Except String ProjectStatus := do
  let orderedFeatures ← resolveProjectFeatures project featuresAll
  let conflicts := detectOwnershipConflicts orderedFeatures
  let conflictPaths := conflicts.map (·.path)
  let perFeature ← orderedFeatures.foldlM
    (statusFeatureStep featuresAll project.templateVars conflictPaths disk) ([], [])
  let mergeDrift ← detectJsonMergeDrift orderedFeatures conflictPaths disk parseJson
  let missing := perFeature.1 ++ mergeDrift.1
  let mismatches := perFeature.2 ++ mergeDrift.2.1
  let conflicts' := conflicts ++ mergeDrift.2.2
  pure { name := project.name, path := project.path,
         features := orderedFeatures.map featureKey,
         conflicts := conflicts', missing, mismatches,
         ok := conflicts'.isEmpty && missing.isEmpty && mismatches.isEmpty }

/-! ## The sync planner (`sync.ts`, `part_006`) -/

/-- `SyncAction`; the optional `diff` field of write actions (a
presentation artefact produced by the external diff collaborator when
`includeDiffs` is set) is not modelled. -/
inductive SyncAction where
  | write (path content source : String)
  | delete (path : String)
  | rename (src dst : String)
deriving Repr, DecidableEq

structure SyncConflict where
  path : String
  type : String
  owners : List String
  detail : Option String
  resolution : Option String
deriving Repr, DecidableEq

structure SyncProjectReport where
  name : String
  path : String
  actions : List SyncAction
  conflicts : List SyncConflict
  errors : List String
  ok : Bool
deriving Repr, DecidableEq

structure SyncReport where
  projects : List SyncProjectReport
  hasChanges : Bool
  hasConflicts : Bool
deriving Repr, DecidableEq

/-- The owner map of the sync engine's `detectOwnershipConflicts`: each
feature claims its `files`, its `templateFiles` and its `fileRules`
keys, in feature order. -/
def syncOwnerMap (features : List FeatureDefinition) : List (String × List String) :=
  features.foldl (fun acc feature =>
    let acc1 := feature.files.foldl (fun a p => addOwner a p (featureKey feature)) acc
    let acc2 := feature.templateFiles.foldl (fun a p => addOwner a p (featureKey feature)) acc1
    feature.fileRules.foldl (fun a e => addOwner a e.1 (featureKey feature)) acc2) []

/-- `detectOwnershipConflicts` (sync engine variant). -/
def detectOwnershipConflictsSync (features : List FeatureDefinition) : List SyncConflict :=
  ((syncOwnerMap features).filter (fun e => e.2.length > 1)).map
    (fun e => ⟨e.1, "ownership", e.2, none, none⟩)

/-- `findMatchingVersion` of the sync engine: identical search, but the
result is the bare version rather than `domain@version`. -/
def findMatchingVersionSync (featuresAll : List FeatureDefinition)
    (feature : FeatureDefinition) (filePath content : String)
    (templateVars : Option (List (String × String))) : Except String (Option String) :=
  Except.map (fun r => Option.map FeatureDefinition.version r)
    (findMatchingVersionGoF filePath content templateVars
      (matchCandidates featuresAll feature))

/-- `resolveMergeBase`: prefer the matched version when it also declares
the path, else the nearest strictly older version declaring it. -/
def resolveMergeBase (featuresAll : List FeatureDefinition) (feature : FeatureDefinition)
    (templatePath : String) (matchVersion : Option String) : Option FeatureDefinition :=
  let candidates := sortByCmp (fun a b => compareSemver a.version b.version)
    ((featuresAll.filter (fun f => f.domain = feature.domain)).filter
      (fun f => templatePath ∈ f.files))
  let older := candidates.filter (fun c => compareSemver c.version feature.version < 0)
  match matchVersion with
  | some v =>
      match candidates.find? (fun c => c.version = v) with
      | some matched => some matched
      | none => older.getLast?
  | none => older.getLast?

/-- `resolveMergeConflict`: the strategy switch (the `"none"` case and
the `default` both block). -/
def resolveMergeConflict (strategy : String) (_actual desired merged : String) :
    Option String × Bool × String :=
  if strategy = "markers" then (some merged, false, "markers")
  else if strategy = "keep-local" then (none, false, "kept local")
  else if strategy = "overwrite" then (some desired, false, "overwrote with template")
  else (none, true, "blocked")

/-- JSON escaping of one character, as `JSON.stringify` performs it. -/
def escapeJsonChar (c : Char) : List Char :=
  if c = '"' then ['\\', '"']
  else if c = '\\' then ['\\', '\\']
  else if c = '\n' then ['\\', 'n']
  else if c = '\r' then ['\\', 'r']
  else if c = '\t' then ['\\', 't']
  else if c = '\x08' then ['\\', 'b']
  else if c = '\x0c' then ['\\', 'f']
  else if c.toNat < 32 then
    ['\\', 'u', '0', '0',
      (Nat.digitChar (c.toNat / 16)), (Nat.digitChar (c.toNat % 16))]
  else [c]

def quoteJson (s : String) : String :=
  String.mk ('"' :: (s.data.flatMap escapeJsonChar) ++ ['"'])

def indentSpaces (n : Nat) : String := String.mk (List.replicate n ' ')

mutual

/-- `JSON.stringify(value, null, 2)` (numbers are the modelled
integers). -/
def stringifyValue (ind : Nat) : JsonValue → String
  | .null => "null"
  | .bool true => "true"
  | .bool false => "false"
  | .num n => toString n
  | .str s => quoteJson s
  | .arr elems =>
      match elems with
      | [] => "[]"
      | _ :: _ => "[\n" ++ stringifyElems (ind + 2) elems ++ "\n" ++ indentSpaces ind ++ "]"
  | .obj fields =>
      match fields with
      | [] => "\x7b\x7d"
      | _ :: _ =>
          "\x7b\n" ++ stringifyFields (ind + 2) fields ++ "\n" ++ indentSpaces ind ++
            "\x7d"

def stringifyElems (ind : Nat) : List JsonValue → String
  | [] => ""
  | [e] => indentSpaces ind ++ stringifyValue ind e
  | e :: e2 :: es =>
      indentSpaces ind ++ stringifyValue ind e ++ ",\n" ++ stringifyElems ind (e2 :: es)

def stringifyFields (ind : Nat) : List (String × JsonValue) → String
  | [] => ""
  | [f] => indentSpaces ind ++ quoteJson f.1 ++ ": " ++ stringifyValue ind f.2
  | f :: f2 :: fs =>
      indentSpaces ind ++ quoteJson f.1 ++ ": " ++ stringifyValue ind f.2 ++ ",\n" ++
        stringifyFields ind (f2 :: fs)

end

/-- `stringifyJson`: two-space-indented serialization plus a trailing
newline. -/
def stringifyJson (value : JObj) : String :=
  stringifyValue 0 (.obj value) ++ "\n"

/-- `parseJsonObject` from `sync.ts` (`parseJson` injects `JSON.parse`):
empty/blank content, unparsable content and non-object values are all
`none`. -/
def parseJsonObject (parseJson : String → Option JsonValue) (content : String) :
    Option JObj :=
  if trimJs content.data = [] then none
  else match parseJson content with
    | some (.obj fields) => some fields
    | _ => none

/-- The mutable `(actions, conflicts, errors)` triple of
`buildProjectSyncReport`. -/
structure SyncState where
  actions : List SyncAction
  conflicts : List SyncConflict
  errors : List String
deriving Repr, DecidableEq

/-- The JSON-merge file loop of `buildProjectSyncReport`. -/
def syncJsonMergeStep (disk : Disk) (parseJson : String → Option JsonValue)
    (conflictPaths : List String) (st : SyncState) (mergeFile : JsonMergeFile) : SyncState :=
  if mergeFile.path ∈ conflictPaths then st
  else
    let actual := (diskGet disk mergeFile.path).getD ""
    let parsed := parseJsonObject parseJson actual
    if trimJs actual.data ≠ [] ∧ parsed = none then
      { st with errors := st.errors ++ ["Invalid JSON in " ++ mergeFile.path ++ "."] }
    else
      let result := mergeJsonFragments (parsed.getD []) mergeFile.fragments
      if result.conflicts ≠ [] then
        { st with
          conflicts := st.conflicts ++ result.conflicts.map
            (fun c => (⟨mergeFile.path, "json-merge", [c.previousSource, c.nextSource],
              some c.path, none⟩ : SyncConflict)),
          errors := st.errors ++
            ["JSON merge conflicts detected for " ++ mergeFile.path ++ "."] }
      else
        let expected := stringifyJson result.merged
        if expected ≠ actual then
          { st with actions := st.actions ++
              [.write mergeFile.path expected
                (String.intercalate ", " (mergeFile.fragments.map (·.source)))] }
        else st

/-- The `fileRules` loop of `buildProjectSyncReport`: only errors. -/
def syncRuleStep (disk : Disk) (conflictPaths : List String) (owner : String)
    (st : SyncState) (rule : String × String) : SyncState :=
  if rule.2 ≠ "exists" then st
  else if rule.1 ∈ conflictPaths then st
  else match diskGet disk rule.1 with
    | some _ => st
    | none => { st with errors := st.errors ++
        ["Required file missing: " ++ rule.1 ++ " (" ++ owner ++ ")."] }

/-- The body of the `resolved.files` loop of `buildProjectSyncReport`:
drift handling with version match, merge base, three-way merge and the
conflict strategy. -/
def syncTemplateFileStep (featuresAll : List FeatureDefinition)
    (feature : FeatureDefinition) (templateVars : Option (List (String × String)))
    (disk : Disk) (threeWayMerge : String → String → String → String × Bool)
    (mergeStrategy : String) (conflictPaths mergePaths : List String)
    (st : SyncState) (template : ResolvedTemplateFile) : Except String SyncState :=
  if template.path ∈ conflictPaths ∨ template.path ∈ mergePaths then .ok st
  else match diskGet disk template.path with
    | none => .ok { st with actions := st.actions ++
        [.write template.path template.content (featureKey feature)] }
    | some actual =>
        if actual = template.content then .ok st
        else do
          let matchVersion ← findMatchingVersionSync featuresAll feature template.path actual
            templateVars
          match resolveMergeBase featuresAll feature template.path matchVersion with
          | some baseFeature => do
              let base ← loadTemplateFile baseFeature template.path templateVars
              let merged := threeWayMerge base actual template.content
              if merged.2 then
                let resolution := resolveMergeConflict mergeStrategy actual template.content
                  merged.1
                let st1 := { st with conflicts := st.conflicts ++
                  [(⟨template.path, "merge", [featureKey feature],
                    some ("base " ++ featureKey baseFeature),
                    some resolution.2.2⟩ : SyncConflict)] }
                if resolution.2.1 then
                  pure { st1 with errors := st1.errors ++
                    ["Merge conflict detected for " ++ template.path ++ "."] }
                else
                  match resolution.1 with
                  | none => pure st1
                  | some content => pure { st1 with actions := st1.actions ++
                      [.write template.path content (featureKey feature)] }
              else
                pure { st with actions := st.actions ++
                  [.write template.path merged.1 (featureKey feature)] }
          | none =>
              pure { st with actions := st.actions ++
                [.write template.path template.content (featureKey feature)] }

/-- The `templateOnly` loop: one-shot bootstrap writes for absent files. -/
def syncTemplateOnlyStep (feature : FeatureDefinition) (disk : Disk)
    (conflictPaths mergePaths : List String) (st : SyncState)
    (template : ResolvedTemplateFile) : SyncState :=
  if template.path ∈ conflictPaths ∨ template.path ∈ mergePaths then st
  else match diskGet disk template.path with
    | some _ => st
    | none => { st with actions := st.actions ++
        [.write template.path template.content (featureKey feature)] }

/-- `applyRenameActions`: a rename is planned only when the source exists
and the destination does not; an existing destination degrades the
rename to a delete of the source. -/
def applyRenameActions (disk : Disk) (st : SyncState) (renames : List (String × String)) :
    SyncState :=
  renames.foldl (fun acc r =>
    match diskGet disk r.1 with
    | none => acc
    | some _ =>
        match diskGet disk r.2 with
        | some _ => { acc with actions := acc.actions ++ [.delete r.1] }
        | none => { acc with actions := acc.actions ++ [.rename r.1 r.2] }) st

/-- The paths `applyDeleteActions` skips: every pending write target and
both ends of every pending rename. -/
def skippedPaths (actions : List SyncAction) : List String :=
  actions.foldl (fun acc a =>
    match a with
    | .write path _ _ => acc ++ [path]
    | .rename src dst => acc ++ [src, dst]
    | .delete _ => acc) []

/-- `applyDeleteActions`: delete extant paths not touched by a pending
write or rename. -/
def applyDeleteActions (disk : Disk) (st : SyncState) (deletes : List String) : SyncState :=
  let skipped := skippedPaths st.actions
  deletes.foldl (fun acc path =>
    if path ∈ skipped then acc
    else match diskGet disk path with
      | none => acc
      | some _ => { acc with actions := acc.actions ++ [.delete path] }) st

/-- `validateActionCollisions`: double writes, write/rename collisions
and duplicate rename targets are fatal plan errors. -/
def validateActionCollisions (actions : List SyncAction) (errors : List String) :
    List String :=
  (actions.foldl (fun (acc : List String × List String × List String × List String) a =>
    match a with
    | .write path _ _ =>
        let e1 := if path ∈ acc.2.1 then acc.1 ++ ["Multiple writes planned for " ++ path ++
          "."] else acc.1
        let e2 := if path ∈ acc.2.2.1 ∨ path ∈ acc.2.2.2 then e1 ++
          ["Write collides with rename for " ++ path ++ "."] else e1
        (e2, acc.2.1 ++ [path], acc.2.2.1, acc.2.2.2)
    | .rename src dst =>
        let e1 := if dst ∈ acc.2.2.1 then acc.1 ++ ["Multiple renames target " ++ dst ++ "."]
          else acc.1
        let e2 := if dst ∈ acc.2.1 then e1 ++ ["Rename target collides with write: " ++ dst ++
          "."] else e1
        (e2, acc.2.1, acc.2.2.1 ++ [dst], acc.2.2.2 ++ [src])
    | .delete _ => acc) (errors, [], [], [])).1

/-- The per-feature body of `buildProjectSyncReport`. -/
def syncFeatureStep (featuresAll : List FeatureDefinition)
    (templateVars : Option (List (String × String))) (disk : Disk)
    (threeWayMerge : String → String → String → String × Bool) (mergeStrategy : String)
    (conflictPaths mergePaths : List String) (st : SyncState)
    (feature : FeatureDefinition) : Except String SyncState := do
  let resolved ← resolveFeatureTemplates feature templateVars
  let st1 := feature.fileRules.foldl
    (syncRuleStep disk conflictPaths (featureKey feature)) st
  let st2 ← resolved.files.foldlM
    (syncTemplateFileStep featuresAll feature templateVars disk threeWayMerge mergeStrategy
      conflictPaths mergePaths) st1
  let templateOnly ← loadTemplateFiles feature feature.templateFiles templateVars
  let st3 := templateOnly.foldl
    (syncTemplateOnlyStep feature disk conflictPaths mergePaths) st2
  let st4 := applyRenameActions disk st3 resolved.renames
  pure (applyDeleteActions disk st4 resolved.deletes)

/-- `buildProjectSyncReport` (the `includeDiffs` presentation flag and
`assertProjectPath` are not modelled; the three-way merge tool is the
injected `threeWayMerge`). -/
def buildProjectSyncReport (project : ProjectConfig) (featuresAll : List FeatureDefinition)
    (disk : Disk) (parseJson : String → Option JsonValue)
    (threeWayMerge : String → String → String → String × Bool) (mergeStrategy : String) :
    Except String SyncProjectReport := do
  let orderedFeatures ← resolveProjectFeatures project featuresAll
  let conflicts0 := detectOwnershipConflictsSync orderedFeatures
  let conflictPaths := conflicts0.map (·.path)
  let errors0 : List String :=
    if conflicts0.length > 0 then ["Ownership conflicts detected."] else []
  let mergeFiles ← loadJsonMergeFragments orderedFeatures
  let mergePaths := mergeFiles.map (·.path)
  let stJson := mergeFiles.foldl (syncJsonMergeStep disk parseJson conflictPaths)
    ⟨[], conflicts0, errors0⟩
  let stFeat ← orderedFeatures.foldlM
    (syncFeatureStep featuresAll project.templateVars disk threeWayMerge mergeStrategy
      conflictPaths mergePaths) stJson
  let errors := validateActionCollisions stFeat.actions stFeat.errors
  pure { name := project.name, path := project.path, actions := stFeat.actions,
         conflicts := stFeat.conflicts, errors,
         ok := stFeat.actions.isEmpty && stFeat.conflicts.isEmpty && errors.isEmpty }

/-! ## Applying a sync report (`applySyncReport`) -/

/-- One observable file-system operation of `applyProjectActions`. -/
inductive FsOp where
  | mkdir (dir : String)
  | renameFs (src dst : String)
  | deleteFs (path : String)
  | writeFs (path content : String)
deriving Repr, DecidableEq

/-- `path.join` of the project root and a repo-relative path (the
normalization `node:path` performs is irrelevant here). -/
def pathJoin (a b : String) : String := a ++ "/" ++ b

/-- `path.dirname`. -/
def dirname (p : String) : String :=
  match p.data.reverse.dropWhile (fun c => c ≠ '/') with
  | [] => "."
  | _ :: [] => "/"
  | _ :: rest => String.mk rest.reverse

/-- The first loop of `applyProjectActions`: every rename, in plan
order. -/
def renamePassOps (project : SyncProjectReport) : List FsOp :=
  project.actions.flatMap (fun a =>
    match a with
    | .rename src dst =>
        [.mkdir (dirname (pathJoin project.path dst)),
         .renameFs (pathJoin project.path src) (pathJoin project.path dst)]
    | _ => [])

/-- The second loop: every delete. -/
def deletePassOps (project : SyncProjectReport) : List FsOp :=
  project.actions.flatMap (fun a =>
    match a with
    | .delete path => [.deleteFs (pathJoin project.path path)]
    | _ => [])

/-- The third loop: every write. -/
def writePassOps (project : SyncProjectReport) : List FsOp :=
  project.actions.flatMap (fun a =>
    match a with
    | .write path content _ =>
        [.mkdir (dirname (pathJoin project.path path)),
         .writeFs (pathJoin project.path path) content]
    | _ => [])

/-- `applyProjectActions` as its trace of file-system operations:
renames first, then deletes, then writes. -/
def applyProjectActions (project : SyncProjectReport) : List FsOp :=
  renamePassOps project ++ deletePassOps project ++ writePassOps project

/-- `applySyncReport` as its trace, each operation attributed to its
project: a project with errors is skipped entirely. -/
def applySyncReport (report : SyncReport) : List (String × FsOp) :=
  report.projects.foldl (fun acc project =>
    if project.errors.length > 0 then acc
    else acc ++ (applyProjectActions project).map (fun op => (project.name, op))) []

theorem applySyncReport_eq_filter (report : SyncReport) :
    applySyncReport report =
      ((report.projects.filter (fun p => p.errors.isEmpty)).map
        (fun p => (applyProjectActions p).map (fun op => (p.name, op)))).flatten := by
  unfold applySyncReport
  suffices h : ∀ (projects : List SyncProjectReport) (acc : List (String × FsOp)),
      projects.foldl (fun acc project =>
        if project.errors.length > 0 then acc
        else acc ++ (applyProjectActions project).map (fun op => (project.name, op))) acc =
      acc ++ ((projects.filter (fun p => p.errors.isEmpty)).map
        (fun p => (applyProjectActions p).map (fun op => (p.name, op)))).flatten by
    simpa using h report.projects []
  intro projects
  induction projects with
  | nil => intro acc; simp
  | cons p rest ih =>
      intro acc
      by_cases hp : p.errors.length > 0
      · have : p.errors.isEmpty = false := by
          cases h : p.errors <;> simp_all
        simp [List.foldl_cons, hp, this, ih]
      · have : p.errors.isEmpty = true := by
          cases h : p.errors <;> simp_all
        simp [List.foldl_cons, hp, this, ih]

theorem renamePassOps_shape (project : SyncProjectReport) (op : FsOp)
    (h : op ∈ renamePassOps project) :
    (∃ d, op = .mkdir d) ∨ ∃ s d, op = .renameFs s d := by
  rcases List.mem_flatMap.1 h with ⟨a, _, hop⟩
  cases a with
  | rename src dst =>
      rcases List.mem_cons.1 hop with rfl | hop
      · exact Or.inl ⟨_, rfl⟩
      · exact Or.inr ⟨_, _, by simpa using hop⟩
  | write path content source => simp at hop
  | delete path => simp at hop

theorem deletePassOps_shape (project : SyncProjectReport) (op : FsOp)
    (h : op ∈ deletePassOps project) : ∃ p, op = .deleteFs p := by
  rcases List.mem_flatMap.1 h with ⟨a, _, hop⟩
  cases a with
  | delete path => exact ⟨_, by simpa using hop⟩
  | write path content source => simp at hop
  | rename src dst => simp at hop

theorem writePassOps_shape (project : SyncProjectReport) (op : FsOp)
    (h : op ∈ writePassOps project) :
    (∃ d, op = .mkdir d) ∨ ∃ p c, op = .writeFs p c := by
  rcases List.mem_flatMap.1 h with ⟨a, _, hop⟩
  cases a with
  | write path content source =>
      rcases List.mem_cons.1 hop with rfl | hop
      · exact Or.inl ⟨_, rfl⟩
      · exact Or.inr ⟨_, _, by simpa using hop⟩
  | delete path => simp at hop
  | rename src dst => simp at hop

/-- C5.  Applying a sync report performs zero file-system operations for
any project whose plan carries an error (it is filtered out wholesale,
so no write, delete, rename or even directory creation happens for it),
and for an error-free project it performs exactly its planned
operations: first the renames, then the deletes, then the writes. -/
theorem c5_apply_atomicity :
    (∀ report : SyncReport, applySyncReport report =
      ((report.projects.filter (fun p => p.errors.isEmpty)).map
        (fun p => (applyProjectActions p).map (fun op => (p.name, op)))).flatten) ∧
    (∀ project : SyncProjectReport, applyProjectActions project =
      renamePassOps project ++ deletePassOps project ++ writePassOps project) ∧
    (∀ project op, op ∈ renamePassOps project →
      (∃ d, op = .mkdir d) ∨ ∃ s d, op = .renameFs s d) ∧
    (∀ project op, op ∈ deletePassOps project → ∃ p, op = .deleteFs p) ∧
    (∀ project op, op ∈ writePassOps project →
      (∃ d, op = .mkdir d) ∨ ∃ p c, op = .writeFs p c) ∧
    applySyncReport
      ⟨[⟨"p", "/r", [.write "a.txt" "x" "s"], [], ["collision"], false⟩], true, false⟩ = [] ∧
    applySyncReport
      ⟨[⟨"p", "/r", [.write "a.txt" "x" "s", .delete "b.txt", .rename "c" "d"], [], [],
        false⟩], true, false⟩ =
      [("p", .mkdir "/r"), ("p", .renameFs "/r/c" "/r/d"),
       ("p", .deleteFs "/r/b.txt"),
       ("p", .mkdir "/r"), ("p", .writeFs "/r/a.txt" "x")] :=
  ⟨applySyncReport_eq_filter, fun _ => rfl, renamePassOps_shape, deletePassOps_shape,
   writePassOps_shape, by rfl, by rfl⟩

/-- C5 (witness): the pass-shape conjuncts applied at a concrete plan. -/
theorem c5_apply_atomicity_witness :
    ((∃ d, FsOp.mkdir "/r" = .mkdir d) ∨ ∃ s d, FsOp.mkdir "/r" = .renameFs s d) ∧
    (∃ p, FsOp.deleteFs "/r/b" = .deleteFs p) ∧
    ((∃ d, FsOp.writeFs "/r/a" "x" = .mkdir d) ∨ ∃ p c, FsOp.writeFs "/r/a" "x" = .writeFs p c)
    :=
  ⟨c5_apply_atomicity.2.2.1 ⟨"p", "/r", [.rename "c" "d"], [], [], false⟩ (.mkdir "/r")
      (by decide),
   c5_apply_atomicity.2.2.2.1 ⟨"p", "/r", [.delete "b"], [], [], false⟩ (.deleteFs "/r/b")
      (by decide),
   c5_apply_atomicity.2.2.2.2.1 ⟨"p", "/r", [.write "a" "x" "s"], [], [], false⟩
      (.writeFs "/r/a" "x") (by decide)⟩

/-! ## Merge-conflict strategies (C6) -/

def featLint1 : FeatureDefinition :=
  ⟨"lint", "1.0.0", "config/features/lint/1.0.0/files", ["a.txt"], [], [], [], [],
    [("a.txt", "v1")], []⟩

def featLint2 : FeatureDefinition :=
  ⟨"lint", "2.0.0", "config/features/lint/2.0.0/files", ["a.txt"], [], [], [], [],
    [("a.txt", "v2")], []⟩

def projAlpha : ProjectConfig := ⟨"alpha", "/p", none, [("lint", "2.0.0")]⟩

/-- A merge tool that always reports a textual conflict, standing in for
`git merge-file` on incompatibly diverged content. -/
def alwaysConflict : String → String → String → String × Bool :=
  fun _ _ _ => ("<<<markers>>>", true)

/-- C6: when the three-way merge of a template path reports a textual
conflict, the planner follows the configured strategy: `"none"` records one
merge-type conflict, adds the fatal error for the path and plans no write;
`"markers"` plans a write of the merge tool's marker output and records the
conflict without an error; `"keep-local"` plans no write and records the
conflict with resolution `"kept local"`; `"overwrite"` plans a write of the
target-version rendered template and records the conflict with resolution
`"overwrote with template"`. Concretely (Scenario E), a project on
`lint@2.0.0` whose `a.txt` diverged from both `v1` and `v2` gets, under
`"none"`, a report with zero actions, one merge conflict and a fatal error,
and under `"overwrite"`, a report writing the v2 content with the conflict
resolved as overwritten. -/
theorem c6_merge_conflict_strategies
    (featuresAll : List FeatureDefinition) (feature : FeatureDefinition)
    (templateVars : Option (List (String × String))) (disk : Disk)
    (threeWayMerge : String → String → String → String × Bool)
    (conflictPaths mergePaths : List String) (st : SyncState)
    (template : ResolvedTemplateFile) (actual : String) (matchVersion : Option String)
    (baseFeature : FeatureDefinition) (base mergedContent : String)
    (hc : template.path ∉ conflictPaths) (hm : template.path ∉ mergePaths)
    (hdisk : diskGet disk template.path = some actual)
    (hne : actual ≠ template.content)
    (hmv : findMatchingVersionSync featuresAll feature template.path actual templateVars =
      .ok matchVersion)
    (hbase : resolveMergeBase featuresAll feature template.path matchVersion =
      some baseFeature)
    (hload : loadTemplateFile baseFeature template.path templateVars = .ok base)
    (hmerge : threeWayMerge base actual template.content = (mergedContent, true)) :
    (syncTemplateFileStep featuresAll feature templateVars disk threeWayMerge "none"
      conflictPaths mergePaths st template = .ok
      { st with
        conflicts := st.conflicts ++ [⟨template.path, "merge", [featureKey feature],
          some ("base " ++ featureKey baseFeature), some "blocked"⟩],
        errors := st.errors ++ ["Merge conflict detected for " ++ template.path ++ "."] }) ∧
    (syncTemplateFileStep featuresAll feature templateVars disk threeWayMerge "markers"
      conflictPaths mergePaths st template = .ok
      { st with
        actions := st.actions ++ [.write template.path mergedContent (featureKey feature)],
        conflicts := st.conflicts ++ [⟨template.path, "merge", [featureKey feature],
          some ("base " ++ featureKey baseFeature), some "markers"⟩] }) ∧
    (syncTemplateFileStep featuresAll feature templateVars disk threeWayMerge "keep-local"
      conflictPaths mergePaths st template = .ok
      { st with
        conflicts := st.conflicts ++ [⟨template.path, "merge", [featureKey feature],
          some ("base " ++ featureKey baseFeature), some "kept local"⟩] }) ∧
    (syncTemplateFileStep featuresAll feature templateVars disk threeWayMerge "overwrite"
      conflictPaths mergePaths st template = .ok
      { st with
        actions := st.actions ++
          [.write template.path template.content (featureKey feature)],
        conflicts := st.conflicts ++ [⟨template.path, "merge", [featureKey feature],
          some ("base " ++ featureKey baseFeature), some "overwrote with template"⟩] }) ∧
    (buildProjectSyncReport projAlpha [featLint1, featLint2] [("a.txt", "local")]
      (fun _ => none) alwaysConflict "none" = .ok
      ⟨"alpha", "/p", [],
        [⟨"a.txt", "merge", ["lint@2.0.0"], some "base lint@1.0.0", some "blocked"⟩],
        ["Merge conflict detected for a.txt."], false⟩) ∧
    (buildProjectSyncReport projAlpha [featLint1, featLint2] [("a.txt", "local")]
      (fun _ => none) alwaysConflict "overwrite" = .ok
      ⟨"alpha", "/p", [.write "a.txt" "v2" "lint@2.0.0"],
        [⟨"a.txt", "merge", ["lint@2.0.0"], some "base lint@1.0.0",
          some "overwrote with template"⟩],
        [], false⟩) := by
  have hmem : ¬ (template.path ∈ conflictPaths ∨ template.path ∈ mergePaths) := by
    simp [hc, hm]
  refine ⟨?_, ?_, ?_, ?_, ?e5, ?e6⟩
  case e5 => rfl
  case e6 => rfl
  all_goals
    simp [syncTemplateFileStep, hmem, hdisk, hne, hmv, hbase, hload, hmerge,
      resolveMergeConflict, Bind.bind, Except.bind, Pure.pure, Except.pure]

theorem c6_merge_conflict_strategies_witness :
    syncTemplateFileStep [featLint1] featLint2 none [("a.txt", "local")] alwaysConflict
      "none" [] [] ⟨[], [], []⟩ ⟨"a.txt", "v2"⟩ = .ok
      ⟨[], [⟨"a.txt", "merge", ["lint@2.0.0"], some "base lint@1.0.0", some "blocked"⟩],
        ["Merge conflict detected for a.txt."]⟩ :=
  (c6_merge_conflict_strategies [featLint1] featLint2 none [("a.txt", "local")]
    alwaysConflict [] [] ⟨[], [], []⟩ ⟨"a.txt", "v2"⟩ "local" none featLint1 "v1"
    "<<<markers>>>" (by decide) (by decide) (by rfl) (by decide) (by rfl) (by rfl)
    (by rfl) (by rfl)).1

/-! ## Version-match enrichment (C3) -/

theorem mem_insertSorted {α : Type} (cmp : α → α → Int) (x y : α) :
    ∀ l, y ∈ insertSorted cmp x l ↔ y = x ∨ y ∈ l
  | [] => by simp [insertSorted]
  | z :: zs => by
      rw [insertSorted]
      by_cases h : cmp x z ≤ 0
      · rw [if_pos h]; simp
      · rw [if_neg h]
        simp only [List.mem_cons, mem_insertSorted cmp x y zs]
        tauto

theorem mem_sortByCmp {α : Type} (cmp : α → α → Int) (y : α) :
    ∀ l, y ∈ sortByCmp cmp l ↔ y ∈ l
  | [] => Iff.rfl
  | x :: xs => by
      rw [sortByCmp, mem_insertSorted]
      simp [mem_sortByCmp cmp y xs]

theorem insertSorted_chain {α : Type} (cmp : α → α → Int)
    (hflip : ∀ a b, ¬ cmp a b ≤ 0 → cmp b a ≤ 0) (x : α) :
    ∀ l, List.Chain' (fun a b => cmp a b ≤ 0) l →
      List.Chain' (fun a b => cmp a b ≤ 0) (insertSorted cmp x l)
  | [], _ => List.chain'_singleton x
  | y :: ys, h => by
      rw [insertSorted]
      by_cases hxy : cmp x y ≤ 0
      · rw [if_pos hxy]
        exact List.chain'_cons.mpr ⟨hxy, h⟩
      · rw [if_neg hxy]
        refine List.chain'_cons'.mpr ⟨?_, insertSorted_chain cmp hflip x ys h.tail⟩
        intro z hz
        cases ys with
        | nil =>
            simp [insertSorted] at hz
            subst hz
            exact hflip x y hxy
        | cons w ws =>
            rw [insertSorted] at hz
            by_cases hxw : cmp x w ≤ 0
            · rw [if_pos hxw] at hz
              simp at hz
              subst hz
              exact hflip x y hxy
            · rw [if_neg hxw] at hz
              simp at hz
              subst hz
              exact (List.chain'_cons.mp h).1

theorem sortByCmp_chain {α : Type} (cmp : α → α → Int)
    (hflip : ∀ a b, ¬ cmp a b ≤ 0 → cmp b a ≤ 0) :
    ∀ l, List.Chain' (fun a b => cmp a b ≤ 0) (sortByCmp cmp l)
  | [] => List.chain'_nil
  | x :: xs => insertSorted_chain cmp hflip x _ (sortByCmp_chain cmp hflip xs)

theorem chain_pairwise_restricted {α : Type} (R : α → α → Prop) (P : α → Prop)
    (htrans : ∀ a b c, P a → P b → P c → R a b → R b c → R a c) :
    ∀ l, (∀ x ∈ l, P x) → List.Chain' R l → List.Pairwise R l
  | [], _, _ => List.Pairwise.nil
  | a :: l, hP, hch => by
      have hl : List.Pairwise R l :=
        chain_pairwise_restricted R P htrans l (fun x hx => hP x (by simp [hx])) hch.tail
      refine List.pairwise_cons.mpr ⟨?_, hl⟩
      intro b hb
      cases l with
      | nil => simp at hb
      | cons c cs =>
          have hac : R a c := (List.chain'_cons.mp hch).1
          rcases List.mem_cons.mp hb with rfl | hb'
          · exact hac
          · have hcb : R c b := (List.pairwise_cons.mp hl).1 b hb'
            exact htrans a c b (hP a (by simp)) (hP c (by simp)) (hP b (by simp [hb']))
              hac hcb

/-- If the version-match scan returns a candidate, it is the first one in
candidate order that declares the path and renders byte-for-byte equal to
the on-disk content; every earlier candidate declaring the path rendered
to something different. -/
theorem findMatchingVersionGoF_some (p content : String)
    (tv : Option (List (String × String))) :
    ∀ (cs : List FeatureDefinition) (c : FeatureDefinition),
      findMatchingVersionGoF p content tv cs = .ok (some c) →
      ∃ pre post, cs = pre ++ c :: post ∧ p ∈ c.files ∧
        loadTemplateFile c p tv = .ok content ∧
        ∀ d ∈ pre, p ∈ d.files →
          ∃ t, loadTemplateFile d p tv = .ok t ∧ t ≠ content
  | [], c => by intro h; simp [findMatchingVersionGoF] at h
  | a :: rest, c => by
      intro h
      rw [findMatchingVersionGoF] at h
      by_cases hp : p ∈ a.files
      · rw [if_pos hp] at h
        cases hl : loadTemplateFile a p tv with
        | error e => simp only [hl] at h; simp at h
        | ok t =>
            simp only [hl] at h
            by_cases ht : t = content
            · rw [if_pos ht] at h
              have hac : a = c := by simpa using h
              subst hac
              exact ⟨[], rest, rfl, hp, ht ▸ hl, by simp⟩
            · rw [if_neg ht] at h
              obtain ⟨pre, post, hcs, hcf, hload, hpre⟩ :=
                findMatchingVersionGoF_some p content tv rest c h
              refine ⟨a :: pre, post, by rw [hcs, List.cons_append], hcf, hload, ?_⟩
              intro d hd hdp
              rcases List.mem_cons.mp hd with rfl | hd'
              · exact ⟨t, hl, ht⟩
              · exact hpre d hd' hdp
      · rw [if_neg hp] at h
        obtain ⟨pre, post, hcs, hcf, hload, hpre⟩ :=
          findMatchingVersionGoF_some p content tv rest c h
        refine ⟨a :: pre, post, by rw [hcs, List.cons_append], hcf, hload, ?_⟩
        intro d hd hdp
        rcases List.mem_cons.mp hd with rfl | hd'
        · exact absurd hdp hp
        · exact hpre d hd' hdp

/-- If the version-match scan returns no candidate, every candidate
declaring the path rendered successfully to something other than the
on-disk content. -/
theorem findMatchingVersionGoF_none (p content : String)
    (tv : Option (List (String × String))) :
    ∀ (cs : List FeatureDefinition),
      findMatchingVersionGoF p content tv cs = .ok none →
      ∀ d ∈ cs, p ∈ d.files →
        ∃ t, loadTemplateFile d p tv = .ok t ∧ t ≠ content
  | [] => by intro h d hd; simp at hd
  | a :: rest => by
      intro h d hd hdp
      rw [findMatchingVersionGoF] at h
      by_cases hp : p ∈ a.files
      · rw [if_pos hp] at h
        cases hl : loadTemplateFile a p tv with
        | error e => simp only [hl] at h; simp at h
        | ok t =>
            simp only [hl] at h
            by_cases ht : t = content
            · rw [if_pos ht] at h; simp at h
            · rw [if_neg ht] at h
              rcases List.mem_cons.mp hd with rfl | hd'
              · exact ⟨t, hl, ht⟩
              · exact findMatchingVersionGoF_none p content tv rest h d hd' hdp
      · rw [if_neg hp] at h
        rcases List.mem_cons.mp hd with rfl | hd'
        · exact absurd hdp hp
        · exact findMatchingVersionGoF_none p content tv rest h d hd' hdp

/-- C3: when a file's on-disk content differs from the declared version's
rendered template (and the path is not ownership-conflicted), the status
engine reports one mismatch entry whose `matches` annotation is the result
of the version-match scan; the candidate list consists of exactly the
other versions of the feature's domain, stable-sorted by `compareSemver`
(adjacent-ascending always, pairwise-ascending whenever all candidate
versions are numeric); a `some` annotation names the first candidate in
that order that declares the path and renders byte-for-byte equal to the
content, all earlier path-declaring candidates rendering differently; a
`none` annotation means no candidate declaring the path renders equal, and
the mismatch then carries no `matches` field. -/
theorem c3_version_match_enrichment
    (featuresAll : List FeatureDefinition) (feature : FeatureDefinition)
    (tv : Option (List (String × String))) (conflictPaths : List String) (disk : Disk)
    (template : ResolvedTemplateFile) (content : String) (m : Option String)
    (hc : template.path ∉ conflictPaths)
    (hdisk : diskGet disk template.path = some content)
    (hne : content ≠ template.content)
    (hfind : findMatchingVersion featuresAll feature template.path content tv = .ok m) :
    (statusTemplateDrift featuresAll feature tv conflictPaths disk [template] =
      .ok ([], [⟨template.path, featureKey feature, "mismatch", none, m⟩])) ∧
    (∀ c, c ∈ matchCandidates featuresAll feature ↔
      c ∈ featuresAll ∧ c.domain = feature.domain ∧ c.version ≠ feature.version) ∧
    List.Chain' (fun a b => compareSemver a.version b.version ≤ 0)
      (matchCandidates featuresAll feature) ∧
    ((∀ c ∈ matchCandidates featuresAll feature, AllNumericSegs c.version) →
      List.Pairwise (fun a b => compareSemver a.version b.version ≤ 0)
        (matchCandidates featuresAll feature)) ∧
    (∀ s, m = some s → ∃ pre c post,
      matchCandidates featuresAll feature = pre ++ c :: post ∧ s = featureKey c ∧
      template.path ∈ c.files ∧ loadTemplateFile c template.path tv = .ok content ∧
      ∀ d ∈ pre, template.path ∈ d.files →
        ∃ t, loadTemplateFile d template.path tv = .ok t ∧ t ≠ content) ∧
    (m = none → ∀ d ∈ matchCandidates featuresAll feature, template.path ∈ d.files →
      ∃ t, loadTemplateFile d template.path tv = .ok t ∧ t ≠ content) := by
  have hflip : ∀ a b : FeatureDefinition,
      ¬ compareSemver a.version b.version ≤ 0 → compareSemver b.version a.version ≤ 0 := by
    intro a b h
    have := compareSemver_antisymm a.version b.version
    omega
  refine ⟨?_, ?_, ?_, ?_, ?_, ?_⟩
  · simp [statusTemplateDrift, List.foldlM, hc, hdisk, hne, hfind, Except.map,
      Bind.bind, Except.bind, Pure.pure, Except.pure]
  · intro c
    rw [matchCandidates, mem_sortByCmp]
    simp only [List.mem_filter, decide_eq_true_eq, ne_eq]
    tauto
  · exact sortByCmp_chain (fun (a b : FeatureDefinition) => compareSemver a.version b.version) hflip _
  · intro hnum
    refine chain_pairwise_restricted
      (fun (a b : FeatureDefinition) => compareSemver a.version b.version ≤ 0)
      (fun (f : FeatureDefinition) => AllNumericSegs f.version)
      (fun a b c pa pb pc => compareSemver_trans_le pa pb pc) _ hnum ?_
    exact sortByCmp_chain
      (fun (a b : FeatureDefinition) => compareSemver a.version b.version) hflip _
  · intro s hs
    subst hs
    cases hg : findMatchingVersionGoF template.path content tv
        (matchCandidates featuresAll feature) with
    | error e =>
        rw [findMatchingVersion, hg] at hfind
        simp [Except.map] at hfind
    | ok r =>
        rw [findMatchingVersion, hg] at hfind
        simp only [Except.map, Except.ok.injEq] at hfind
        cases r with
        | none => simp at hfind
        | some c =>
            simp at hfind
            obtain ⟨pre, post, hcs, hcf, hload, hpre⟩ :=
              findMatchingVersionGoF_some template.path content tv _ c hg
            exact ⟨pre, c, post, hcs, hfind.symm, hcf, hload, hpre⟩
  · intro hm
    subst hm
    cases hg : findMatchingVersionGoF template.path content tv
        (matchCandidates featuresAll feature) with
    | error e =>
        rw [findMatchingVersion, hg] at hfind
        simp [Except.map] at hfind
    | ok r =>
        rw [findMatchingVersion, hg] at hfind
        simp only [Except.map, Except.ok.injEq] at hfind
        cases r with
        | none => exact findMatchingVersionGoF_none template.path content tv _ hg
        | some c => simp at hfind

/-- C3 (witness): Scenario B — the project file `a.txt` holds `"v1"`, the
declared `lint@2.0.0` template renders `"v2"`, and `lint@1.0.0` renders
`"v1"`, so the mismatch is annotated `matches lint@1.0.0`. -/
theorem c3_version_match_enrichment_witness :
    statusTemplateDrift [featLint1, featLint2] featLint2 none [] [("a.txt", "v1")]
      [⟨"a.txt", "v2"⟩] =
    .ok ([], [⟨"a.txt", "lint@2.0.0", "mismatch", none, some "lint@1.0.0"⟩]) :=
  (c3_version_match_enrichment [featLint1, featLint2] featLint2 none [] [("a.txt", "v1")]
    ⟨"a.txt", "v2"⟩ "v1" (some "lint@1.0.0") (by simp) (by rfl) (by decide) (by rfl)).1

/-! ## Ownership conflicts (C7) -/

/-- The owner list the owner map associates to a path (empty when the
path has no entry). -/
def ownersOf (m : List (String × List String)) (p : String) : List String :=
  ((m.find? (fun e => e.1 = p)).map (·.2)).getD []

/-- How many times one feature claims a path in the sync engine's
ownership scan: `files`, `templateFiles` and `fileRules` keys. -/
def claimsSync (f : FeatureDefinition) (p : String) : Nat :=
  f.files.count p + f.templateFiles.count p + (f.fileRules.map (·.1)).count p

/-- How many times one feature claims a path in the status engine's
ownership scan: `files` and `fileRules` keys only (`templateFiles` are
not scanned there). -/
def claimsStatus (f : FeatureDefinition) (p : String) : Nat :=
  f.files.count p + (f.fileRules.map (·.1)).count p

/-- The expected owner list of a path under the sync scan: one
`featureKey` occurrence per claim, in feature declaration order. -/
def syncOwners (features : List FeatureDefinition) (p : String) : List String :=
  (features.map (fun f => List.replicate (claimsSync f p) (featureKey f))).flatten

/-- The expected owner list of a path under the status scan. -/
def statusOwners (features : List FeatureDefinition) (p : String) : List String :=
  (features.map (fun f => List.replicate (claimsStatus f p) (featureKey f))).flatten

theorem ownersOf_addOwner (m : List (String × List String)) (q o p : String) :
    ownersOf (addOwner m q o) p =
      if p = q then ownersOf m p ++ [o] else ownersOf m p := by
  unfold addOwner ownersOf
  by_cases hq : m.any (fun e => e.1 = q)
  · rw [if_pos hq, List.find?_map]
    have hcomp : ((fun (e : String × List String) => decide (e.1 = p)) ∘
        (fun e => if e.1 = q then (e.1, e.2 ++ [o]) else e)) =
        (fun (e : String × List String) => decide (e.1 = p)) := by
      funext e
      by_cases h : e.1 = q <;> simp [h]
    rw [hcomp]
    rcases hfind : m.find? (fun e => e.1 = p) with _ | e
    · by_cases hpq : p = q
      · subst hpq
        rw [List.find?_eq_none] at hfind
        rcases List.any_eq_true.mp hq with ⟨x, hx, hxq⟩
        exact absurd hxq (by simpa using hfind x hx)
      · simp [hfind, hpq]
    · have he : e.1 = p := by simpa using List.find?_some hfind
      by_cases hpq : p = q
      · subst hpq
        simp [hfind, he]
      · simp [hfind, he, hpq]
  · rw [if_neg hq, List.find?_append]
    rcases hfind : m.find? (fun e => e.1 = p) with _ | e
    · by_cases hpq : p = q
      · subst hpq
        simp [hfind]
      · simp [hfind, hpq, Ne.symm hpq]
    · have he : e.1 = p := by simpa using List.find?_some hfind
      have hem : e ∈ m := List.mem_of_find?_eq_some hfind
      by_cases hpq : p = q
      · exact absurd (List.any_eq_true.mpr ⟨e, hem, by simp [he, hpq]⟩) hq
      · simp [hfind, hpq]

theorem ownersOf_foldl (o : String) :
    ∀ (ps : List String) (m : List (String × List String)) (p : String),
      ownersOf (ps.foldl (fun a q => addOwner a q o) m) p =
        ownersOf m p ++ List.replicate (ps.count p) o
  | [], m, p => by simp
  | q :: ps, m, p => by
      rw [List.foldl_cons, ownersOf_foldl o ps (addOwner m q o) p, ownersOf_addOwner]
      by_cases hpq : p = q
      · rw [if_pos hpq]
        simp [List.count_cons, hpq, List.replicate_succ, List.append_assoc]
      · rw [if_neg hpq]
        simp [List.count_cons, Ne.symm hpq]

theorem ownersOf_statusOwnerMap_aux :
    ∀ (features : List FeatureDefinition) (m : List (String × List String)) (p : String),
      ownersOf (features.foldl (fun acc feature =>
        feature.fileRules.foldl (fun a e => addOwner a e.1 (featureKey feature))
          (feature.files.foldl (fun a q => addOwner a q (featureKey feature)) acc)) m) p =
      ownersOf m p ++ statusOwners features p
  | [], m, p => by simp [statusOwners]
  | f :: fs, m, p => by
      rw [List.foldl_cons, ownersOf_statusOwnerMap_aux fs _ p]
      rw [← List.foldl_map (fun (e : String × String) => e.1)
        (fun a q => addOwner a q (featureKey f))]
      rw [ownersOf_foldl, ownersOf_foldl]
      simp only [statusOwners, claimsStatus, List.map_cons, List.flatten_cons,
        List.replicate_add, List.append_assoc]

theorem ownersOf_statusOwnerMap (features : List FeatureDefinition) (p : String) :
    ownersOf (statusOwnerMap features) p = statusOwners features p := by
  rw [statusOwnerMap, ownersOf_statusOwnerMap_aux]
  simp [ownersOf]

theorem ownersOf_syncOwnerMap_aux :
    ∀ (features : List FeatureDefinition) (m : List (String × List String)) (p : String),
      ownersOf (features.foldl (fun acc feature =>
        feature.fileRules.foldl (fun a e => addOwner a e.1 (featureKey feature))
          (feature.templateFiles.foldl (fun a q => addOwner a q (featureKey feature))
            (feature.files.foldl (fun a q => addOwner a q (featureKey feature)) acc))) m) p =
      ownersOf m p ++ syncOwners features p
  | [], m, p => by simp [syncOwners]
  | f :: fs, m, p => by
      rw [List.foldl_cons, ownersOf_syncOwnerMap_aux fs _ p]
      rw [← List.foldl_map (fun (e : String × String) => e.1)
        (fun a q => addOwner a q (featureKey f))]
      rw [ownersOf_foldl, ownersOf_foldl, ownersOf_foldl]
      simp only [syncOwners, claimsSync, List.map_cons, List.flatten_cons,
        List.replicate_add, List.append_assoc]

theorem ownersOf_syncOwnerMap (features : List FeatureDefinition) (p : String) :
    ownersOf (syncOwnerMap features) p = syncOwners features p := by
  rw [syncOwnerMap, ownersOf_syncOwnerMap_aux]
  simp [ownersOf]

theorem keys_nodup_addOwner (m : List (String × List String)) (q o : String)
    (h : (m.map Prod.fst).Nodup) : ((addOwner m q o).map Prod.fst).Nodup := by
  unfold addOwner
  by_cases hq : m.any (fun e => e.1 = q)
  · rw [if_pos hq, List.map_map]
    have : (Prod.fst ∘ fun (e : String × List String) =>
        if e.1 = q then (e.1, e.2 ++ [o]) else e) = Prod.fst := by
      funext e
      by_cases h : e.1 = q <;> simp [h]
    rw [this]
    exact h
  · rw [if_neg hq, List.map_append]
    have hnot : q ∉ m.map Prod.fst := by
      intro hmem
      rcases List.mem_map.mp hmem with ⟨e, hem, he⟩
      exact hq (List.any_eq_true.mpr ⟨e, hem, by simp [he]⟩)
    simp [List.nodup_append, h, hnot]

theorem keys_nodup_foldl (o : String) :
    ∀ (ps : List String) (m : List (String × List String)),
      (m.map Prod.fst).Nodup →
      ((ps.foldl (fun a q => addOwner a q o) m).map Prod.fst).Nodup
  | [], _, h => h
  | q :: ps, m, h => keys_nodup_foldl o ps (addOwner m q o) (keys_nodup_addOwner m q o h)

theorem keys_nodup_statusOwnerMap_aux :
    ∀ (features : List FeatureDefinition) (m : List (String × List String)),
      (m.map Prod.fst).Nodup →
      (((features.foldl (fun acc feature =>
        feature.fileRules.foldl (fun a e => addOwner a e.1 (featureKey feature))
          (feature.files.foldl (fun a q => addOwner a q (featureKey feature)) acc)) m)).map
          Prod.fst).Nodup
  | [], _, h => h
  | f :: fs, m, h => by
      rw [List.foldl_cons]
      refine keys_nodup_statusOwnerMap_aux fs _ ?_
      rw [← List.foldl_map (fun (e : String × String) => e.1)
        (fun a q => addOwner a q (featureKey f))]
      exact keys_nodup_foldl _ _ _ (keys_nodup_foldl _ _ _ h)

theorem keys_nodup_syncOwnerMap_aux :
    ∀ (features : List FeatureDefinition) (m : List (String × List String)),
      (m.map Prod.fst).Nodup →
      (((features.foldl (fun acc feature =>
        feature.fileRules.foldl (fun a e => addOwner a e.1 (featureKey feature))
          (feature.templateFiles.foldl (fun a q => addOwner a q (featureKey feature))
            (feature.files.foldl (fun a q => addOwner a q (featureKey feature)) acc))) m)).map
          Prod.fst).Nodup
  | [], _, h => h
  | f :: fs, m, h => by
      rw [List.foldl_cons]
      refine keys_nodup_syncOwnerMap_aux fs _ ?_
      rw [← List.foldl_map (fun (e : String × String) => e.1)
        (fun a q => addOwner a q (featureKey f))]
      exact keys_nodup_foldl _ _ _ (keys_nodup_foldl _ _ _ (keys_nodup_foldl _ _ _ h))

theorem keys_nodup_statusOwnerMap (features : List FeatureDefinition) :
    ((statusOwnerMap features).map Prod.fst).Nodup := by
  rw [statusOwnerMap]
  exact keys_nodup_statusOwnerMap_aux features [] (by simp)

theorem keys_nodup_syncOwnerMap (features : List FeatureDefinition) :
    ((syncOwnerMap features).map Prod.fst).Nodup := by
  rw [syncOwnerMap]
  exact keys_nodup_syncOwnerMap_aux features [] (by simp)

theorem find?_eq_self_of_keys_nodup :
    ∀ (m : List (String × List String)), (m.map Prod.fst).Nodup →
      ∀ e ∈ m, m.find? (fun x => x.1 = e.1) = some e
  | [], _, e, he => by simp at he
  | a :: l, h, e, he => by
      rw [List.map_cons, List.nodup_cons] at h
      rcases List.mem_cons.mp he with rfl | he'
      · exact List.find?_cons_of_pos l (by simp)
      · have hne : ¬ a.1 = e.1 := by
          intro heq
          exact h.1 (heq ▸ List.mem_map.mpr ⟨e, he', rfl⟩)
        rw [List.find?_cons_of_neg l (by simpa using hne)]
        exact find?_eq_self_of_keys_nodup l h.2 e he'

theorem ownersOf_of_mem (m : List (String × List String))
    (h : (m.map Prod.fst).Nodup) (e : String × List String) (he : e ∈ m) :
    ownersOf m e.1 = e.2 := by
  rw [ownersOf, find?_eq_self_of_keys_nodup m h e he]
  rfl

theorem mem_detectOwnershipConflictsSync (features : List FeatureDefinition)
    (c : SyncConflict) :
    c ∈ detectOwnershipConflictsSync features ↔
      ∃ p, c = ⟨p, "ownership", syncOwners features p, none, none⟩ ∧
        (syncOwners features p).length > 1 := by
  unfold detectOwnershipConflictsSync
  constructor
  · intro hc
    rcases List.mem_map.mp hc with ⟨e, hef, rfl⟩
    rcases List.mem_filter.mp hef with ⟨hem, hlen⟩
    have he2 : syncOwners features e.1 = e.2 := by
      rw [← ownersOf_syncOwnerMap]
      exact ownersOf_of_mem _ (keys_nodup_syncOwnerMap features) e hem
    exact ⟨e.1, by rw [he2], by rw [he2]; simpa using hlen⟩
  · rintro ⟨p, rfl, hlen⟩
    have h0 : ownersOf (syncOwnerMap features) p = syncOwners features p :=
      ownersOf_syncOwnerMap features p
    have hne : syncOwners features p ≠ [] := by
      intro h
      rw [h] at hlen
      simp at hlen
    rcases hfind : (syncOwnerMap features).find? (fun x => x.1 = p) with _ | e
    · rw [ownersOf, hfind] at h0
      exact absurd h0.symm hne
    · have he1 : e.1 = p := by simpa using List.find?_some hfind
      have hem := List.mem_of_find?_eq_some hfind
      have he2 : e.2 = syncOwners features p := by
        rw [ownersOf, hfind] at h0
        simpa using h0
      refine List.mem_map.mpr ⟨e, List.mem_filter.mpr ⟨hem, by simp [he2]; exact hlen⟩, ?_⟩
      rw [he1, he2]

theorem mem_detectOwnershipConflicts (features : List FeatureDefinition)
    (c : StatusConflict) :
    c ∈ detectOwnershipConflicts features ↔
      ∃ p, c = ⟨p, "ownership", statusOwners features p, none⟩ ∧
        (statusOwners features p).length > 1 := by
  unfold detectOwnershipConflicts
  constructor
  · intro hc
    rcases List.mem_map.mp hc with ⟨e, hef, rfl⟩
    rcases List.mem_filter.mp hef with ⟨hem, hlen⟩
    have he2 : statusOwners features e.1 = e.2 := by
      rw [← ownersOf_statusOwnerMap]
      exact ownersOf_of_mem _ (keys_nodup_statusOwnerMap features) e hem
    exact ⟨e.1, by rw [he2], by rw [he2]; simpa using hlen⟩
  · rintro ⟨p, rfl, hlen⟩
    have h0 : ownersOf (statusOwnerMap features) p = statusOwners features p :=
      ownersOf_statusOwnerMap features p
    have hne : statusOwners features p ≠ [] := by
      intro h
      rw [h] at hlen
      simp at hlen
    rcases hfind : (statusOwnerMap features).find? (fun x => x.1 = p) with _ | e
    · rw [ownersOf, hfind] at h0
      exact absurd h0.symm hne
    · have he1 : e.1 = p := by simpa using List.find?_some hfind
      have hem := List.mem_of_find?_eq_some hfind
      have he2 : e.2 = statusOwners features p := by
        rw [ownersOf, hfind] at h0
        simpa using h0
      refine List.mem_map.mpr ⟨e, List.mem_filter.mpr ⟨hem, by simp [he2]; exact hlen⟩, ?_⟩
      rw [he1, he2]

theorem detectOwnershipConflictsSync_paths_nodup (features : List FeatureDefinition) :
    ((detectOwnershipConflictsSync features).map (fun c => c.path)).Nodup := by
  unfold detectOwnershipConflictsSync
  rw [List.map_map]
  exact List.Nodup.sublist ((List.filter_sublist _).map _)
    (keys_nodup_syncOwnerMap features)

theorem detectOwnershipConflicts_paths_nodup (features : List FeatureDefinition) :
    ((detectOwnershipConflicts features).map (fun c => c.path)).Nodup := by
  unfold detectOwnershipConflicts
  rw [List.map_map]
  exact List.Nodup.sublist ((List.filter_sublist _).map _)
    (keys_nodup_statusOwnerMap features)

/-- Invariant preservation along an `Except`-valued left fold. -/
theorem foldlM_except_inv {α β : Type} (f : β → α → Except String β) (P : β → Prop)
    (hstep : ∀ b a r, f b a = .ok r → P b → P r) :
    ∀ (l : List α) (b r : β), List.foldlM f b l = .ok r → P b → P r
  | [], b, r, h, hb => by
      rw [List.foldlM_nil] at h
      cases h
      exact hb
  | a :: l, b, r, h, hb => by
      rw [List.foldlM_cons] at h
      cases hf : f b a with
      | error e =>
          rw [hf] at h
          simp [Bind.bind, Except.bind] at h
      | ok b' =>
          rw [hf] at h
          simp only [Bind.bind, Except.bind] at h
          exact foldlM_except_inv f P hstep l b' r h (hstep b a b' hf hb)

/-- Invariant preservation along a plain left fold. -/
theorem foldl_inv {α β : Type} (f : β → α → β) (P : β → Prop)
    (hstep : ∀ b a, P b → P (f b a)) : ∀ (l : List α) (b : β), P b → P (List.foldl f b l)
  | [], _, hb => hb
  | a :: l, b, hb => foldl_inv f P hstep l (f b a) (hstep b a hb)

/-- Entries reported by the template-file status loop never sit on an
ownership-conflicted path. -/
theorem statusTemplateDrift_excl (featuresAll : List FeatureDefinition)
    (feature : FeatureDefinition) (tv : Option (List (String × String)))
    (conflictPaths : List String) (disk : Disk) (files : List ResolvedTemplateFile)
    (r : List StatusDrift × List StatusDrift)
    (h : statusTemplateDrift featuresAll feature tv conflictPaths disk files = .ok r) :
    ∀ d, (d ∈ r.1 ∨ d ∈ r.2) → d.path ∉ conflictPaths := by
  rw [statusTemplateDrift] at h
  refine foldlM_except_inv _
    (fun acc => ∀ d, (d ∈ acc.1 ∨ d ∈ acc.2) → d.path ∉ conflictPaths)
    ?_ files ([], []) r h (by simp)
  intro b a r' hf hb
  simp only [] at hf
  by_cases hc : a.path ∈ conflictPaths
  · rw [if_pos hc] at hf
    cases hf
    exact hb
  · rw [if_neg hc] at hf
    cases hd : diskGet disk a.path with
    | none =>
        simp only [hd] at hf
        cases hf
        intro d hd'
        rcases hd' with hd1 | hd2
        · rcases List.mem_append.mp hd1 with h1 | h1
          · exact hb d (Or.inl h1)
          · simp at h1
            rw [h1]
            exact hc
        · exact hb d (Or.inr hd2)
    | some content =>
        simp only [hd] at hf
        by_cases he : content = a.content
        · rw [if_pos he] at hf
          cases hf
          exact hb
        · rw [if_neg he] at hf
          cases hm : findMatchingVersion featuresAll feature a.path content tv with
          | error e =>
              rw [hm] at hf
              simp [Except.map] at hf
          | ok m =>
              rw [hm] at hf
              simp only [Except.map, Except.ok.injEq] at hf
              subst hf
              intro d hd'
              rcases hd' with hd1 | hd2
              · exact hb d (Or.inl hd1)
              · rcases List.mem_append.mp hd2 with h1 | h1
                · exact hb d (Or.inr h1)
                · simp at h1
                  rw [h1]
                  exact hc

/-- Entries reported by the file-rule status loop never sit on an
ownership-conflicted path. -/
theorem statusRuleDrift_excl (feature : FeatureDefinition) (conflictPaths : List String)
    (disk : Disk) :
    ∀ d ∈ statusRuleDrift feature conflictPaths disk, d.path ∉ conflictPaths := by
  rw [statusRuleDrift]
  refine foldl_inv _ (fun (acc : List StatusDrift) => ∀ d ∈ acc, d.path ∉ conflictPaths)
    ?_ feature.fileRules [] (by simp)
  intro b a hb
  by_cases h2 : a.2 ≠ "exists"
  · rw [if_pos h2]
    exact hb
  · rw [if_neg h2]
    by_cases hc : a.1 ∈ conflictPaths
    · rw [if_pos hc]
      exact hb
    · rw [if_neg hc]
      cases hd : diskGet disk a.1 with
      | some _ => exact hb
      | none =>
          intro d hd'
          rcases List.mem_append.mp hd' with h1 | h1
          · exact hb d h1
          · simp at h1
            rw [h1]
            exact hc

/-- Entries reported by the JSON-merge status loop never sit on an
ownership-conflicted path, and its conflicts are all `json-merge` typed. -/
theorem detectJsonMergeDrift_excl (features : List FeatureDefinition)
    (conflictPaths : List String) (disk : Disk) (parseJson : String → Option JsonValue)
    (r : List StatusDrift × List StatusDrift × List StatusConflict)
    (h : detectJsonMergeDrift features conflictPaths disk parseJson = .ok r) :
    (∀ d, (d ∈ r.1 ∨ d ∈ r.2.1) → d.path ∉ conflictPaths) ∧
    (∀ c ∈ r.2.2, c.type = "json-merge") := by
  rw [detectJsonMergeDrift] at h
  cases hl : loadJsonMergeFragments features with
  | error e =>
      rw [hl] at h
      simp [Except.map] at h
  | ok mergeFiles =>
      rw [hl] at h
      simp only [Except.map, Except.ok.injEq] at h
      subst h
      refine foldl_inv _
        (fun (acc : List StatusDrift × List StatusDrift × List StatusConflict) =>
          (∀ d, (d ∈ acc.1 ∨ d ∈ acc.2.1) → d.path ∉ conflictPaths) ∧
          (∀ c ∈ acc.2.2, c.type = "json-merge"))
        ?_ mergeFiles ([], [], []) (by simp)
      intro b a hb
      by_cases hc : a.path ∈ conflictPaths
      · rw [if_pos hc]
        exact hb
      · rw [if_neg hc]
        split
        · refine ⟨?_, hb.2⟩
          intro d hd'
          rcases hd' with hd1 | hd2
          · rcases List.mem_append.mp hd1 with h1 | h1
            · exact hb.1 d (Or.inl h1)
            · simp at h1
              rw [h1]
              exact hc
          · exact hb.1 d (Or.inr hd2)
        · split
          · refine ⟨?_, hb.2⟩
            intro d hd'
            rcases hd' with hd1 | hd2
            · exact hb.1 d (Or.inl hd1)
            · rcases List.mem_append.mp hd2 with h1 | h1
              · exact hb.1 d (Or.inr h1)
              · simp at h1
                rw [h1]
                exact hc
          · split
            · split
              · refine ⟨?_, ?_⟩
                · intro d hd'
                  rcases hd' with hd1 | hd2
                  · exact hb.1 d (Or.inl hd1)
                  · exact hb.1 d (Or.inr hd2)
                · intro c hcm
                  rcases List.mem_append.mp hcm with h1 | h1
                  · exact hb.2 c h1
                  · rcases List.mem_map.mp h1 with ⟨x, _, rfl⟩
                    rfl
              · refine ⟨?_, ?_⟩
                · intro d hd'
                  rcases hd' with hd1 | hd2
                  · exact hb.1 d (Or.inl hd1)
                  · rcases List.mem_append.mp hd2 with h1 | h1
                    · exact hb.1 d (Or.inr h1)
                    · simp at h1
                      rw [h1]
                      exact hc
                · intro c hcm
                  rcases List.mem_append.mp hcm with h1 | h1
                  · exact hb.2 c h1
                  · rcases List.mem_map.mp h1 with ⟨x, _, rfl⟩
                    rfl
            · refine ⟨?_, hb.2⟩
              intro d hd'
              rcases hd' with hd1 | hd2
              · exact hb.1 d (Or.inl hd1)
              · rcases List.mem_append.mp hd2 with h1 | h1
                · exact hb.1 d (Or.inr h1)
                · simp at h1
                  rw [h1]
                  exact hc

/-- Drift entries of `buildProjectStatus` never share a path with an
ownership conflict: conflicted paths are excluded from the missing and
mismatch lists. -/
theorem buildProjectStatus_excl (project : ProjectConfig)
    (featuresAll : List FeatureDefinition) (disk : Disk)
    (parseJson : String → Option JsonValue) (status : ProjectStatus)
    (h : buildProjectStatus project featuresAll disk parseJson = .ok status) :
    ∀ d, (d ∈ status.missing ∨ d ∈ status.mismatches) →
      ∀ c ∈ status.conflicts, c.type = "ownership" → c.path ≠ d.path := by
  rw [buildProjectStatus] at h
  cases ho : resolveProjectFeatures project featuresAll with
  | error e =>
      rw [ho] at h
      simp [Bind.bind, Except.bind] at h
  | ok orderedFeatures =>
      rw [ho] at h
      simp only [Bind.bind, Except.bind] at h
      cases hpf : List.foldlM
          (statusFeatureStep featuresAll project.templateVars
            ((detectOwnershipConflicts orderedFeatures).map
              (fun (c : StatusConflict) => c.path)) disk)
          ([], []) orderedFeatures with
      | error e =>
          rw [hpf] at h
          simp at h
      | ok perFeature =>
          rw [hpf] at h
          simp only [] at h
          cases hmd : detectJsonMergeDrift orderedFeatures
              ((detectOwnershipConflicts orderedFeatures).map
                (fun (c : StatusConflict) => c.path)) disk parseJson with
          | error e =>
              rw [hmd] at h
              simp at h
          | ok mergeDrift =>
              rw [hmd] at h
              simp only [Pure.pure, Except.pure, Except.ok.injEq] at h
              subst h
              have hA : ∀ d, (d ∈ perFeature.1 ∨ d ∈ perFeature.2) →
                  d.path ∉ (detectOwnershipConflicts orderedFeatures).map
                    (fun (c : StatusConflict) => c.path) := by
                refine foldlM_except_inv _
                  (fun (acc : List StatusDrift × List StatusDrift) =>
                    ∀ d, (d ∈ acc.1 ∨ d ∈ acc.2) →
                      d.path ∉ (detectOwnershipConflicts orderedFeatures).map
                        (fun (c : StatusConflict) => c.path))
                  ?_ orderedFeatures ([], []) perFeature hpf (by simp)
                intro b a r' hf hbP
                rw [statusFeatureStep] at hf
                cases hrt : resolveFeatureTemplates a project.templateVars with
                | error e =>
                    rw [hrt] at hf
                    simp [Bind.bind, Except.bind] at hf
                | ok resolved =>
                    rw [hrt] at hf
                    simp only [Bind.bind, Except.bind] at hf
                    cases htd : statusTemplateDrift featuresAll a project.templateVars
                        ((detectOwnershipConflicts orderedFeatures).map
                          (fun (c : StatusConflict) => c.path)) disk
                        resolved.files with
                    | error e =>
                        rw [htd] at hf
                        simp at hf
                    | ok tpl =>
                        rw [htd] at hf
                        simp only [Pure.pure, Except.pure, Except.ok.injEq] at hf
                        subst hf
                        intro d hd
                        rcases hd with hd1 | hd2
                        · rcases List.mem_append.mp hd1 with h1 | h1
                          · rcases List.mem_append.mp h1 with h2 | h2
                            · exact hbP d (Or.inl h2)
                            · exact statusTemplateDrift_excl featuresAll a project.templateVars
                                _ disk resolved.files tpl htd d (Or.inl h2)
                          · exact statusRuleDrift_excl a _ disk d h1
                        · rcases List.mem_append.mp hd2 with h1 | h1
                          · exact hbP d (Or.inr h1)
                          · exact statusTemplateDrift_excl featuresAll a project.templateVars
                              _ disk resolved.files tpl htd d (Or.inr h1)
              have hB := detectJsonMergeDrift_excl orderedFeatures
                ((detectOwnershipConflicts orderedFeatures).map
                  (fun (c : StatusConflict) => c.path)) disk parseJson
                mergeDrift hmd
              intro d hd c hcm htype heq
              have hdp : d.path ∉ (detectOwnershipConflicts orderedFeatures).map
                  (fun (c : StatusConflict) => c.path) := by
                rcases hd with hd1 | hd2
                · rcases List.mem_append.mp hd1 with h1 | h1
                  · exact hA d (Or.inl h1)
                  · exact hB.1 d (Or.inl h1)
                · rcases List.mem_append.mp hd2 with h1 | h1
                  · exact hA d (Or.inr h1)
                  · exact hB.1 d (Or.inr h1)
              rcases List.mem_append.mp hcm with h1 | h1
              · exact hdp (heq ▸ List.mem_map.mpr ⟨c, h1, rfl⟩)
              · rw [hB.2 c h1] at htype
                simp at htype

/-- The sync-loop invariant: planned writes avoid ownership-conflicted
paths, and ownership-typed conflicts only sit on conflicted paths. -/
def SyncInv (conflictPaths : List String) (st : SyncState) : Prop :=
  (∀ p cont src, SyncAction.write p cont src ∈ st.actions → p ∉ conflictPaths) ∧
  (∀ c ∈ st.conflicts, c.type = "ownership" → c.path ∈ conflictPaths)

theorem syncJsonMergeStep_inv (disk : Disk) (parseJson : String → Option JsonValue)
    (conflictPaths : List String) (st : SyncState) (mergeFile : JsonMergeFile)
    (hP : SyncInv conflictPaths st) :
    SyncInv conflictPaths (syncJsonMergeStep disk parseJson conflictPaths st mergeFile) := by
  rw [syncJsonMergeStep]
  by_cases hc : mergeFile.path ∈ conflictPaths
  · rw [if_pos hc]
    exact hP
  · rw [if_neg hc]
    simp only []
    split
    · exact ⟨hP.1, hP.2⟩
    · split
      · refine ⟨hP.1, ?_⟩
        intro c hcm htype
        rcases List.mem_append.mp hcm with h1 | h1
        · exact hP.2 c h1 htype
        · rcases List.mem_map.mp h1 with ⟨x, _, rfl⟩
          simp at htype
      · split
        · refine ⟨?_, hP.2⟩
          intro p cont src hw
          rcases List.mem_append.mp hw with h1 | h1
          · exact hP.1 p cont src h1
          · simp at h1
            rw [h1.1]
            exact hc
        · exact hP

theorem syncRuleStep_inv (disk : Disk) (conflictPaths : List String) (owner : String)
    (st : SyncState) (rule : String × String) (hP : SyncInv conflictPaths st) :
    SyncInv conflictPaths (syncRuleStep disk conflictPaths owner st rule) := by
  rw [syncRuleStep]
  split
  · exact hP
  · split
    · exact hP
    · split
      · exact hP
      · exact ⟨hP.1, hP.2⟩

theorem syncTemplateOnlyStep_inv (feature : FeatureDefinition) (disk : Disk)
    (conflictPaths mergePaths : List String) (st : SyncState)
    (template : ResolvedTemplateFile) (hP : SyncInv conflictPaths st) :
    SyncInv conflictPaths
      (syncTemplateOnlyStep feature disk conflictPaths mergePaths st template) := by
  rw [syncTemplateOnlyStep]
  by_cases hc : template.path ∈ conflictPaths ∨ template.path ∈ mergePaths
  · rw [if_pos hc]
    exact hP
  · rw [if_neg hc]
    split
    · exact hP
    · refine ⟨?_, hP.2⟩
      intro p cont src hw
      rcases List.mem_append.mp hw with h1 | h1
      · exact hP.1 p cont src h1
      · simp at h1
        rw [h1.1]
        intro hmem
        exact hc (Or.inl hmem)

theorem applyRenameActions_inv (disk : Disk) (conflictPaths : List String)
    (st : SyncState) (renames : List (String × String)) (hP : SyncInv conflictPaths st) :
    SyncInv conflictPaths (applyRenameActions disk st renames) := by
  rw [applyRenameActions]
  refine foldl_inv _ (SyncInv conflictPaths) ?_ renames st hP
  intro b a hb
  split
  · exact hb
  · split
    · refine ⟨?_, hb.2⟩
      intro p cont src hw
      rcases List.mem_append.mp hw with h1 | h1
      · exact hb.1 p cont src h1
      · simp at h1
    · refine ⟨?_, hb.2⟩
      intro p cont src hw
      rcases List.mem_append.mp hw with h1 | h1
      · exact hb.1 p cont src h1
      · simp at h1

theorem applyDeleteActions_inv (disk : Disk) (conflictPaths : List String)
    (st : SyncState) (deletes : List String) (hP : SyncInv conflictPaths st) :
    SyncInv conflictPaths (applyDeleteActions disk st deletes) := by
  rw [applyDeleteActions]
  refine foldl_inv _ (SyncInv conflictPaths) ?_ deletes st hP
  intro b a hb
  split
  · exact hb
  · split
    · exact hb
    · refine ⟨?_, hb.2⟩
      intro p cont src hw
      rcases List.mem_append.mp hw with h1 | h1
      · exact hb.1 p cont src h1
      · simp at h1

theorem syncTemplateFileStep_inv (featuresAll : List FeatureDefinition)
    (feature : FeatureDefinition) (tv : Option (List (String × String))) (disk : Disk)
    (twm : String → String → String → String × Bool) (strat : String)
    (conflictPaths mergePaths : List String) (st : SyncState)
    (template : ResolvedTemplateFile) (r : SyncState)
    (h : syncTemplateFileStep featuresAll feature tv disk twm strat conflictPaths
      mergePaths st template = .ok r)
    (hP : SyncInv conflictPaths st) : SyncInv conflictPaths r := by
  rw [syncTemplateFileStep] at h
  by_cases hc : template.path ∈ conflictPaths ∨ template.path ∈ mergePaths
  · rw [if_pos hc] at h
    cases h
    exact hP
  · rw [if_neg hc] at h
    have hcp : template.path ∉ conflictPaths := fun hm => hc (Or.inl hm)
    split at h
    · cases h
      refine ⟨?_, hP.2⟩
      intro p cont src hw
      rcases List.mem_append.mp hw with h1 | h1
      · exact hP.1 p cont src h1
      · simp at h1
        rw [h1.1]
        exact hcp
    · split at h
      · cases h
        exact hP
      · simp only [Bind.bind, Except.bind, Pure.pure, Except.pure] at h
        split at h
        · simp at h
        · split at h
          · split at h
            · simp at h
            · split at h
              · split at h
                · cases h
                  refine ⟨hP.1, ?_⟩
                  intro c hcm htype
                  rcases List.mem_append.mp hcm with h1 | h1
                  · exact hP.2 c h1 htype
                  · simp at h1
                    rw [h1] at htype
                    simp at htype
                · split at h
                  · cases h
                    refine ⟨hP.1, ?_⟩
                    intro c hcm htype
                    rcases List.mem_append.mp hcm with h1 | h1
                    · exact hP.2 c h1 htype
                    · simp at h1
                      rw [h1] at htype
                      simp at htype
                  · cases h
                    refine ⟨?_, ?_⟩
                    · intro p cont src hw
                      rcases List.mem_append.mp hw with h1 | h1
                      · exact hP.1 p cont src h1
                      · simp at h1
                        rw [h1.1]
                        exact hcp
                    · intro c hcm htype
                      rcases List.mem_append.mp hcm with h1 | h1
                      · exact hP.2 c h1 htype
                      · simp at h1
                        rw [h1] at htype
                        simp at htype
              · cases h
                refine ⟨?_, hP.2⟩
                intro p cont src hw
                rcases List.mem_append.mp hw with h1 | h1
                · exact hP.1 p cont src h1
                · simp at h1
                  rw [h1.1]
                  exact hcp
          · cases h
            refine ⟨?_, hP.2⟩
            intro p cont src hw
            rcases List.mem_append.mp hw with h1 | h1
            · exact hP.1 p cont src h1
            · simp at h1
              rw [h1.1]
              exact hcp

theorem syncFeatureStep_inv (featuresAll : List FeatureDefinition)
    (tv : Option (List (String × String))) (disk : Disk)
    (twm : String → String → String → String × Bool) (strat : String)
    (conflictPaths mergePaths : List String) (st : SyncState)
    (feature : FeatureDefinition) (r : SyncState)
    (h : syncFeatureStep featuresAll tv disk twm strat conflictPaths mergePaths st
      feature = .ok r)
    (hP : SyncInv conflictPaths st) : SyncInv conflictPaths r := by
  rw [syncFeatureStep] at h
  cases hrt : resolveFeatureTemplates feature tv with
  | error e =>
      rw [hrt] at h
      simp [Bind.bind, Except.bind] at h
  | ok resolved =>
      rw [hrt] at h
      simp only [Bind.bind, Except.bind] at h
      cases hf2 : List.foldlM
          (syncTemplateFileStep featuresAll feature tv disk twm strat conflictPaths
            mergePaths)
          (List.foldl (syncRuleStep disk conflictPaths (featureKey feature)) st
            feature.fileRules)
          resolved.files with
      | error e =>
          rw [hf2] at h
          simp at h
      | ok st2 =>
          rw [hf2] at h
          simp only [] at h
          cases hto : loadTemplateFiles feature feature.templateFiles tv with
          | error e =>
              rw [hto] at h
              simp at h
          | ok templateOnly =>
              rw [hto] at h
              simp only [Pure.pure, Except.pure, Except.ok.injEq] at h
              subst h
              have h1 : SyncInv conflictPaths
                  (List.foldl (syncRuleStep disk conflictPaths (featureKey feature)) st
                    feature.fileRules) :=
                foldl_inv _ (SyncInv conflictPaths)
                  (fun b a hb => syncRuleStep_inv disk conflictPaths (featureKey feature)
                    b a hb)
                  feature.fileRules st hP
              have h2 : SyncInv conflictPaths st2 :=
                foldlM_except_inv _ (SyncInv conflictPaths)
                  (fun b a r' hr hb => syncTemplateFileStep_inv featuresAll feature tv disk
                    twm strat conflictPaths mergePaths b a r' hr hb)
                  resolved.files _ st2 hf2 h1
              have h3 : SyncInv conflictPaths
                  (List.foldl (syncTemplateOnlyStep feature disk conflictPaths mergePaths)
                    st2 templateOnly) :=
                foldl_inv _ (SyncInv conflictPaths)
                  (fun b a hb => syncTemplateOnlyStep_inv feature disk conflictPaths
                    mergePaths b a hb)
                  templateOnly st2 h2
              exact applyDeleteActions_inv disk conflictPaths _ resolved.deletes
                (applyRenameActions_inv disk conflictPaths _ resolved.renames h3)

/-- Planned write actions of `buildProjectSyncReport` never target an
ownership-conflicted path. -/
theorem buildProjectSyncReport_write_excl (project : ProjectConfig)
    (featuresAll : List FeatureDefinition) (disk : Disk)
    (parseJson : String → Option JsonValue)
    (twm : String → String → String → String × Bool) (strat : String)
    (report : SyncProjectReport)
    (h : buildProjectSyncReport project featuresAll disk parseJson twm strat =
      .ok report) :
    ∀ p cont src, SyncAction.write p cont src ∈ report.actions →
      ∀ c ∈ report.conflicts, c.type = "ownership" → c.path ≠ p := by
  rw [buildProjectSyncReport] at h
  cases ho : resolveProjectFeatures project featuresAll with
  | error e =>
      rw [ho] at h
      simp [Bind.bind, Except.bind] at h
  | ok orderedFeatures =>
      rw [ho] at h
      simp only [Bind.bind, Except.bind] at h
      cases hmf : loadJsonMergeFragments orderedFeatures with
      | error e =>
          rw [hmf] at h
          simp at h
      | ok mergeFiles =>
          rw [hmf] at h
          simp only [] at h
          cases hff : List.foldlM
              (syncFeatureStep featuresAll project.templateVars disk twm strat
                ((detectOwnershipConflictsSync orderedFeatures).map
                  (fun (c : SyncConflict) => c.path))
                (mergeFiles.map (fun (f : JsonMergeFile) => f.path)))
              (List.foldl
                (syncJsonMergeStep disk parseJson
                  ((detectOwnershipConflictsSync orderedFeatures).map
                    (fun (c : SyncConflict) => c.path)))
                ⟨[], detectOwnershipConflictsSync orderedFeatures,
                  if (detectOwnershipConflictsSync orderedFeatures).length > 0 then
                    ["Ownership conflicts detected."] else []⟩
                mergeFiles)
              orderedFeatures with
          | error e =>
              rw [hff] at h
              simp at h
          | ok stFeat =>
              rw [hff] at h
              simp only [Pure.pure, Except.pure, Except.ok.injEq] at h
              subst h
              have h0 : SyncInv
                  ((detectOwnershipConflictsSync orderedFeatures).map
                    (fun (c : SyncConflict) => c.path))
                  ⟨[], detectOwnershipConflictsSync orderedFeatures,
                    if (detectOwnershipConflictsSync orderedFeatures).length > 0 then
                      ["Ownership conflicts detected."] else []⟩ := by
                refine ⟨?_, ?_⟩
                · intro p cont src hw
                  simp at hw
                · intro c hcm _
                  exact List.mem_map.mpr ⟨c, hcm, rfl⟩
              have hJ := foldl_inv _
                (SyncInv ((detectOwnershipConflictsSync orderedFeatures).map
                  (fun (c : SyncConflict) => c.path)))
                (fun b a hb => syncJsonMergeStep_inv disk parseJson _ b a hb)
                mergeFiles _ h0
              have hF := foldlM_except_inv _
                (SyncInv ((detectOwnershipConflictsSync orderedFeatures).map
                  (fun (c : SyncConflict) => c.path)))
                (fun b a r' hr hb => syncFeatureStep_inv featuresAll project.templateVars
                  disk twm strat _ _ b a r' hr hb)
                orderedFeatures _ stFeat hff hJ
              intro p cont src hw c hcm htype heq
              exact hF.1 p cont src hw (heq ▸ hF.2 c hcm htype)

def featShareA : FeatureDefinition :=
  ⟨"lint", "1.0.0", "config/features/lint/1.0.0/files", ["shared.txt", "own.txt"], [], [],
    [], [], [("shared.txt", "A"), ("own.txt", "O")], []⟩

def featShareB : FeatureDefinition :=
  ⟨"ci", "1.0.0", "config/features/ci/1.0.0/files", [], [], [("shared.txt", "exists")],
    [], [("1.0.0", ⟨[], ["shared.txt"]⟩)], [], []⟩

def projShared : ProjectConfig :=
  ⟨"shared", "/s", none, [("lint", "1.0.0"), ("ci", "1.0.0")]⟩

def featTplA : FeatureDefinition :=
  ⟨"a", "1.0.0", "ra", [], ["t.txt"], [], [], [], [("t.txt", "X")], []⟩

def featTplB : FeatureDefinition :=
  ⟨"b", "1.0.0", "rb", [], ["t.txt"], [], [], [], [("t.txt", "Y")], []⟩

/-- C7 (counterexample).  `shared.txt` is ownership-conflicted between
`lint@1.0.0` (via `files`) and `ci@1.0.0` (via `fileRules`), yet the sync
planner still plans a `delete` action for it: `applyDeleteActions` and
`applyRenameActions` do not filter conflicted paths, so only *write*
actions are excluded.  Moreover a path shared only via `templateFiles`
yields an ownership conflict in the sync engine but none in the status
engine, which does not scan `templateFiles`. -/
theorem c7_conflicted_path_actions_counterexample :
    (∃ report, buildProjectSyncReport projShared [featShareA, featShareB]
        [("shared.txt", "old")] (fun _ => none) alwaysConflict "none" = .ok report ∧
      (⟨"shared.txt", "ownership", ["lint@1.0.0", "ci@1.0.0"], none, none⟩ : SyncConflict)
        ∈ report.conflicts ∧
      SyncAction.delete "shared.txt" ∈ report.actions) ∧
    detectOwnershipConflicts [featTplA, featTplB] = [] ∧
    detectOwnershipConflictsSync [featTplA, featTplB] =
      [⟨"t.txt", "ownership", ["a@1.0.0", "b@1.0.0"], none, none⟩] :=
  ⟨⟨⟨"shared", "/s",
      [.write "own.txt" "O" "lint@1.0.0", .delete "shared.txt"],
      [⟨"shared.txt", "ownership", ["lint@1.0.0", "ci@1.0.0"], none, none⟩],
      ["Ownership conflicts detected."], false⟩,
    by rfl, by decide, by decide⟩, by rfl, by rfl⟩

/-- C7 (amended).  Ownership detection reports exactly one conflict per
multiply-claimed path: a sync conflict for `p` exists iff the owner list
of `p` — one `featureKey` occurrence per claim via `files`,
`templateFiles` or `fileRules` keys, in feature declaration order — has
more than one entry, and conflict paths are pairwise distinct; the status
engine behaves the same except that `templateFiles` are not scanned.
Conflicted paths are excluded from the status engine's missing and
mismatch lists, and the sync planner never plans a *write* on a
conflicted path — but rename and delete actions are not filtered (see the
counterexample). -/
theorem c7_ownership_conflicts :
    (∀ (features : List FeatureDefinition) (c : SyncConflict),
      c ∈ detectOwnershipConflictsSync features ↔
        ∃ p, c = ⟨p, "ownership", syncOwners features p, none, none⟩ ∧
          (syncOwners features p).length > 1) ∧
    (∀ features : List FeatureDefinition,
      ((detectOwnershipConflictsSync features).map (fun c => c.path)).Nodup) ∧
    (∀ (features : List FeatureDefinition) (c : StatusConflict),
      c ∈ detectOwnershipConflicts features ↔
        ∃ p, c = ⟨p, "ownership", statusOwners features p, none⟩ ∧
          (statusOwners features p).length > 1) ∧
    (∀ features : List FeatureDefinition,
      ((detectOwnershipConflicts features).map (fun c => c.path)).Nodup) ∧
    (∀ (project : ProjectConfig) (featuresAll : List FeatureDefinition) (disk : Disk)
      (parseJson : String → Option JsonValue) (status : ProjectStatus),
      buildProjectStatus project featuresAll disk parseJson = .ok status →
      ∀ d, (d ∈ status.missing ∨ d ∈ status.mismatches) →
        ∀ c ∈ status.conflicts, c.type = "ownership" → c.path ≠ d.path) ∧
    (∀ (project : ProjectConfig) (featuresAll : List FeatureDefinition) (disk : Disk)
      (parseJson : String → Option JsonValue)
      (twm : String → String → String → String × Bool) (strat : String)
      (report : SyncProjectReport),
      buildProjectSyncReport project featuresAll disk parseJson twm strat = .ok report →
      ∀ p cont src, SyncAction.write p cont src ∈ report.actions →
        ∀ c ∈ report.conflicts, c.type = "ownership" → c.path ≠ p) :=
  ⟨mem_detectOwnershipConflictsSync, detectOwnershipConflictsSync_paths_nodup,
   mem_detectOwnershipConflicts, detectOwnershipConflicts_paths_nodup,
   buildProjectStatus_excl, buildProjectSyncReport_write_excl⟩

/-- C7 (witness): in the shared-path scenario the planned write on
`own.txt` cannot collide with the ownership conflict on `shared.txt`. -/
theorem c7_ownership_conflicts_witness :
    (⟨"shared.txt", "ownership", ["lint@1.0.0", "ci@1.0.0"], none, none⟩ :
      SyncConflict).path ≠ "own.txt" :=
  c7_ownership_conflicts.2.2.2.2.2 projShared [featShareA, featShareB]
    [("shared.txt", "old")] (fun _ => none) alwaysConflict "none"
    ⟨"shared", "/s",
      [.write "own.txt" "O" "lint@1.0.0", .delete "shared.txt"],
      [⟨"shared.txt", "ownership", ["lint@1.0.0", "ci@1.0.0"], none, none⟩],
      ["Ownership conflicts detected."], false⟩
    (by rfl) "own.txt" "O" "lint@1.0.0" (by decide)
    ⟨"shared.txt", "ownership", ["lint@1.0.0", "ci@1.0.0"], none, none⟩
    (by decide) (by rfl)

/-! ## Heap model for `mergeJsonFragments` (C10)

JavaScript objects are heap references and `mergeObject` mutates its
`target` in place, so the frame claim is settled over an explicit store:
addresses are `Nat`, `alloc` appends a fresh cell, `heapSet` overwrites a
cell in place, and `structuredClone` deep-copies a tree into fresh cells
(JSON data — the function's domain — is tree-shaped, so per-reference
copying is `structuredClone`'s behaviour here).  All recursion is
fuel-indexed; JavaScript's terminating runs correspond to a large enough
fuel. -/

inductive HNode where
  | hnull
  | hbool (b : Bool)
  | hnum (n : Int)
  | hstr (s : String)
  | harr (elems : List Nat)
  | hobj (fields : List (String × Nat))
deriving Repr, DecidableEq

structure Store where
  heap : List (Nat × HNode)
  next : Nat
deriving Repr, DecidableEq

def heapGet (s : Store) (a : Nat) : Option HNode :=
  (s.heap.find? (fun e => e.1 = a)).map (·.2)

def heapSet (s : Store) (a : Nat) (node : HNode) : Store :=
  ⟨s.heap.map (fun e => if e.1 = a then (a, node) else e), s.next⟩

def alloc (s : Store) (node : HNode) : Nat × Store :=
  (s.next, ⟨s.heap ++ [(s.next, node)], s.next + 1⟩)

/-- `target[key] = addr` on an object's field list: update in place or
append (JavaScript property assignment keeps insertion order). -/
def objSetAddr (fields : List (String × Nat)) (k : String) (a : Nat) :
    List (String × Nat) :=
  if fields.any (fun e => e.1 = k) then
    fields.map (fun e => if e.1 = k then (k, a) else e)
  else fields ++ [(k, a)]

mutual

/-- Read the JSON tree rooted at an address. -/
def readTree : Nat → Store → Nat → Option JsonValue
  | 0, _, _ => none
  | fuel + 1, s, a =>
      match heapGet s a with
      | none => none
      | some .hnull => some .null
      | some (.hbool b) => some (.bool b)
      | some (.hnum n) => some (.num n)
      | some (.hstr str) => some (.str str)
      | some (.harr es) =>
          match readTreeList fuel s es with
          | none => none
          | some vs => some (.arr vs)
      | some (.hobj fs) =>
          match readTreeFields fuel s fs with
          | none => none
          | some gs => some (.obj gs)

def readTreeList : Nat → Store → List Nat → Option (List JsonValue)
  | _, _, [] => some []
  | 0, _, _ :: _ => none
  | fuel + 1, s, a :: rest =>
      match readTree fuel s a with
      | none => none
      | some v =>
          match readTreeList fuel s rest with
          | none => none
          | some vs => some (v :: vs)

def readTreeFields : Nat → Store → List (String × Nat) → Option (List (String × JsonValue))
  | _, _, [] => some []
  | 0, _, _ :: _ => none
  | fuel + 1, s, e :: rest =>
      match readTree fuel s e.2 with
      | none => none
      | some v =>
          match readTreeFields fuel s rest with
          | none => none
          | some vs => some ((e.1, v) :: vs)

end

mutual

/-- The addresses visited when reading the tree rooted at an address. -/
def reachList : Nat → Store → Nat → List Nat
  | 0, _, _ => []
  | fuel + 1, s, a =>
      a :: (match heapGet s a with
        | some (.harr es) => reachListMany fuel s es
        | some (.hobj fs) => reachListMany fuel s (fs.map (·.2))
        | _ => [])

def reachListMany : Nat → Store → List Nat → List Nat
  | _, _, [] => []
  | 0, _, _ :: _ => []
  | fuel + 1, s, a :: rest => reachList fuel s a ++ reachListMany fuel s rest

end

/-- `deepEqual` on references: compare the read-out trees. -/
def hDeepEqual (fuel : Nat) (s : Store) (a b : Nat) : Bool :=
  deepEqual ((readTree fuel s a).getD .null) ((readTree fuel s b).getD .null)

/-- A `MergeConflict` at heap level: `previousValue`/`nextValue` are the
references the JavaScript code pushes. -/
structure HConflict where
  path : String
  previousSource : String
  nextSource : String
  previousValue : Nat
  nextValue : Nat
deriving Repr, DecidableEq

/-- `recordConflictIfNeeded` over references. -/
def hRecordConflictIfNeeded (fuel : Nat) (s : Store) (existingValue : Option Nat)
    (nextValue : Nat) (source : String) (sources : SourceMap)
    (conflicts : List HConflict) (path : List String) : List HConflict :=
  match mapGet sources (formatPath path) with
  | none => conflicts
  | some previousSource =>
      if previousSource = source then conflicts
      else match existingValue with
        | none => conflicts
        | some ev =>
            if hDeepEqual fuel s ev nextValue then conflicts
            else conflicts ++ [⟨formatPath path, previousSource, source, ev, nextValue⟩]

mutual

/-- `structuredClone` of the tree at an address into fresh cells. -/
def hClone : Nat → Store → Nat → Option (Store × Nat)
  | 0, _, _ => none
  | fuel + 1, s, a =>
      match heapGet s a with
      | none => none
      | some .hnull => some ((alloc s .hnull).2, (alloc s .hnull).1)
      | some (.hbool b) => some ((alloc s (.hbool b)).2, (alloc s (.hbool b)).1)
      | some (.hnum n) => some ((alloc s (.hnum n)).2, (alloc s (.hnum n)).1)
      | some (.hstr str) => some ((alloc s (.hstr str)).2, (alloc s (.hstr str)).1)
      | some (.harr es) =>
          match hCloneList fuel s es with
          | none => none
          | some (s1, es') => some ((alloc s1 (.harr es')).2, (alloc s1 (.harr es')).1)
      | some (.hobj fs) =>
          match hCloneFields fuel s fs with
          | none => none
          | some (s1, fs') => some ((alloc s1 (.hobj fs')).2, (alloc s1 (.hobj fs')).1)

def hCloneList : Nat → Store → List Nat → Option (Store × List Nat)
  | _, s, [] => some (s, [])
  | 0, _, _ :: _ => none
  | fuel + 1, s, a :: rest =>
      match hClone fuel s a with
      | none => none
      | some (s1, a') =>
          match hCloneList fuel s1 rest with
          | none => none
          | some (s2, rest') => some (s2, a' :: rest')

def hCloneFields : Nat → Store → List (String × Nat) → Option (Store × List (String × Nat))
  | _, s, [] => some (s, [])
  | 0, _, _ :: _ => none
  | fuel + 1, s, e :: rest =>
      match hClone fuel s e.2 with
      | none => none
      | some (s1, a') =>
          match hCloneFields fuel s1 rest with
          | none => none
          | some (s2, rest') => some (s2, (e.1, a') :: rest')

end

mutual

/-- `mergeObject` over the store: iterate the fragment's entries. -/
def hMergeObject : Nat → Store → Nat → List (String × Nat) → String → SourceMap →
    List HConflict → List String → Option (Store × SourceMap × List HConflict)
  | _, s, _, [], _, sources, conflicts, _ => some (s, sources, conflicts)
  | 0, _, _, _ :: _, _, _, _, _ => none
  | fuel + 1, s, target, (key, fragmentValue) :: rest, source, sources, conflicts, path =>
      match hMergeEntry fuel s target key fragmentValue source sources conflicts path with
      | none => none
      | some (s1, sources1, conflicts1) =>
          hMergeObject fuel s1 target rest source sources1 conflicts1 path
termination_by structural fuel => fuel

/-- One entry of the `mergeObject` loop over the store. -/
def hMergeEntry : Nat → Store → Nat → String → Nat → String → SourceMap →
    List HConflict → List String → Option (Store × SourceMap × List HConflict)
  | 0, _, _, _, _, _, _, _, _ => none
  | fuel + 1, s, target, key, fragmentValue, source, sources, conflicts, path =>
      match heapGet s target with
      | some (.hobj targetFields) =>
          match heapGet s fragmentValue with
          | some (.hobj fragmentFields) =>
              match (targetFields.find? (fun e => e.1 = key)).map (·.2) with
              | some existingAddr =>
                  match heapGet s existingAddr with
                  | some (.hobj _) =>
                      hMergeObject fuel s existingAddr fragmentFields source sources
                        conflicts (path ++ [key])
                  | _ =>
                      hMergeIntoFresh fuel s target key fragmentFields source
                        (clearNestedSources sources (path ++ [key]))
                        (hRecordConflictIfNeeded fuel s (some existingAddr) fragmentValue
                          source sources conflicts (path ++ [key]))
                        (path ++ [key])
              | none =>
                  hMergeIntoFresh fuel s target key fragmentFields source
                    (clearNestedSources sources (path ++ [key])) conflicts (path ++ [key])
          | some _ =>
              match hClone fuel s fragmentValue with
              | none => none
              | some (s1, cloned) =>
                  match heapGet s1 target with
                  | some (.hobj targetFields1) =>
                      some (heapSet s1 target (.hobj (objSetAddr targetFields1 key cloned)),
                        mapSet (clearNestedSources sources (path ++ [key]))
                          (formatPath (path ++ [key])) source,
                        hRecordConflictIfNeeded fuel s
                          ((targetFields.find? (fun e => e.1 = key)).map (·.2))
                          fragmentValue source sources conflicts (path ++ [key]))
                  | _ => none
          | none => none
      | _ => none
termination_by structural fuel => fuel

/-- The `target[key] = {}` path of `mergeObject`: allocate a fresh empty
object, install it at the key and merge the fragment's fields into it. -/
def hMergeIntoFresh : Nat → Store → Nat → String → List (String × Nat) → String →
    SourceMap → List HConflict → List String → Option (Store × SourceMap × List HConflict)
  | 0, _, _, _, _, _, _, _, _ => none
  | fuel + 1, s, target, key, fragmentFields, source, sources, conflicts, nextPath =>
      match heapGet s target with
      | some (.hobj targetFields) =>
          hMergeObject fuel
            (heapSet (alloc s (.hobj [])).2 target
              (.hobj (objSetAddr targetFields key (alloc s (.hobj [])).1)))
            (alloc s (.hobj [])).1 fragmentFields source sources conflicts nextPath
      | _ => none
termination_by structural fuel => fuel

end

/-- The fragment loop of `mergeJsonFragments` over the store. -/
def hMergeRun : Nat → Store → Nat → List (String × Nat) → SourceMap → List HConflict →
    Option (Store × SourceMap × List HConflict)
  | _, s, _, [], sources, conflicts => some (s, sources, conflicts)
  | 0, _, _, _ :: _, _, _ => none
  | fuel + 1, s, merged, (source, fragmentAddr) :: rest, sources, conflicts =>
      match heapGet s fragmentAddr with
      | some (.hobj fragmentFields) =>
          match hMergeObject fuel s merged fragmentFields source sources conflicts [] with
          | none => none
          | some (s1, sources1, conflicts1) =>
              hMergeRun fuel s1 merged rest sources1 conflicts1
      | _ => none

/-- `mergeJsonFragments` over the store: clone the base, then merge every
fragment into the clone. -/
def hMergeJsonFragments (fuel : Nat) (s : Store) (base : Nat)
    (fragments : List (String × Nat)) : Option (Store × Nat × List HConflict) :=
  match hClone fuel s base with
  | none => none
  | some (s1, merged) =>
      match hMergeRun fuel s1 merged fragments [] [] with
      | none => none
      | some (s2, _, conflicts) => some (s2, merged, conflicts)

/-- Every pointer held by a node is at least `n`. -/
def nodeAbove (n : Nat) : HNode → Prop
  | .harr es => ∀ x ∈ es, n ≤ x
  | .hobj fs => ∀ e ∈ fs, n ≤ e.2
  | _ => True

/-- Every cell key is below the allocation counter. -/
def KeysBelow (s : Store) : Prop := ∀ e ∈ s.heap, e.1 < s.next

/-- Cells at or above `n` only point at or above `n`. -/
def Segregated (n : Nat) (s : Store) : Prop := ∀ e ∈ s.heap, n ≤ e.1 → nodeAbove n e.2

theorem heapGet_alloc_ne (s : Store) (node : HNode) (b : Nat) (h : b ≠ s.next) :
    heapGet (alloc s node).2 b = heapGet s b := by
  rw [heapGet, heapGet, alloc, List.find?_append]
  have : List.find? (fun e => e.1 = b) [(s.next, node)] = none := by
    simp [List.find?, Ne.symm h]
  rw [this]
  cases List.find? (fun e => e.1 = b) s.heap <;> rfl

theorem heapGet_alloc_self (s : Store) (node : HNode) (h : KeysBelow s) :
    heapGet (alloc s node).2 s.next = some node := by
  rw [heapGet, alloc, List.find?_append]
  have h1 : List.find? (fun e => e.1 = s.next) s.heap = none := by
    rw [List.find?_eq_none]
    intro e he
    have := h e he
    simp
    omega
  rw [h1]
  simp [List.find?]

theorem heapGet_heapSet_ne (s : Store) (a : Nat) (node : HNode) (b : Nat) (h : b ≠ a) :
    heapGet (heapSet s a node) b = heapGet s b := by
  rw [heapGet, heapGet, heapSet, List.find?_map]
  have hcomp : ((fun (e : Nat × HNode) => decide (e.1 = b)) ∘
      (fun e => if e.1 = a then (a, node) else e)) =
      (fun (e : Nat × HNode) => decide (e.1 = b)) := by
    funext e
    by_cases he : e.1 = a
    · simp [he]
    · simp [he]
  rw [hcomp]
  rcases hfind : List.find? (fun e => e.1 = b) s.heap with _ | e
  · simp [hfind]
  · have he : e.1 = b := by simpa using List.find?_some hfind
    have hea : ¬ e.1 = a := by
      rw [he]
      exact h
    simp [hfind, hea]

theorem keysBelow_alloc (s : Store) (node : HNode) (h : KeysBelow s) :
    KeysBelow (alloc s node).2 := by
  intro e he
  rcases List.mem_append.mp he with h1 | h1
  · have := h e h1
    simp only [alloc]
    omega
  · simp at h1
    rw [h1]
    simp [alloc]

theorem keysBelow_heapSet (s : Store) (a : Nat) (node : HNode) (h : KeysBelow s) :
    KeysBelow (heapSet s a node) := by
  intro e he
  rcases List.mem_map.mp he with ⟨x, hx, rfl⟩
  have hx1 := h x hx
  by_cases hxa : x.1 = a
  · rw [if_pos hxa]
    simp only [heapSet]
    omega
  · rw [if_neg hxa]
    simp only [heapSet]
    exact hx1

theorem heapGet_mem (s : Store) (a : Nat) (node : HNode)
    (h : heapGet s a = some node) : (a, node) ∈ s.heap := by
  rw [heapGet] at h
  rcases hfind : List.find? (fun e => e.1 = a) s.heap with _ | e
  · rw [hfind] at h
    simp at h
  · rw [hfind] at h
    have he : e.1 = a := by simpa using List.find?_some hfind
    have hmem := List.mem_of_find?_eq_some hfind
    simp at h
    have : e = (a, node) := by
      cases e
      simp at he h ⊢
      exact ⟨he, h⟩
    exact this ▸ hmem

theorem segregated_alloc (n : Nat) (s : Store) (node : HNode) (hs : Segregated n s)
    (hn : nodeAbove n node) : Segregated n (alloc s node).2 := by
  intro e he ha
  rcases List.mem_append.mp he with h1 | h1
  · exact hs e h1 ha
  · simp at h1
    rw [h1]
    exact hn

theorem segregated_heapSet (n : Nat) (s : Store) (a : Nat) (node : HNode)
    (hs : Segregated n s) (hn : nodeAbove n node) : Segregated n (heapSet s a node) := by
  intro e he ha
  rcases List.mem_map.mp he with ⟨x, hx, rfl⟩
  by_cases hxa : x.1 = a
  · simp only [hxa, if_true]
    exact hn
  · simp only [hxa, if_false]
    exact hs x hx (by simpa [hxa] using ha)

theorem objSetAddr_above (n : Nat) (fields : List (String × Nat)) (k : String) (a : Nat)
    (hf : ∀ e ∈ fields, n ≤ e.2) (ha : n ≤ a) : ∀ e ∈ objSetAddr fields k a, n ≤ e.2 := by
  intro e he
  rw [objSetAddr] at he
  by_cases hk : fields.any (fun e => e.1 = k)
  · rw [if_pos hk] at he
    rcases List.mem_map.mp he with ⟨x, hx, rfl⟩
    by_cases hxk : x.1 = k
    · simp [hxk]
      exact ha
    · simp [hxk]
      exact hf x hx
  · rw [if_neg hk] at he
    rcases List.mem_append.mp he with h1 | h1
    · exact hf e h1
    · simp at h1
      rw [h1]
      exact ha

theorem segregated_of_keysBelow (s : Store) (h : KeysBelow s) : Segregated s.next s := by
  intro e he ha
  have := h e he
  omega

theorem alloc_spec (n : Nat) (s : Store) (node : HNode) (hk : KeysBelow s)
    (hseg : Segregated n s) (hnode : nodeAbove n node) :
    KeysBelow (alloc s node).2 ∧ Segregated n (alloc s node).2 ∧
    s.next ≤ (alloc s node).2.next ∧ s.next ≤ (alloc s node).1 ∧
    (alloc s node).1 < (alloc s node).2.next ∧
    (∀ b, b < s.next → heapGet (alloc s node).2 b = heapGet s b) :=
  ⟨keysBelow_alloc s node hk, segregated_alloc n s node hseg hnode,
   by simp [alloc], by simp [alloc], by simp [alloc],
   fun b hb => heapGet_alloc_ne s node b (by omega)⟩

mutual

theorem hClone_spec (n : Nat) :
    ∀ (fuel : Nat) (s : Store) (a : Nat) (s' : Store) (r : Nat),
      hClone fuel s a = some (s', r) → KeysBelow s → Segregated n s → n ≤ s.next →
      KeysBelow s' ∧ Segregated n s' ∧ s.next ≤ s'.next ∧ s.next ≤ r ∧ r < s'.next ∧
      (∀ b, b < s.next → heapGet s' b = heapGet s b)
  | 0, s, a, s', r => by
      intro h
      simp [hClone] at h
  | fuel + 1, s, a, s', r => by
      intro h hk hseg hn
      rw [hClone] at h
      cases hg : heapGet s a with
      | none =>
          rw [hg] at h
          simp at h
      | some node =>
          cases node with
          | hnull =>
              simp only [hg, Option.some.injEq, Prod.mk.injEq] at h
              obtain ⟨hs', hr⟩ := h
              subst hs'
              subst hr
              exact alloc_spec n s .hnull hk hseg (by simp [nodeAbove])
          | hbool b =>
              simp only [hg, Option.some.injEq, Prod.mk.injEq] at h
              obtain ⟨hs', hr⟩ := h
              subst hs'
              subst hr
              exact alloc_spec n s (.hbool b) hk hseg (by simp [nodeAbove])
          | hnum m =>
              simp only [hg, Option.some.injEq, Prod.mk.injEq] at h
              obtain ⟨hs', hr⟩ := h
              subst hs'
              subst hr
              exact alloc_spec n s (.hnum m) hk hseg (by simp [nodeAbove])
          | hstr str =>
              simp only [hg, Option.some.injEq, Prod.mk.injEq] at h
              obtain ⟨hs', hr⟩ := h
              subst hs'
              subst hr
              exact alloc_spec n s (.hstr str) hk hseg (by simp [nodeAbove])
          | harr es =>
              simp only [hg] at h
              cases hcl : hCloneList fuel s es with
              | none =>
                  rw [hcl] at h
                  simp at h
              | some p =>
                  obtain ⟨s1, es'⟩ := p
                  simp only [hcl, Option.some.injEq, Prod.mk.injEq] at h
                  obtain ⟨hs', hr⟩ := h
                  subst hs'
                  subst hr
                  obtain ⟨k1, g1, n1, f1, r1⟩ :=
                    hCloneList_spec n fuel s es s1 es' hcl hk hseg hn
                  have hnode : nodeAbove n (.harr es') := by
                    simp only [nodeAbove]
                    intro x hx
                    have := (r1 x hx).1
                    omega
                  obtain ⟨k2, g2, n2, f2a, f2b, fr2⟩ :=
                    alloc_spec n s1 (.harr es') k1 g1 hnode
                  refine ⟨k2, g2, by omega, by
                    simp only [alloc]
                    omega, by
                    simp only [alloc]
                    omega, ?_⟩
                  intro b hb
                  rw [fr2 b (by omega)]
                  exact f1 b hb
          | hobj fs =>
              simp only [hg] at h
              cases hcl : hCloneFields fuel s fs with
              | none =>
                  rw [hcl] at h
                  simp at h
              | some p =>
                  obtain ⟨s1, fs'⟩ := p
                  simp only [hcl, Option.some.injEq, Prod.mk.injEq] at h
                  obtain ⟨hs', hr⟩ := h
                  subst hs'
                  subst hr
                  obtain ⟨k1, g1, n1, f1, r1⟩ :=
                    hCloneFields_spec n fuel s fs s1 fs' hcl hk hseg hn
                  have hnode : nodeAbove n (.hobj fs') := by
                    simp only [nodeAbove]
                    intro e he
                    have := (r1 e he).1
                    omega
                  obtain ⟨k2, g2, n2, f2a, f2b, fr2⟩ :=
                    alloc_spec n s1 (.hobj fs') k1 g1 hnode
                  refine ⟨k2, g2, by omega, by
                    simp only [alloc]
                    omega, by
                    simp only [alloc]
                    omega, ?_⟩
                  intro b hb
                  rw [fr2 b (by omega)]
                  exact f1 b hb

theorem hCloneList_spec (n : Nat) :
    ∀ (fuel : Nat) (s : Store) (as' : List Nat) (s' : Store) (rs : List Nat),
      hCloneList fuel s as' = some (s', rs) → KeysBelow s → Segregated n s → n ≤ s.next →
      KeysBelow s' ∧ Segregated n s' ∧ s.next ≤ s'.next ∧
      (∀ b, b < s.next → heapGet s' b = heapGet s b) ∧
      (∀ x ∈ rs, s.next ≤ x ∧ x < s'.next)
  | fuel, s, [], s', rs => by
      intro h hk hseg hn
      simp only [hCloneList, Option.some.injEq, Prod.mk.injEq] at h
      obtain ⟨hs', hr⟩ := h
      subst hs'
      subst hr
      exact ⟨hk, hseg, le_refl _, fun b _ => rfl, by simp⟩
  | 0, s, a :: rest, s', rs => by
      intro h
      simp [hCloneList] at h
  | fuel + 1, s, a :: rest, s', rs => by
      intro h hk hseg hn
      rw [hCloneList] at h
      cases hc : hClone fuel s a with
      | none =>
          rw [hc] at h
          simp at h
      | some p =>
          obtain ⟨s1, a'⟩ := p
          simp only [hc] at h
          cases hcl : hCloneList fuel s1 rest with
          | none =>
              rw [hcl] at h
              simp at h
          | some q =>
              obtain ⟨s2, rest'⟩ := q
              simp only [hcl, Option.some.injEq, Prod.mk.injEq] at h
              obtain ⟨hs', hr⟩ := h
              subst hs'
              subst hr
              obtain ⟨k1, g1, n1, a1, a2, f1⟩ := hClone_spec n fuel s a s1 a' hc hk hseg hn
              obtain ⟨k2, g2, n2, f2, r2⟩ :=
                hCloneList_spec n fuel s1 rest s2 rest' hcl k1 g1 (by omega)
              refine ⟨k2, g2, by omega, ?_, ?_⟩
              · intro b hb
                rw [f2 b (by omega)]
                exact f1 b hb
              · intro x hx
                rcases List.mem_cons.mp hx with rfl | hx'
                · constructor
                  · omega
                  · omega
                · have := r2 x hx'
                  constructor
                  · omega
                  · omega

theorem hCloneFields_spec (n : Nat) :
    ∀ (fuel : Nat) (s : Store) (fs : List (String × Nat)) (s' : Store)
      (rs : List (String × Nat)),
      hCloneFields fuel s fs = some (s', rs) → KeysBelow s → Segregated n s → n ≤ s.next →
      KeysBelow s' ∧ Segregated n s' ∧ s.next ≤ s'.next ∧
      (∀ b, b < s.next → heapGet s' b = heapGet s b) ∧
      (∀ e ∈ rs, s.next ≤ e.2 ∧ e.2 < s'.next)
  | fuel, s, [], s', rs => by
      intro h hk hseg hn
      simp only [hCloneFields, Option.some.injEq, Prod.mk.injEq] at h
      obtain ⟨hs', hr⟩ := h
      subst hs'
      subst hr
      exact ⟨hk, hseg, le_refl _, fun b _ => rfl, by simp⟩
  | 0, s, e :: rest, s', rs => by
      intro h
      simp [hCloneFields] at h
  | fuel + 1, s, e :: rest, s', rs => by
      intro h hk hseg hn
      rw [hCloneFields] at h
      cases hc : hClone fuel s e.2 with
      | none =>
          rw [hc] at h
          simp at h
      | some p =>
          obtain ⟨s1, a'⟩ := p
          simp only [hc] at h
          cases hcl : hCloneFields fuel s1 rest with
          | none =>
              rw [hcl] at h
              simp at h
          | some q =>
              obtain ⟨s2, rest'⟩ := q
              simp only [hcl, Option.some.injEq, Prod.mk.injEq] at h
              obtain ⟨hs', hr⟩ := h
              subst hs'
              subst hr
              obtain ⟨k1, g1, n1, a1, a2, f1⟩ :=
                hClone_spec n fuel s e.2 s1 a' hc hk hseg hn
              obtain ⟨k2, g2, n2, f2, r2⟩ :=
                hCloneFields_spec n fuel s1 rest s2 rest' hcl k1 g1 (by omega)
              refine ⟨k2, g2, by omega, ?_, ?_⟩
              · intro b hb
                rw [f2 b (by omega)]
                exact f1 b hb
              · intro x hx
                rcases List.mem_cons.mp hx with rfl | hx'
                · constructor
                  · simp only []
                    omega
                  · simp only []
                    omega
                · have := r2 x hx'
                  constructor
                  · omega
                  · omega

end

mutual

theorem hMergeObject_spec (n : Nat) :
    ∀ (fuel : Nat) (s : Store) (target : Nat) (ffs : List (String × Nat)) (source : String)
      (sources : SourceMap) (conflicts : List HConflict) (path : List String) (s' : Store)
      (so : SourceMap) (co : List HConflict),
      hMergeObject fuel s target ffs source sources conflicts path = some (s', so, co) →
      KeysBelow s → Segregated n s → n ≤ s.next → n ≤ target →
      KeysBelow s' ∧ Segregated n s' ∧ s.next ≤ s'.next ∧
      (∀ b, b < n → heapGet s' b = heapGet s b)
  | fuel, s, target, [], source, sources, conflicts, path, s', so, co => by
      intro h hk hseg hn ht
      simp only [hMergeObject, Option.some.injEq, Prod.mk.injEq] at h
      obtain ⟨hs', _, _⟩ := h
      subst hs'
      exact ⟨hk, hseg, le_refl _, fun b _ => rfl⟩
  | 0, s, target, e :: rest, source, sources, conflicts, path, s', so, co => by
      intro h
      simp [hMergeObject] at h
  | fuel + 1, s, target, (key, fv) :: rest, source, sources, conflicts, path, s', so, co => by
      intro h hk hseg hn ht
      rw [hMergeObject] at h
      cases hme : hMergeEntry fuel s target key fv source sources conflicts path with
      | none =>
          rw [hme] at h
          simp at h
      | some p =>
          obtain ⟨s1, so1, co1⟩ := p
          simp only [hme] at h
          obtain ⟨k1, g1, n1, f1⟩ :=
            hMergeEntry_spec n fuel s target key fv source sources conflicts path s1 so1
              co1 hme hk hseg hn ht
          obtain ⟨k2, g2, n2, f2⟩ :=
            hMergeObject_spec n fuel s1 target rest source so1 co1 path s' so co h k1 g1
              (by omega) ht
          refine ⟨k2, g2, by omega, ?_⟩
          intro b hb
          rw [f2 b hb]
          exact f1 b hb

theorem hMergeEntry_spec (n : Nat) :
    ∀ (fuel : Nat) (s : Store) (target : Nat) (key : String) (fv : Nat) (source : String)
      (sources : SourceMap) (conflicts : List HConflict) (path : List String) (s' : Store)
      (so : SourceMap) (co : List HConflict),
      hMergeEntry fuel s target key fv source sources conflicts path = some (s', so, co) →
      KeysBelow s → Segregated n s → n ≤ s.next → n ≤ target →
      KeysBelow s' ∧ Segregated n s' ∧ s.next ≤ s'.next ∧
      (∀ b, b < n → heapGet s' b = heapGet s b)
  | 0, s, target, key, fv, source, sources, conflicts, path, s', so, co => by
      intro h
      simp [hMergeEntry] at h
  | fuel + 1, s, target, key, fv, source, sources, conflicts, path, s', so, co => by
      intro h hk hseg hn ht
      rw [hMergeEntry] at h
      cases hgt : heapGet s target with
      | none =>
          rw [hgt] at h
          simp at h
      | some tnode =>
          cases tnode with
          | hobj targetFields =>
              have htf : ∀ e ∈ targetFields, n ≤ e.2 := by
                have hmem := heapGet_mem s target (.hobj targetFields) hgt
                have := hseg _ hmem ht
                simpa [nodeAbove] using this
              simp only [hgt] at h
              cases hgf : heapGet s fv with
              | none =>
                  rw [hgf] at h
                  simp at h
              | some fnode =>
                  cases fnode with
                  | hobj fragmentFields =>
                      simp only [hgf] at h
                      cases hfind : (targetFields.find? (fun e => e.1 = key)).map (·.2) with
                      | some existingAddr =>
                          have hea : n ≤ existingAddr := by
                            rcases hfe : targetFields.find? (fun e => e.1 = key) with _ | e0
                            · rw [hfe] at hfind
                              simp at hfind
                            · rw [hfe] at hfind
                              simp at hfind
                              have := htf e0 (List.mem_of_find?_eq_some hfe)
                              omega
                          simp only [hfind] at h
                          split at h
                          · exact hMergeObject_spec n fuel s existingAddr fragmentFields
                              source sources conflicts (path ++ [key]) s' so co h hk hseg
                              hn hea
                          · exact hMergeIntoFresh_spec n fuel s target key fragmentFields
                              source _ _ (path ++ [key]) s' so co h hk hseg hn ht
                      | none =>
                          simp only [hfind] at h
                          exact hMergeIntoFresh_spec n fuel s target key fragmentFields
                            source _ _ (path ++ [key]) s' so co h hk hseg hn ht
                  | hnull =>
                      simp only [hgf] at h
                      exact hMergeEntry_clone_case n fuel s target key fv source sources
                        conflicts path s' so co targetFields htf h hk hseg hn ht
                  | hbool bb =>
                      simp only [hgf] at h
                      exact hMergeEntry_clone_case n fuel s target key fv source sources
                        conflicts path s' so co targetFields htf h hk hseg hn ht
                  | hnum mm =>
                      simp only [hgf] at h
                      exact hMergeEntry_clone_case n fuel s target key fv source sources
                        conflicts path s' so co targetFields htf h hk hseg hn ht
                  | hstr ss =>
                      simp only [hgf] at h
                      exact hMergeEntry_clone_case n fuel s target key fv source sources
                        conflicts path s' so co targetFields htf h hk hseg hn ht
                  | harr es =>
                      simp only [hgf] at h
                      exact hMergeEntry_clone_case n fuel s target key fv source sources
                        conflicts path s' so co targetFields htf h hk hseg hn ht
          | hnull =>
              rw [hgt] at h
              simp at h
          | hbool bb =>
              rw [hgt] at h
              simp at h
          | hnum mm =>
              rw [hgt] at h
              simp at h
          | hstr ss =>
              rw [hgt] at h
              simp at h
          | harr es =>
              rw [hgt] at h
              simp at h

theorem hMergeEntry_clone_case (n : Nat) :
    ∀ (fuel : Nat) (s : Store) (target : Nat) (key : String) (fv : Nat) (source : String)
      (sources : SourceMap) (conflicts : List HConflict) (path : List String) (s' : Store)
      (so : SourceMap) (co : List HConflict) (targetFields : List (String × Nat)),
      (∀ e ∈ targetFields, n ≤ e.2) →
      (match hClone fuel s fv with
        | none => none
        | some (s1, cloned) =>
            match heapGet s1 target with
            | some (.hobj targetFields1) =>
                some (heapSet s1 target (.hobj (objSetAddr targetFields1 key cloned)),
                  mapSet (clearNestedSources sources (path ++ [key]))
                    (formatPath (path ++ [key])) source,
                  hRecordConflictIfNeeded fuel s
                    ((targetFields.find? (fun e => e.1 = key)).map (·.2))
                    fv source sources conflicts (path ++ [key]))
            | _ => none) = some (s', so, co) →
      KeysBelow s → Segregated n s → n ≤ s.next → n ≤ target →
      KeysBelow s' ∧ Segregated n s' ∧ s.next ≤ s'.next ∧
      (∀ b, b < n → heapGet s' b = heapGet s b)
  | fuel, s, target, key, fv, source, sources, conflicts, path, s', so, co, tf => by
      intro _htf h hk hseg hn ht
      cases hc : hClone fuel s fv with
      | none =>
          rw [hc] at h
          simp at h
      | some p =>
          obtain ⟨s1, cloned⟩ := p
          simp only [hc] at h
          obtain ⟨k1, g1, n1, c1, c2, f1⟩ := hClone_spec n fuel s fv s1 cloned hc hk hseg hn
          cases hgt1 : heapGet s1 target with
          | none =>
              rw [hgt1] at h
              simp at h
          | some tnode1 =>
              cases tnode1 with
              | hobj targetFields1 =>
                  have htf1 : ∀ e ∈ targetFields1, n ≤ e.2 := by
                    have hmem := heapGet_mem s1 target (.hobj targetFields1) hgt1
                    have := g1 _ hmem ht
                    simpa [nodeAbove] using this
                  simp only [hgt1, Option.some.injEq, Prod.mk.injEq] at h
                  obtain ⟨hs', _, _⟩ := h
                  subst hs'
                  have hnode : nodeAbove n (.hobj (objSetAddr targetFields1 key cloned)) := by
                    simp only [nodeAbove]
                    exact objSetAddr_above n targetFields1 key cloned htf1 (by omega)
                  refine ⟨keysBelow_heapSet s1 target _ k1,
                    segregated_heapSet n s1 target _ g1 hnode, ?_, ?_⟩
                  · simp only [heapSet]
                    omega
                  · intro b hb
                    rw [heapGet_heapSet_ne s1 target _ b (by omega)]
                    exact f1 b (by omega)
              | hnull =>
                  rw [hgt1] at h
                  simp at h
              | hbool bb =>
                  rw [hgt1] at h
                  simp at h
              | hnum mm =>
                  rw [hgt1] at h
                  simp at h
              | hstr ss =>
                  rw [hgt1] at h
                  simp at h
              | harr es =>
                  rw [hgt1] at h
                  simp at h

theorem hMergeIntoFresh_spec (n : Nat) :
    ∀ (fuel : Nat) (s : Store) (target : Nat) (key : String) (ffs : List (String × Nat))
      (source : String) (sources : SourceMap) (conflicts : List HConflict)
      (nextPath : List String) (s' : Store) (so : SourceMap) (co : List HConflict),
      hMergeIntoFresh fuel s target key ffs source sources conflicts nextPath =
        some (s', so, co) →
      KeysBelow s → Segregated n s → n ≤ s.next → n ≤ target →
      KeysBelow s' ∧ Segregated n s' ∧ s.next ≤ s'.next ∧
      (∀ b, b < n → heapGet s' b = heapGet s b)
  | 0, s, target, key, ffs, source, sources, conflicts, nextPath, s', so, co => by
      intro h
      simp [hMergeIntoFresh] at h
  | fuel + 1, s, target, key, ffs, source, sources, conflicts, nextPath, s', so, co => by
      intro h hk hseg hn ht
      rw [hMergeIntoFresh] at h
      cases hgt : heapGet s target with
      | none =>
          rw [hgt] at h
          simp at h
      | some tnode =>
          cases tnode with
          | hobj targetFields =>
              have htf : ∀ e ∈ targetFields, n ≤ e.2 := by
                have hmem := heapGet_mem s target (.hobj targetFields) hgt
                have := hseg _ hmem ht
                simpa [nodeAbove] using this
              simp only [hgt] at h
              have hka : KeysBelow (alloc s (.hobj [])).2 :=
                keysBelow_alloc s _ hk
              have hga : Segregated n (alloc s (.hobj [])).2 :=
                segregated_alloc n s _ hseg (by simp [nodeAbove])
              have hnode : nodeAbove n
                  (.hobj (objSetAddr targetFields key (alloc s (.hobj [])).1)) := by
                simp only [nodeAbove]
                exact objSetAddr_above n targetFields key _ htf (by simp [alloc]; omega)
              obtain ⟨k2, g2, n2, f2⟩ :=
                hMergeObject_spec n fuel
                  (heapSet (alloc s (.hobj [])).2 target
                    (.hobj (objSetAddr targetFields key (alloc s (.hobj [])).1)))
                  (alloc s (.hobj [])).1 ffs source sources conflicts nextPath s' so co h
                  (keysBelow_heapSet _ target _ hka)
                  (segregated_heapSet n _ target _ hga hnode)
                  (by simp [heapSet, alloc]; omega)
                  (by simp [alloc]; omega)
              refine ⟨k2, g2, ?_, ?_⟩
              · simp only [heapSet, alloc] at n2
                omega
              · intro b hb
                rw [f2 b hb, heapGet_heapSet_ne _ target _ b (by omega),
                  heapGet_alloc_ne s _ b (by omega)]
          | hnull =>
              rw [hgt] at h
              simp at h
          | hbool bb =>
              rw [hgt] at h
              simp at h
          | hnum mm =>
              rw [hgt] at h
              simp at h
          | hstr ss =>
              rw [hgt] at h
              simp at h
          | harr es =>
              rw [hgt] at h
              simp at h

end

theorem hMergeRun_spec (n : Nat) :
    ∀ (fuel : Nat) (s : Store) (merged : Nat) (fragments : List (String × Nat))
      (sources : SourceMap) (conflicts : List HConflict) (s' : Store) (so : SourceMap)
      (co : List HConflict),
      hMergeRun fuel s merged fragments sources conflicts = some (s', so, co) →
      KeysBelow s → Segregated n s → n ≤ s.next → n ≤ merged →
      KeysBelow s' ∧ Segregated n s' ∧ s.next ≤ s'.next ∧
      (∀ b, b < n → heapGet s' b = heapGet s b)
  | fuel, s, merged, [], sources, conflicts, s', so, co => by
      intro h hk hseg hn hm
      simp only [hMergeRun, Option.some.injEq, Prod.mk.injEq] at h
      obtain ⟨hs', _, _⟩ := h
      subst hs'
      exact ⟨hk, hseg, le_refl _, fun b _ => rfl⟩
  | 0, s, merged, f :: rest, sources, conflicts, s', so, co => by
      intro h
      simp [hMergeRun] at h
  | fuel + 1, s, merged, (source, fragmentAddr) :: rest, sources, conflicts, s', so, co => by
      intro h hk hseg hn hm
      rw [hMergeRun] at h
      cases hgf : heapGet s fragmentAddr with
      | none =>
          rw [hgf] at h
          simp at h
      | some fnode =>
          cases fnode with
          | hobj fragmentFields =>
              simp only [hgf] at h
              cases hmo : hMergeObject fuel s merged fragmentFields source sources
                  conflicts [] with
              | none =>
                  rw [hmo] at h
                  simp at h
              | some p =>
                  obtain ⟨s1, so1, co1⟩ := p
                  simp only [hmo] at h
                  obtain ⟨k1, g1, n1, f1⟩ :=
                    hMergeObject_spec n fuel s merged fragmentFields source sources
                      conflicts [] s1 so1 co1 hmo hk hseg hn hm
                  obtain ⟨k2, g2, n2, f2⟩ :=
                    hMergeRun_spec n fuel s1 merged rest so1 co1 s' so co h k1 g1
                      (by omega) hm
                  refine ⟨k2, g2, by omega, ?_⟩
                  intro b hb
                  rw [f2 b hb]
                  exact f1 b hb
          | hnull =>
              rw [hgf] at h
              simp at h
          | hbool bb =>
              rw [hgf] at h
              simp at h
          | hnum mm =>
              rw [hgf] at h
              simp at h
          | hstr ss =>
              rw [hgf] at h
              simp at h
          | harr es =>
              rw [hgf] at h
              simp at h

theorem hMergeJsonFragments_spec (fuel : Nat) (s : Store) (base : Nat)
    (fragments : List (String × Nat)) (s' : Store) (merged : Nat)
    (conflicts : List HConflict)
    (h : hMergeJsonFragments fuel s base fragments = some (s', merged, conflicts))
    (hk : KeysBelow s) :
    KeysBelow s' ∧ Segregated s.next s' ∧ s.next ≤ s'.next ∧ s.next ≤ merged ∧
    (∀ b, b < s.next → heapGet s' b = heapGet s b) := by
  rw [hMergeJsonFragments] at h
  cases hc : hClone fuel s base with
  | none =>
      rw [hc] at h
      simp at h
  | some p =>
      obtain ⟨s1, m⟩ := p
      simp only [hc] at h
      obtain ⟨k1, g1, n1, m1, m2, f1⟩ :=
        hClone_spec s.next fuel s base s1 m hc hk (segregated_of_keysBelow s hk)
          (le_refl _)
      cases hr : hMergeRun fuel s1 m fragments [] [] with
      | none =>
          rw [hr] at h
          simp at h
      | some q =>
          obtain ⟨s2, so2, co2⟩ := q
          simp only [hr, Option.some.injEq, Prod.mk.injEq] at h
          obtain ⟨hs', hm, hco⟩ := h
          subst hs'
          subst hm
          obtain ⟨k2, g2, n2, f2⟩ :=
            hMergeRun_spec s.next fuel s1 m fragments [] [] s2 so2 co2 hr k1 g1
              (by omega) m1
          refine ⟨k2, g2, by omega, m1, ?_⟩
          intro b hb
          rw [f2 b hb]
          exact f1 b hb

mutual

/-- Every address reachable from an address at or above `n` in a
segregated store is itself at or above `n`. -/
theorem reach_above (n : Nat) :
    ∀ (fuel : Nat) (s : Store) (a : Nat), Segregated n s → n ≤ a →
      ∀ x ∈ reachList fuel s a, n ≤ x
  | 0, s, a => by
      intro _ _ x hx
      simp [reachList] at hx
  | fuel + 1, s, a => by
      intro hseg ha x hx
      rw [reachList] at hx
      rcases List.mem_cons.mp hx with rfl | hx'
      · exact ha
      · cases hg : heapGet s a with
        | none =>
            rw [hg] at hx'
            simp at hx'
        | some node =>
            have hmem := heapGet_mem s a node hg
            have hnode := hseg _ hmem ha
            cases node with
            | harr es =>
                rw [hg] at hx'
                exact reachMany_above n fuel s es (by simpa [nodeAbove] using hnode)
                  hseg x hx'
            | hobj fs =>
                rw [hg] at hx'
                refine reachMany_above n fuel s (fs.map (·.2)) ?_ hseg x hx'
                intro y hy
                rcases List.mem_map.mp hy with ⟨e, he, rfl⟩
                have hfields : ∀ e ∈ fs, n ≤ e.2 := by simpa [nodeAbove] using hnode
                exact hfields e he
            | hnull =>
                rw [hg] at hx'
                simp at hx'
            | hbool bb =>
                rw [hg] at hx'
                simp at hx'
            | hnum mm =>
                rw [hg] at hx'
                simp at hx'
            | hstr ss =>
                rw [hg] at hx'
                simp at hx'

theorem reachMany_above (n : Nat) :
    ∀ (fuel : Nat) (s : Store) (as' : List Nat), (∀ y ∈ as', n ≤ y) → Segregated n s →
      ∀ x ∈ reachListMany fuel s as', n ≤ x
  | fuel, s, [] => by
      intro _ _ x hx
      simp [reachListMany] at hx
  | 0, s, a :: rest => by
      intro _ _ x hx
      simp [reachListMany] at hx
  | fuel + 1, s, a :: rest => by
      intro hall hseg x hx
      rw [reachListMany] at hx
      rcases List.mem_append.mp hx with h1 | h1
      · exact reach_above n fuel s a hseg (hall a (by simp)) x h1
      · exact reachMany_above n fuel s rest (fun y hy => hall y (by simp [hy])) hseg x h1

end

mutual

/-- Reading a tree that lives entirely below `n` is unaffected by changes
at or above `n`. -/
theorem readTree_frame_below (n : Nat) (s s' : Store)
    (hframe : ∀ b, b < n → heapGet s' b = heapGet s b) :
    ∀ (fuel : Nat) (a : Nat), (∀ x ∈ reachList fuel s a, x < n) →
      readTree fuel s' a = readTree fuel s a
  | 0, a => by
      intro _
      rfl
  | fuel + 1, a => by
      intro hlow
      have ha : a < n := hlow a (by rw [reachList]; simp)
      rw [readTree, readTree, hframe a ha]
      cases hg : heapGet s a with
      | none => rfl
      | some node =>
          cases node with
          | harr es =>
              have hmany : ∀ x ∈ reachListMany fuel s es, x < n := by
                intro x hx
                refine hlow x ?_
                rw [reachList, hg]
                simp [hx]
              simp only [readTreeList_frame_below n s s' hframe fuel es hmany]
          | hobj fs =>
              have hmany : ∀ x ∈ reachListMany fuel s (fs.map (·.2)), x < n := by
                intro x hx
                refine hlow x ?_
                rw [reachList, hg]
                simp [hx]
              simp only [readTreeFields_frame_below n s s' hframe fuel fs hmany]
          | hnull => rfl
          | hbool bb => rfl
          | hnum mm => rfl
          | hstr ss => rfl

theorem readTreeList_frame_below (n : Nat) (s s' : Store)
    (hframe : ∀ b, b < n → heapGet s' b = heapGet s b) :
    ∀ (fuel : Nat) (as' : List Nat), (∀ x ∈ reachListMany fuel s as', x < n) →
      readTreeList fuel s' as' = readTreeList fuel s as'
  | fuel, [] => by
      intro _
      cases fuel <;> rfl
  | 0, a :: rest => by
      intro _
      rfl
  | fuel + 1, a :: rest => by
      intro hlow
      rw [readTreeList, readTreeList,
        readTree_frame_below n s s' hframe fuel a (fun x hx => hlow x (by
          rw [reachListMany]
          exact List.mem_append.mpr (Or.inl hx))),
        readTreeList_frame_below n s s' hframe fuel rest (fun x hx => hlow x (by
          rw [reachListMany]
          exact List.mem_append.mpr (Or.inr hx)))]

theorem readTreeFields_frame_below (n : Nat) (s s' : Store)
    (hframe : ∀ b, b < n → heapGet s' b = heapGet s b) :
    ∀ (fuel : Nat) (fs : List (String × Nat)),
      (∀ x ∈ reachListMany fuel s (fs.map (·.2)), x < n) →
      readTreeFields fuel s' fs = readTreeFields fuel s fs
  | fuel, [] => by
      intro _
      cases fuel <;> rfl
  | 0, e :: rest => by
      intro _
      rfl
  | fuel + 1, e :: rest => by
      intro hlow
      rw [readTreeFields, readTreeFields,
        readTree_frame_below n s s' hframe fuel e.2 (fun x hx => hlow x (by
          rw [List.map_cons, reachListMany]
          exact List.mem_append.mpr (Or.inl hx))),
        readTreeFields_frame_below n s s' hframe fuel rest (fun x hx => hlow x (by
          rw [List.map_cons, reachListMany]
          exact List.mem_append.mpr (Or.inr hx)))]

end

/-- C10: over the heap model, `mergeJsonFragments` builds its result on a
deep clone and never mutates pre-existing cells: every cell allocated
before the call reads back unchanged, so the base object and every
fragment value (any tree living in the pre-existing region) are
structurally identical to their values before the call; and the returned
merged root, together with everything reachable from it, lives entirely
in the freshly allocated region, so the merged object shares no mutable
structure with the base or the fragments. -/
theorem c10_mergeJsonFragments_frame (fuel : Nat) (s : Store) (base : Nat)
    (fragments : List (String × Nat)) (s' : Store) (merged : Nat)
    (conflicts : List HConflict)
    (h : hMergeJsonFragments fuel s base fragments = some (s', merged, conflicts))
    (hk : KeysBelow s) :
    (∀ b, b < s.next → heapGet s' b = heapGet s b) ∧
    (∀ fuel2 a, (∀ x ∈ reachList fuel2 s a, x < s.next) →
      readTree fuel2 s' a = readTree fuel2 s a) ∧
    s.next ≤ merged ∧
    (∀ fuel2 x, x ∈ reachList fuel2 s' merged → s.next ≤ x) := by
  obtain ⟨k2, g2, n2, m1, f⟩ :=
    hMergeJsonFragments_spec fuel s base fragments s' merged conflicts h hk
  refine ⟨f, ?_, m1, ?_⟩
  · intro fuel2 a hlow
    exact readTree_frame_below s.next s s' f fuel2 a hlow
  · intro fuel2 x hx
    exact reach_above s.next fuel2 s' merged g2 m1 x hx

def storeExample : Store :=
  ⟨[(0, .hnum 1), (1, .hobj [("a", 0)]), (2, .hnum 2), (3, .hobj [("b", 2)])], 4⟩

def mergedStoreExample : Store :=
  ⟨[(0, .hnum 1), (1, .hobj [("a", 0)]), (2, .hnum 2), (3, .hobj [("b", 2)]),
    (4, .hnum 1), (5, .hobj [("a", 4), ("b", 6)]), (6, .hnum 2)], 7⟩

/-- C10 (witness): merging the fragment `\x7bb: 2\x7d` from source `s`
into the base `\x7ba: 1\x7d` leaves the base's and the fragment's cells
and trees untouched and yields a merged root in the fresh region. -/
theorem c10_mergeJsonFragments_frame_witness :
    heapGet mergedStoreExample 1 = heapGet storeExample 1 ∧
    readTree 4 mergedStoreExample 3 = readTree 4 storeExample 3 ∧
    (4 : Nat) ≤ 5 ∧
    (∀ x ∈ reachList 4 mergedStoreExample 5, 4 ≤ x) :=
  have happ := c10_mergeJsonFragments_frame 10 storeExample 1 [("s", 3)]
    mergedStoreExample 5 [] (by decide) (by unfold KeysBelow; decide)
  ⟨happ.1 1 (by decide), happ.2.1 4 3 (by decide), happ.2.2.1,
   fun x hx => happ.2.2.2 4 x hx⟩

end Cookie
